import Mathlib

/-!
# Verification of the legacy-layout-to-tree converter

A shallow embedding of
`superset/assets/javascripts/dashboard/v2/util/layoutConverter.js`.

Items carry non-negative integer grid coordinates and sizes (the inputs the
converter is specified for), so coordinates are modelled as `Nat`.  JS number
values that can become `-Infinity` (a column's `meta.width`, produced by
`Math.max.apply(null, [])`) are modelled by the type `JVal`.

The JS registry is a plain object mapping id strings to node objects, mutated
in place during the recursion; it is modelled as an association list in
insertion order together with the shared id counter (`ConvState`).  Local JS
variables such as `rowContainer` alias the registered object, so reads and
writes through them are modelled as registry lookups/updates at the node's id
(fresh ids never collide with existing keys, which is proved below, so the
aliasing is exact).
-/

set_option maxRecDepth 100000

namespace LayoutConverter

/-- One legacy layout item (`{row, col, size_x, size_y, slice_id}`). -/
structure Item where
  row : Nat
  col : Nat
  size_x : Nat
  size_y : Nat
  slice_id : String
deriving DecidableEq, Repr

/-- A JS number as it occurs in derived widths: either finite or `-Infinity`
(the value of `Math.max()` of an empty argument list). -/
inductive JVal where
  | negInf
  | num (n : Int)
deriving DecidableEq, Repr

/-- JS `+` on width values: `-Infinity` absorbs. -/
def JVal.add : JVal → JVal → JVal
  | .negInf, _ => .negInf
  | _, .negInf => .negInf
  | .num a, .num b => .num (a + b)

/-- JS `Math.max` on two width values. -/
def JVal.jmax : JVal → JVal → JVal
  | .negInf, y => y
  | x, .negInf => x
  | .num a, .num b => .num (max a b)

/-- The `meta` object of a node; fields that a given node kind does not set
are `none`. -/
structure Meta where
  rowStyle : Option String := none
  width : Option JVal := none
  height : Option Nat := none
  sliceId : Option String := none
  row : Option Nat := none
  col : Option Nat := none
deriving DecidableEq, Repr

/-- An output node.  The root node of `convert` has no `meta` field at all,
hence `meta : Option Meta`. -/
structure Node where
  version : String
  type : String
  id : String
  children : List String
  meta : Option Meta
deriving DecidableEq, Repr

/-- `Number.MAX_VALUE` as an exact integer: `(2^53 - 1) * 2^971`. -/
def maxValue : Nat := (2 ^ 53 - 1) * 2 ^ 971

/-- Result of `getBoundary`. -/
structure Boundary where
  top : Nat
  bottom : Nat
  left : Nat
  right : Nat
deriving DecidableEq, Repr

/-- One step of the `layout.forEach` loop in `getBoundary`. -/
def boundStep (b : Boundary) (item : Item) : Boundary :=
  { top := if item.row ≤ b.top then item.row else b.top
    left := if item.col ≤ b.left then item.col else b.left
    bottom := if b.bottom ≤ item.row + item.size_y then item.row + item.size_y else b.bottom
    right := if b.right ≤ item.col + item.size_x then item.col + item.size_x else b.right }

/-- `getBoundary(layout)`: fold of the update over the items, starting from
`top = left = Number.MAX_VALUE`, `bottom = 0`, `right = 1`. -/
def getBoundary (layout : List Item) : Boundary :=
  layout.foldl boundStep { top := maxValue, bottom := 0, left := maxValue, right := 1 }

/-- `sortByRowId` as the Boolean "less or equal" order it induces on the
stable JS sort. -/
def sortByRowId (a b : Item) : Bool := decide (a.row ≤ b.row)

/-- `sortByColId` likewise. -/
def sortByColId (a b : Item) : Bool := decide (a.col ≤ b.col)

/-- Insert `x` after every run-in from the front that is `≤ x`: the insertion
step of a stable insertion sort (new element goes after equal keys). -/
def insStable (le : Item → Item → Bool) (x : Item) : List Item → List Item
  | [] => [x]
  | y :: ys => if le y x then y :: insStable le x ys else x :: y :: ys

/-- `Array.prototype.sort` with a consistent comparator is a stable sort; a
stable sort by a total preorder has a unique result, modelled here by a stable
insertion sort (elements inserted left to right, after their equals). -/
def sortJS (le : Item → Item → Bool) (l : List Item) : List Item :=
  l.foldl (fun acc x => insStable le x acc) []

/-- The adjacent-pair `.some` scan inside `hasOverlap` (index-wise over the
sorted copy). -/
def overlapScan (xAxis : Bool) : List Item → Bool
  | a :: b :: rest =>
    (if xAxis then decide (b.col < a.col + a.size_x) else decide (b.row < a.row + a.size_y))
      || overlapScan xAxis (b :: rest)
  | _ => false

/-- `hasOverlap(layout, xAxis)`. -/
def hasOverlap (layout : List Item) (xAxis : Bool := true) : Bool :=
  overlapScan xAxis (sortJS (if xAxis then sortByColId else sortByRowId) layout)

/-- The `currentItems.every(...)` classification of the row-divider scan at
line `currentRow`: `some (lower, upper)` when every item falls on one side
(`isRowDivider`), `none` when some item straddles the line. -/
def classifyRow (currentRow : Nat) : List Item → Option (List Item × List Item)
  | [] => some ([], [])
  | item :: rest =>
    if item.row + item.size_y ≤ currentRow then
      match classifyRow currentRow rest with
      | some (lower, upper) => some (item :: lower, upper)
      | none => none
    else if currentRow ≤ item.row then
      match classifyRow currentRow rest with
      | some (lower, upper) => some (lower, item :: upper)
      | none => none
    else none

/-- The column-divider analogue (`isColDivider`). -/
def classifyCol (currentCol : Nat) : List Item → Option (List Item × List Item)
  | [] => some ([], [])
  | item :: rest =>
    if item.col + item.size_x ≤ currentCol then
      match classifyCol currentCol rest with
      | some (lower, upper) => some (item :: lower, upper)
      | none => none
    else if currentCol ≤ item.col then
      match classifyCol currentCol rest with
      | some (lower, upper) => some (lower, item :: upper)
      | none => none
    else none

/-- The row-divider `while` loop.  The loop runs `currentRow` from its start
value while `currentItems.length && currentRow <= bottom`, incrementing every
iteration, so the remaining iteration count `bottom + 1 - currentRow` is
passed as an explicit structural argument (`fuel`). -/
def scanRowsAux (currentRow : Nat) : Nat → List Item → List (List Item)
  | 0, _ => []
  | fuel + 1, items =>
    if items.isEmpty then []
    else
      match classifyRow currentRow items with
      | some (lower, upper) => lower :: scanRowsAux (currentRow + 1) fuel upper
      | none => scanRowsAux (currentRow + 1) fuel items

/-- The `layers` produced by the row-divider scan from `top + 1` to `bottom`. -/
def findRowLayers (top bottom : Nat) (layout : List Item) : List (List Item) :=
  scanRowsAux (top + 1) (bottom - top) layout

/-- Id of a synthesized row container (`'DASHBOARD_ROW_TYPE-' + generateId()`). -/
def rowIdStr (n : Nat) : String := "DASHBOARD_ROW_TYPE-" ++ toString n

/-- Id of a synthesized column container. -/
def colIdStr (n : Nat) : String := "DASHBOARD_COLUMN_TYPE-" ++ toString n

/-- Id of a synthesized chart holder. -/
def chartIdStr (n : Nat) : String := "DASHBOARD_CHART_TYPE-" ++ toString n

/-- The fixed root id. -/
def rootId : String := "DASHBOARD_ROOT_ID"

/-- `getRowContainer()` with the counter value it draws. -/
def getRowContainer (n : Nat) : Node :=
  { version := "v2", type := "DASHBOARD_ROW_TYPE", id := rowIdStr n, children := []
    meta := some { rowStyle := some "ROW_TRANSPARENT" } }

/-- `getColContainer()`. -/
def getColContainer (n : Nat) : Node :=
  { version := "v2", type := "DASHBOARD_COLUMN_TYPE", id := colIdStr n, children := []
    meta := some {} }

/-- `getChartHolder(item)`: derived `width = Math.max(1, Math.floor(size_x / 4.0))`,
`height = size_y * 2`, `sliceId = 'slice_' + slice_id`. -/
def getChartHolder (n : Nat) (item : Item) : Node :=
  { version := "v2", type := "DASHBOARD_CHART_TYPE", id := chartIdStr n, children := []
    meta := some { width := some (JVal.num (Nat.max 1 (item.size_x / 4)))
                   height := some (item.size_y * 2)
                   sliceId := some ("slice_" ++ item.slice_id)
                   row := some item.row
                   col := some item.col } }

/-- The registry (`root` / `result` object): id-keyed nodes in insertion
order. -/
abbrev Registry := List (String × Node)

/-- `root[k] = v`: overwrite in place if the key exists (JS keeps the original
insertion position), else append.  During conversion the key is always fresh,
so the overwrite branch is never taken. -/
def setEntry (reg : Registry) (k : String) (v : Node) : Registry :=
  if reg.any (fun p => decide (p.1 = k)) then
    reg.map (fun p => if p.1 = k then (k, v) else p)
  else reg ++ [(k, v)]

/-- Mutation of the node object stored at key `k` (all JS variables holding a
node alias its registry entry). -/
def updateEntry (reg : Registry) (k : String) (f : Node → Node) : Registry :=
  reg.map (fun p => if p.1 = k then (p.1, f p.2) else p)

/-- `root[k]`. -/
def lookupNode : Registry → String → Option Node
  | [], _ => none
  | p :: rest, k => if p.1 = k then some p.2 else lookupNode rest k

/-- The conversion state: the shared `generateId` counter plus the registry
object being populated. -/
structure ConvState where
  counter : Nat
  root : Registry
deriving DecidableEq, Repr

/-- `parent.children.push(cid)` for the node registered at `pid`. -/
def pushChild (s : ConvState) (pid cid : String) : ConvState :=
  { s with root := updateEntry s.root pid (fun n => { n with children := n.children ++ [cid] }) }

/-- `root[child].meta.width`; the defaults are never hit during a conversion
(children exist and carry a width by the time a container width is read). -/
def childWidth (reg : Registry) (k : String) : JVal :=
  ((lookupNode reg k).map (fun n => ((n.meta.bind Meta.width).getD JVal.negInf))).getD JVal.negInf

/-- `rowContainer.children.reduce((pre, child) => pre + root[child].meta.width, 0)`. -/
def rowWidthVal (reg : Registry) (children : List String) : JVal :=
  children.foldl (fun pre c => pre.add (childWidth reg c)) (JVal.num 0)

/-- `Math.max.apply(null, colContainer.children.map(child => root[child].meta.width))`:
`-Infinity` when the column has no children. -/
def colWidthVal (reg : Registry) (children : List String) : JVal :=
  (children.map (childWidth reg)).foldl JVal.jmax JVal.negInf

/-- Set `meta.width` of the node at `k` to the row aggregation over its
current children. -/
def setRowWidth (s : ConvState) (k : String) : ConvState :=
  { s with root := updateEntry s.root k (fun n =>
      { n with meta := n.meta.map (fun m => { m with width := some (rowWidthVal s.root n.children) }) }) }

/-- Set `meta.width` of the node at `k` to the column aggregation over its
current children. -/
def setColWidth (s : ConvState) (k : String) : ConvState :=
  { s with root := updateEntry s.root k (fun n =>
      { n with meta := n.meta.map (fun m => { m with width := some (colWidthVal s.root n.children) }) }) }

/-- `root[ch.id] = ch; parent.children.push(ch.id)` for a fresh chart holder. -/
def addChartTo (s : ConvState) (pid : String) (item : Item) : ConvState :=
  let ch := getChartHolder s.counter item
  pushChild { counter := s.counter + 1, root := setEntry s.root ch.id ch } pid ch.id

mutual

/-- `doConvert(layout, level, parent, root)`. -/
def doConvert (layout : List Item) (level : Nat) (parentId : String) (s : ConvState) : ConvState :=
  match layout with
  | [] => s
  | [item] =>
    let chartHolder := getChartHolder s.counter item
    pushChild { counter := s.counter + 1, root := setEntry s.root chartHolder.id chartHolder }
      parentId chartHolder.id
  | _ :: _ :: _ =>
    let b := getBoundary layout
    processLayers (findRowLayers b.top b.bottom layout) level parentId b.left b.right s
termination_by (2 - level, 3, 0)

/-- The `layers.forEach(...)` loop. -/
def processLayers (layers : List (List Item)) (level : Nat) (parentId : String)
    (left right : Nat) (s : ConvState) : ConvState :=
  match layers with
  | [] => s
  | layer :: rest =>
    processLayers rest level parentId left right (processLayer layer level parentId left right s)
termination_by (2 - level, 2, layers.length)

/-- The body of the `layers.forEach` callback for one layer. -/
def processLayer (layer : List Item) (level : Nat) (parentId : String)
    (left right : Nat) (s : ConvState) : ConvState :=
  let rowContainer := getRowContainer s.counter
  let s1 : ConvState := { counter := s.counter + 1, root := setEntry s.root rowContainer.id rowContainer }
  let s2 := pushChild s1 parentId rowContainer.id
  if h : 2 ≤ level ∨ hasOverlap layer = false then
    let s3 := (sortJS sortByColId layer).foldl (fun t item => addChartTo t rowContainer.id item) s2
    setRowWidth s3 rowContainer.id
  else
    have hlv : level < 2 := by
      rcases Nat.lt_or_ge level 2 with h2 | h2
      · exact h2
      · exact absurd (Or.inl h2) h
    let s3 := scanColsLoop (right - left) (left + 1) layer level rowContainer.id s2 hlv
    setRowWidth s3 rowContainer.id
termination_by (2 - level, 1, 0)

/-- The column-divider `while` loop inside a layer.  As with the row scan the
remaining iteration count `right + 1 - currentCol` is the structural `fuel`
argument; `hlv` records that this branch is only reachable below the depth
cap (`level >= 2` forces the flat branch), which bounds the recursion. -/
def scanColsLoop (fuel currentCol : Nat) (items : List Item) (level : Nat)
    (rowId : String) (s : ConvState) (hlv : level < 2) : ConvState :=
  match fuel with
  | 0 => s
  | fuel' + 1 =>
    if items.isEmpty then s
    else
      match classifyCol currentCol items with
      | some (lower, upper) =>
        let colContainer := getColContainer s.counter
        let s1 : ConvState := { counter := s.counter + 1, root := setEntry s.root colContainer.id colContainer }
        let s2 := pushChild s1 rowId colContainer.id
        let s3 :=
          if hasOverlap lower false = false then
            (sortJS sortByRowId lower).foldl (fun t item => addChartTo t colContainer.id item) s2
          else
            doConvert lower (level + 2) colContainer.id s2
        let s4 := setColWidth s3 colContainer.id
        scanColsLoop fuel' (currentCol + 1) upper level rowId s4 hlv
      | none => scanColsLoop fuel' (currentCol + 1) items level rowId s hlv
termination_by (2 - level, 0, fuel)

end

/-! ## A budget-indexed evaluator

`doConvert` and its loops are defined by well-founded recursion, which the
kernel cannot reduce on concrete inputs.  `runB` is the same procedure
flattened over an explicit call datatype and recursing structurally on a
budget that only needs to exceed the call depth; `runB_eq_spec` below proves
it agrees with the well-founded definitions whenever the budget is large
enough, which lets concrete conversions be computed by `decide`. -/

/-- A pending call of one of the four mutually recursive procedures. -/
inductive Call where
  | conv (layout : List Item) (level : Nat) (parentId : String)
  | clayers (layers : List (List Item)) (level : Nat) (parentId : String) (left right : Nat)
  | clayer (layer : List Item) (level : Nat) (parentId : String) (left right : Nat)
  | ccols (fuel currentCol : Nat) (items : List Item) (level : Nat) (rowId : String)

/-- Budget-indexed evaluation of a call; returns the state unchanged on
budget exhaustion (never reached for a sufficient budget). -/
def runB : Nat → Call → ConvState → ConvState
  | 0, _, s => s
  | bd + 1, c, s =>
    match c with
    | .conv layout level parentId =>
      match layout with
      | [] => s
      | [item] =>
        let chartHolder := getChartHolder s.counter item
        pushChild { counter := s.counter + 1, root := setEntry s.root chartHolder.id chartHolder }
          parentId chartHolder.id
      | _ :: _ :: _ =>
        let b := getBoundary layout
        runB bd (.clayers (findRowLayers b.top b.bottom layout) level parentId b.left b.right) s
    | .clayers layers level parentId left right =>
      match layers with
      | [] => s
      | layer :: rest =>
        runB bd (.clayers rest level parentId left right)
          (runB bd (.clayer layer level parentId left right) s)
    | .clayer layer level parentId left right =>
      let rowContainer := getRowContainer s.counter
      let s1 : ConvState := { counter := s.counter + 1, root := setEntry s.root rowContainer.id rowContainer }
      let s2 := pushChild s1 parentId rowContainer.id
      if 2 ≤ level ∨ hasOverlap layer = false then
        setRowWidth ((sortJS sortByColId layer).foldl (fun t item => addChartTo t rowContainer.id item) s2)
          rowContainer.id
      else
        setRowWidth (runB bd (.ccols (right - left) (left + 1) layer level rowContainer.id) s2)
          rowContainer.id
    | .ccols fuel currentCol items level rowId =>
      match fuel with
      | 0 => s
      | fuel' + 1 =>
        if items.isEmpty then s
        else
          match classifyCol currentCol items with
          | some (lower, upper) =>
            let colContainer := getColContainer s.counter
            let s1 : ConvState := { counter := s.counter + 1, root := setEntry s.root colContainer.id colContainer }
            let s2 := pushChild s1 rowId colContainer.id
            let s3 :=
              if hasOverlap lower false = false then
                (sortJS sortByRowId lower).foldl (fun t item => addChartTo t colContainer.id item) s2
              else
                runB bd (.conv lower (level + 2) colContainer.id) s2
            let s4 := setColWidth s3 colContainer.id
            runB bd (.ccols fuel' (currentCol + 1) upper level rowId) s4
          | none => runB bd (.ccols fuel' (currentCol + 1) items level rowId) s

/-- A divider classification splits the remaining item list into a
permutation of itself. -/
theorem classifyRow_perm (cr : Nat) :
    ∀ (l lo up : List Item), classifyRow cr l = some (lo, up) → (lo ++ up).Perm l := by
  intro l
  induction l with
  | nil => intro lo up h; simp [classifyRow] at h; simp [h.1, h.2]
  | cons x rest ih =>
    intro lo up h
    simp only [classifyRow] at h
    split at h
    · cases hrec : classifyRow cr rest with
      | none => rw [hrec] at h; simp at h
      | some p =>
        rw [hrec] at h
        obtain ⟨lo', up'⟩ := p
        simp at h
        obtain ⟨h1, h2⟩ := h
        subst h1; subst h2
        simpa using (ih lo' up' hrec).cons x
    · split at h
      · cases hrec : classifyRow cr rest with
        | none => rw [hrec] at h; simp at h
        | some p =>
          rw [hrec] at h
          obtain ⟨lo', up'⟩ := p
          simp at h
          obtain ⟨h1, h2⟩ := h
          subst h1; subst h2
          exact (List.perm_middle).trans ((ih lo' up' hrec).cons x)
      · simp at h

/-- Column analogue of `classifyRow_perm`. -/
theorem classifyCol_perm (cc : Nat) :
    ∀ (l lo up : List Item), classifyCol cc l = some (lo, up) → (lo ++ up).Perm l := by
  intro l
  induction l with
  | nil => intro lo up h; simp [classifyCol] at h; simp [h.1, h.2]
  | cons x rest ih =>
    intro lo up h
    simp only [classifyCol] at h
    split at h
    · cases hrec : classifyCol cc rest with
      | none => rw [hrec] at h; simp at h
      | some p =>
        rw [hrec] at h
        obtain ⟨lo', up'⟩ := p
        simp at h
        obtain ⟨h1, h2⟩ := h
        subst h1; subst h2
        simpa using (ih lo' up' hrec).cons x
    · split at h
      · cases hrec : classifyCol cc rest with
        | none => rw [hrec] at h; simp at h
        | some p =>
          rw [hrec] at h
          obtain ⟨lo', up'⟩ := p
          simp at h
          obtain ⟨h1, h2⟩ := h
          subst h1; subst h2
          exact (List.perm_middle).trans ((ih lo' up' hrec).cons x)
      · simp at h

/-- Members of the lower part of a row classification. -/
theorem classifyRow_mem_lower {cr : Nat} {l lo up : List Item}
    (h : classifyRow cr l = some (lo, up)) : ∀ i ∈ lo, i ∈ l := by
  intro i hi
  exact (classifyRow_perm cr l lo up h).mem_iff.mp (List.mem_append.mpr (Or.inl hi))

/-- Members of the upper part of a row classification. -/
theorem classifyRow_mem_upper {cr : Nat} {l lo up : List Item}
    (h : classifyRow cr l = some (lo, up)) : ∀ i ∈ up, i ∈ l := by
  intro i hi
  exact (classifyRow_perm cr l lo up h).mem_iff.mp (List.mem_append.mpr (Or.inr hi))

/-- Members of the lower part of a column classification. -/
theorem classifyCol_mem_lower {cc : Nat} {l lo up : List Item}
    (h : classifyCol cc l = some (lo, up)) : ∀ i ∈ lo, i ∈ l := by
  intro i hi
  exact (classifyCol_perm cc l lo up h).mem_iff.mp (List.mem_append.mpr (Or.inl hi))

/-- Members of the upper part of a column classification. -/
theorem classifyCol_mem_upper {cc : Nat} {l lo up : List Item}
    (h : classifyCol cc l = some (lo, up)) : ∀ i ∈ up, i ∈ l := by
  intro i hi
  exact (classifyCol_perm cc l lo up h).mem_iff.mp (List.mem_append.mpr (Or.inr hi))

/-- The row scan produces at most one layer per scan line. -/
theorem scanRowsAux_length (cr : Nat) :
    ∀ (fuel : Nat) (items : List Item), (scanRowsAux cr fuel items).length ≤ fuel := by
  intro fuel
  induction fuel generalizing cr with
  | zero => intro items; simp [scanRowsAux]
  | succ fuel ih =>
    intro items
    simp only [scanRowsAux]
    split
    · simp
    · split
      · simpa using Nat.succ_le_succ (ih (cr + 1) _)
      · exact Nat.le_succ_of_le (ih (cr + 1) _)

/-- Every item of every layer produced by the row scan is an input item. -/
theorem scanRowsAux_mem (cr : Nat) :
    ∀ (fuel : Nat) (items layer : List Item), layer ∈ scanRowsAux cr fuel items →
      ∀ i ∈ layer, i ∈ items := by
  intro fuel
  induction fuel generalizing cr with
  | zero => intro items layer h; simp [scanRowsAux] at h
  | succ fuel ih =>
    intro items layer h
    simp only [scanRowsAux] at h
    split at h
    · simp at h
    · split at h
      case _ lo up heq =>
        rcases List.mem_cons.mp h with h1 | h1
        · subst h1; exact classifyRow_mem_lower heq
        · intro i hi
          exact classifyRow_mem_upper heq _ (ih (cr + 1) _ _ h1 i hi)
      case _ heq => exact ih (cr + 1) _ _ h

/-- The fold underlying `getBoundary` only increases `bottom`. -/
theorem foldl_boundStep_bottom_mono (l : List Item) :
    ∀ b : Boundary, b.bottom ≤ (l.foldl boundStep b).bottom := by
  induction l with
  | nil => intro b; simp
  | cons x rest ih =>
    intro b
    refine le_trans ?_ (ih (boundStep b x))
    simp only [boundStep]
    split <;> omega

/-- `bottom` dominates every item's lower edge. -/
theorem foldl_boundStep_bottom_ge (l : List Item) :
    ∀ (b : Boundary) (i : Item), i ∈ l → i.row + i.size_y ≤ (l.foldl boundStep b).bottom := by
  induction l with
  | nil => intro b i h; simp at h
  | cons x rest ih =>
    intro b i h
    rcases List.mem_cons.mp h with h1 | h1
    · rw [h1]
      refine le_trans ?_ (foldl_boundStep_bottom_mono rest (boundStep b x))
      simp only [boundStep]
      split <;> omega
    · exact ih (boundStep b x) i h1

/-- `bottom` is bounded by any common bound on the items and the initial
accumulator. -/
theorem foldl_boundStep_bottom_le (l : List Item) (M : Nat) :
    ∀ b : Boundary, b.bottom ≤ M → (∀ i ∈ l, i.row + i.size_y ≤ M) →
      (l.foldl boundStep b).bottom ≤ M := by
  induction l with
  | nil => intro b hb _; simpa using hb
  | cons x rest ih =>
    intro b hb hl
    refine ih (boundStep b x) ?_ (fun i hi => hl i (List.mem_cons_of_mem x hi))
    have := hl x (List.mem_cons_self x rest)
    simp only [boundStep]
    split <;> omega

/-- The fold underlying `getBoundary` only increases `right`. -/
theorem foldl_boundStep_right_mono (l : List Item) :
    ∀ b : Boundary, b.right ≤ (l.foldl boundStep b).right := by
  induction l with
  | nil => intro b; simp
  | cons x rest ih =>
    intro b
    refine le_trans ?_ (ih (boundStep b x))
    simp only [boundStep]
    split <;> omega

/-- `right` dominates every item's right edge. -/
theorem foldl_boundStep_right_ge (l : List Item) :
    ∀ (b : Boundary) (i : Item), i ∈ l → i.col + i.size_x ≤ (l.foldl boundStep b).right := by
  induction l with
  | nil => intro b i h; simp at h
  | cons x rest ih =>
    intro b i h
    rcases List.mem_cons.mp h with h1 | h1
    · rw [h1]
      refine le_trans ?_ (foldl_boundStep_right_mono rest (boundStep b x))
      simp only [boundStep]
      split <;> omega
    · exact ih (boundStep b x) i h1

/-- `right` is bounded by any common bound on the items and the initial
accumulator. -/
theorem foldl_boundStep_right_le (l : List Item) (M : Nat) :
    ∀ b : Boundary, b.right ≤ M → (∀ i ∈ l, i.col + i.size_x ≤ M) →
      (l.foldl boundStep b).right ≤ M := by
  induction l with
  | nil => intro b hb _; simpa using hb
  | cons x rest ih =>
    intro b hb hl
    refine ih (boundStep b x) ?_ (fun i hi => hl i (List.mem_cons_of_mem x hi))
    have := hl x (List.mem_cons_self x rest)
    simp only [boundStep]
    split <;> omega

/-- The fold underlying `getBoundary` only decreases `top`. -/
theorem foldl_boundStep_top_mono (l : List Item) :
    ∀ b : Boundary, (l.foldl boundStep b).top ≤ b.top := by
  induction l with
  | nil => intro b; simp
  | cons x rest ih =>
    intro b
    refine le_trans (ih (boundStep b x)) ?_
    simp only [boundStep]
    split <;> omega

/-- `top` is below every item's top edge. -/
theorem foldl_boundStep_top_le (l : List Item) :
    ∀ (b : Boundary) (i : Item), i ∈ l → (l.foldl boundStep b).top ≤ i.row := by
  induction l with
  | nil => intro b i h; simp at h
  | cons x rest ih =>
    intro b i h
    rcases List.mem_cons.mp h with h1 | h1
    · rw [h1]
      refine le_trans (foldl_boundStep_top_mono rest (boundStep b x)) ?_
      simp only [boundStep]
      split <;> omega
    · exact ih (boundStep b x) i h1

/-- The fold underlying `getBoundary` only decreases `left`. -/
theorem foldl_boundStep_left_mono (l : List Item) :
    ∀ b : Boundary, (l.foldl boundStep b).left ≤ b.left := by
  induction l with
  | nil => intro b; simp
  | cons x rest ih =>
    intro b
    refine le_trans (ih (boundStep b x)) ?_
    simp only [boundStep]
    split <;> omega

/-- `left` is below every item's left edge. -/
theorem foldl_boundStep_left_le (l : List Item) :
    ∀ (b : Boundary) (i : Item), i ∈ l → (l.foldl boundStep b).left ≤ i.col := by
  induction l with
  | nil => intro b i h; simp at h
  | cons x rest ih =>
    intro b i h
    rcases List.mem_cons.mp h with h1 | h1
    · rw [h1]
      refine le_trans (foldl_boundStep_left_mono rest (boundStep b x)) ?_
      simp only [boundStep]
      split <;> omega
    · exact ih (boundStep b x) i h1

/-- The final `top` is the initial one or some item's `row`. -/
theorem foldl_boundStep_top_mem (l : List Item) :
    ∀ b : Boundary, (l.foldl boundStep b).top = b.top ∨ ∃ i ∈ l, (l.foldl boundStep b).top = i.row := by
  induction l with
  | nil => intro b; exact Or.inl rfl
  | cons x rest ih =>
    intro b
    rcases ih (boundStep b x) with h | ⟨i, hi, h⟩
    · simp only [List.foldl_cons] at *
      rw [h]
      simp only [boundStep]
      split
      · exact Or.inr ⟨x, List.mem_cons_self _ _, rfl⟩
      · exact Or.inl rfl
    · exact Or.inr ⟨i, List.mem_cons_of_mem _ hi, h⟩

/-- The final `left` is the initial one or some item's `col`. -/
theorem foldl_boundStep_left_mem (l : List Item) :
    ∀ b : Boundary, (l.foldl boundStep b).left = b.left ∨ ∃ i ∈ l, (l.foldl boundStep b).left = i.col := by
  induction l with
  | nil => intro b; exact Or.inl rfl
  | cons x rest ih =>
    intro b
    rcases ih (boundStep b x) with h | ⟨i, hi, h⟩
    · simp only [List.foldl_cons] at *
      rw [h]
      simp only [boundStep]
      split
      · exact Or.inr ⟨x, List.mem_cons_self _ _, rfl⟩
      · exact Or.inl rfl
    · exact Or.inr ⟨i, List.mem_cons_of_mem _ hi, h⟩

/-- The final `bottom` is the initial one or some item's `row + size_y`. -/
theorem foldl_boundStep_bottom_mem (l : List Item) :
    ∀ b : Boundary, (l.foldl boundStep b).bottom = b.bottom
      ∨ ∃ i ∈ l, (l.foldl boundStep b).bottom = i.row + i.size_y := by
  induction l with
  | nil => intro b; exact Or.inl rfl
  | cons x rest ih =>
    intro b
    rcases ih (boundStep b x) with h | ⟨i, hi, h⟩
    · simp only [List.foldl_cons] at *
      rw [h]
      simp only [boundStep]
      split
      · exact Or.inr ⟨x, List.mem_cons_self _ _, rfl⟩
      · exact Or.inl rfl
    · exact Or.inr ⟨i, List.mem_cons_of_mem _ hi, h⟩

/-- The final `right` is the initial one or some item's `col + size_x`. -/
theorem foldl_boundStep_right_mem (l : List Item) :
    ∀ b : Boundary, (l.foldl boundStep b).right = b.right
      ∨ ∃ i ∈ l, (l.foldl boundStep b).right = i.col + i.size_x := by
  induction l with
  | nil => intro b; exact Or.inl rfl
  | cons x rest ih =>
    intro b
    rcases ih (boundStep b x) with h | ⟨i, hi, h⟩
    · simp only [List.foldl_cons] at *
      rw [h]
      simp only [boundStep]
      split
      · exact Or.inr ⟨x, List.mem_cons_self _ _, rfl⟩
      · exact Or.inl rfl
    · exact Or.inr ⟨i, List.mem_cons_of_mem _ hi, h⟩

/-- A valid item in the sense of the spec's input contract: strictly positive
sizes and JS-exact non-negative integer coordinates (below `2^53`). -/
def ValidItem (i : Item) : Prop :=
  0 < i.size_x ∧ 0 < i.size_y ∧ i.row ≤ 2 ^ 53 ∧ i.col ≤ 2 ^ 53

instance (i : Item) : Decidable (ValidItem i) := by unfold ValidItem; infer_instance

/-- JS safe integers are far below `Number.MAX_VALUE`. -/
theorem two_pow_53_lt_maxValue : 2 ^ 53 < maxValue := by
  unfold maxValue
  calc 2 ^ 53 < (2 ^ 53 - 1) * 2 := by norm_num
    _ ≤ (2 ^ 53 - 1) * 2 ^ 971 := by
        refine Nat.mul_le_mul_left _ ?_
        calc (2 : Nat) = 2 ^ 1 := by norm_num
          _ ≤ 2 ^ 971 := Nat.pow_le_pow_right (by norm_num) (by norm_num)

/-- The concrete starting accumulator of `getBoundary`. -/
theorem getBoundary_top_mem (l : List Item) :
    (getBoundary l).top = maxValue ∨ ∃ i ∈ l, (getBoundary l).top = i.row :=
  foldl_boundStep_top_mem l ⟨maxValue, 0, maxValue, 1⟩

/-- Membership shape of `left`. -/
theorem getBoundary_left_mem (l : List Item) :
    (getBoundary l).left = maxValue ∨ ∃ i ∈ l, (getBoundary l).left = i.col :=
  foldl_boundStep_left_mem l ⟨maxValue, 0, maxValue, 1⟩

/-- Membership shape of `bottom`. -/
theorem getBoundary_bottom_mem (l : List Item) :
    (getBoundary l).bottom = 0 ∨ ∃ i ∈ l, (getBoundary l).bottom = i.row + i.size_y :=
  foldl_boundStep_bottom_mem l ⟨maxValue, 0, maxValue, 1⟩

/-- Membership shape of `right`. -/
theorem getBoundary_right_mem (l : List Item) :
    (getBoundary l).right = 1 ∨ ∃ i ∈ l, (getBoundary l).right = i.col + i.size_x :=
  foldl_boundStep_right_mem l ⟨maxValue, 0, maxValue, 1⟩

/-- Claim C7: on a non-empty list of valid items, `getBoundary` returns
`top` equal to the minimum `row`, `left` equal to the minimum `col`, `bottom`
equal to the maximum `row + sizeY` and `right` equal to the maximum
`col + sizeX` (each stated as: the value is attained by some item and bounds
all items). -/
theorem C7_boundary (layout : List Item) (hne : layout ≠ [])
    (hv : ∀ i ∈ layout, ValidItem i) :
    ((getBoundary layout).top ∈ layout.map Item.row
        ∧ ∀ i ∈ layout, (getBoundary layout).top ≤ i.row)
    ∧ ((getBoundary layout).left ∈ layout.map Item.col
        ∧ ∀ i ∈ layout, (getBoundary layout).left ≤ i.col)
    ∧ ((getBoundary layout).bottom ∈ layout.map (fun i => i.row + i.size_y)
        ∧ ∀ i ∈ layout, i.row + i.size_y ≤ (getBoundary layout).bottom)
    ∧ ((getBoundary layout).right ∈ layout.map (fun i => i.col + i.size_x)
        ∧ ∀ i ∈ layout, i.col + i.size_x ≤ (getBoundary layout).right) := by
  obtain ⟨i0, hi0⟩ : ∃ i, i ∈ layout := by
    cases layout with
    | nil => exact absurd rfl hne
    | cons x xs => exact ⟨x, List.mem_cons_self _ _⟩
  refine ⟨⟨?_, fun i hi => foldl_boundStep_top_le layout _ i hi⟩,
          ⟨?_, fun i hi => foldl_boundStep_left_le layout _ i hi⟩,
          ⟨?_, fun i hi => foldl_boundStep_bottom_ge layout _ i hi⟩,
          ⟨?_, fun i hi => foldl_boundStep_right_ge layout _ i hi⟩⟩
  · rcases getBoundary_top_mem layout with h | ⟨i, hi, h⟩
    · exfalso
      have h1 : (getBoundary layout).top ≤ i0.row := foldl_boundStep_top_le layout _ i0 hi0
      have h2 := (hv i0 hi0).2.2.1
      have h3 := two_pow_53_lt_maxValue
      omega
    · exact h ▸ List.mem_map.mpr ⟨i, hi, rfl⟩
  · rcases getBoundary_left_mem layout with h | ⟨i, hi, h⟩
    · exfalso
      have h1 : (getBoundary layout).left ≤ i0.col := foldl_boundStep_left_le layout _ i0 hi0
      have h2 := (hv i0 hi0).2.2.2
      have h3 := two_pow_53_lt_maxValue
      omega
    · exact h ▸ List.mem_map.mpr ⟨i, hi, rfl⟩
  · rcases getBoundary_bottom_mem layout with h | ⟨i, hi, h⟩
    · exfalso
      have h1 : i0.row + i0.size_y ≤ (getBoundary layout).bottom :=
        foldl_boundStep_bottom_ge layout _ i0 hi0
      have h2 := (hv i0 hi0).2.1
      omega
    · exact h ▸ List.mem_map.mpr ⟨i, hi, rfl⟩
  · rcases getBoundary_right_mem layout with h | ⟨i, hi, h⟩
    · have h1 : i0.col + i0.size_x ≤ (getBoundary layout).right :=
        foldl_boundStep_right_ge layout _ i0 hi0
      have h2 := (hv i0 hi0).1
      have h3 : i0.col + i0.size_x = (getBoundary layout).right := by omega
      exact List.mem_map.mpr ⟨i0, hi0, h3⟩
    · exact h ▸ List.mem_map.mpr ⟨i, hi, rfl⟩

/-- Witness for C7 at a concrete input. -/
theorem C7_boundary_witness :
    ([(⟨1, 2, 3, 4, "w"⟩ : Item), ⟨5, 6, 7, 8, "v"⟩] ≠ []
      ∧ ∀ i ∈ [(⟨1, 2, 3, 4, "w"⟩ : Item), ⟨5, 6, 7, 8, "v"⟩], ValidItem i)
    ∧ ((getBoundary [(⟨1, 2, 3, 4, "w"⟩ : Item), ⟨5, 6, 7, 8, "v"⟩]).top
          ∈ [(⟨1, 2, 3, 4, "w"⟩ : Item), ⟨5, 6, 7, 8, "v"⟩].map Item.row
        ∧ ∀ i ∈ [(⟨1, 2, 3, 4, "w"⟩ : Item), ⟨5, 6, 7, 8, "v"⟩],
            (getBoundary [(⟨1, 2, 3, 4, "w"⟩ : Item), ⟨5, 6, 7, 8, "v"⟩]).top ≤ i.row) := by
  refine ⟨⟨by decide, by decide⟩, ?_⟩
  exact (C7_boundary [(⟨1, 2, 3, 4, "w"⟩ : Item), ⟨5, 6, 7, 8, "v"⟩] (by decide) (by decide)).1

/-- Inserting into a list permutes consing onto it. -/
theorem insStable_perm (le : Item → Item → Bool) (x : Item) :
    ∀ l : List Item, (insStable le x l).Perm (x :: l) := by
  intro l
  induction l with
  | nil => exact List.Perm.refl _
  | cons y ys ih =>
    simp only [insStable]
    split
    · exact (ih.cons y).trans (List.Perm.swap x y ys)
    · exact List.Perm.refl _

/-- The modelled JS sort permutes its input. -/
theorem sortJS_perm_aux (le : Item → Item → Bool) :
    ∀ (l acc : List Item), (l.foldl (fun a x => insStable le x a) acc).Perm (acc ++ l) := by
  intro l
  induction l with
  | nil => intro acc; simp
  | cons x xs ih =>
    intro acc
    simp only [List.foldl_cons]
    refine (ih (insStable le x acc)).trans ?_
    refine ((insStable_perm le x acc).append_right xs).trans ?_
    exact List.perm_middle.symm

/-- The modelled JS sort permutes its input. -/
theorem sortJS_perm (le : Item → Item → Bool) (l : List Item) : (sortJS le l).Perm l := by
  simpa using sortJS_perm_aux le l []

/-- Members of an insertion. -/
theorem insStable_mem {le : Item → Item → Bool} {x z : Item} {l : List Item}
    (h : z ∈ insStable le x l) : z = x ∨ z ∈ l := by
  have := (insStable_perm le x l).mem_iff.mp h
  simpa using this

/-- Insertion preserves sortedness for a total `Nat`-key order. -/
theorem insStable_sorted (key : Item → Nat) (x : Item) :
    ∀ l : List Item, l.Sorted (fun a b => key a ≤ key b) →
      (insStable (fun a b => decide (key a ≤ key b)) x l).Sorted (fun a b => key a ≤ key b) := by
  intro l
  induction l with
  | nil => intro _; simp [insStable]
  | cons y ys ih =>
    intro hs
    rw [List.sorted_cons] at hs
    simp only [insStable]
    split
    case isTrue hyx =>
      rw [List.sorted_cons]
      refine ⟨?_, ih hs.2⟩
      intro z hz
      rcases insStable_mem hz with rfl | hz2
      · simpa using hyx
      · exact hs.1 z hz2
    case isFalse hyx =>
      rw [List.sorted_cons]
      refine ⟨?_, List.sorted_cons.mpr hs⟩
      intro z hz
      have hxy : key x ≤ key y := by
        simp only [decide_eq_true_eq] at hyx
        omega
      rcases List.mem_cons.mp hz with rfl | hz2
      · exact hxy
      · exact le_trans hxy (hs.1 z hz2)

/-- The modelled JS sort sorts by the key. -/
theorem sortJS_sorted_aux (key : Item → Nat) :
    ∀ (l acc : List Item), acc.Sorted (fun a b => key a ≤ key b) →
      (l.foldl (fun a x => insStable (fun a b => decide (key a ≤ key b)) x a) acc).Sorted
        (fun a b => key a ≤ key b) := by
  intro l
  induction l with
  | nil => intro acc h; simpa using h
  | cons x xs ih =>
    intro acc h
    simp only [List.foldl_cons]
    exact ih _ (insStable_sorted key x acc h)

/-- The modelled JS sort sorts by the key. -/
theorem sortJS_sorted (key : Item → Nat) (l : List Item) :
    (sortJS (fun a b => decide (key a ≤ key b)) l).Sorted (fun a b => key a ≤ key b) :=
  sortJS_sorted_aux key l [] (by simp)

/-- The adjacent scan fires exactly on some adjacent pair of the list. -/
theorem overlapScan_iff (xAxis : Bool) :
    ∀ l : List Item, overlapScan xAxis l = true ↔
      ∃ p ∈ l.zip l.tail,
        (if xAxis = true then p.2.col < p.1.col + p.1.size_x
         else p.2.row < p.1.row + p.1.size_y) := by
  intro l
  induction l with
  | nil => simp [overlapScan]
  | cons a l ih =>
    cases l with
    | nil => simp [overlapScan]
    | cons b rest =>
      rw [show overlapScan xAxis (a :: b :: rest)
          = ((if xAxis then decide (b.col < a.col + a.size_x)
              else decide (b.row < a.row + a.size_y)) || overlapScan xAxis (b :: rest)) from rfl]
      rw [Bool.or_eq_true, ih]
      rw [show (a :: b :: rest).zip (a :: b :: rest).tail
          = (a, b) :: (b :: rest).zip (b :: rest).tail from rfl]
      constructor
      · rintro (h | ⟨p, hp, hc⟩)
        · refine ⟨(a, b), List.mem_cons_self _ _, ?_⟩
          cases xAxis <;> simpa using h
        · exact ⟨p, List.mem_cons_of_mem _ hp, hc⟩
      · rintro ⟨p, hp, hc⟩
        rcases List.mem_cons.mp hp with rfl | hp
        · left; cases xAxis <;> simpa using hc
        · right; exact ⟨p, hp, hc⟩

/-- Claim C8: `hasOverlap` sorts a copy of the list by the near coordinate of
the requested axis (a permutation of the input, sorted by `col` for the
horizontal axis and by `row` for the vertical axis) and returns `true` exactly
when some adjacent pair of the sorted copy satisfies
`item.col + item.sizeX > next.col` (resp. the row analogue); non-adjacent
pairs are never consulted, and the input list itself is untouched (the model
is pure; the code sorts `layout.slice()`). -/
theorem C8_hasOverlap_spec (layout : List Item) (xAxis : Bool) :
    ((sortJS (if xAxis then sortByColId else sortByRowId) layout).Perm layout)
    ∧ (xAxis = true →
        (sortJS (if xAxis then sortByColId else sortByRowId) layout).Sorted
          (fun a b => a.col ≤ b.col))
    ∧ (xAxis = false →
        (sortJS (if xAxis then sortByColId else sortByRowId) layout).Sorted
          (fun a b => a.row ≤ b.row))
    ∧ (hasOverlap layout xAxis = true ↔
        ∃ p ∈ (sortJS (if xAxis then sortByColId else sortByRowId) layout).zip
            (sortJS (if xAxis then sortByColId else sortByRowId) layout).tail,
          (if xAxis = true then p.2.col < p.1.col + p.1.size_x
           else p.2.row < p.1.row + p.1.size_y)) := by
  refine ⟨sortJS_perm _ layout, ?_, ?_, ?_⟩
  · rintro rfl
    exact sortJS_sorted (fun i => i.col) layout
  · rintro rfl
    exact sortJS_sorted (fun i => i.row) layout
  · exact overlapScan_iff xAxis _

/-- Bounds on item extents, used to size the evaluation budget. -/
abbrev ItemsBounded (MB MR : Nat) (l : List Item) : Prop :=
  ∀ i ∈ l, i.row + i.size_y ≤ MB ∧ i.col + i.size_x ≤ MR

/-- Budget sufficient for a `conv` call. -/
def reqA (MB MR level : Nat) : Nat := if 2 ≤ level then MB + 4 else 2 * MB + MR + 14

/-- Budget sufficient for a `clayers` call. -/
def reqB (MB MR level len : Nat) : Nat := len + (if 2 ≤ level then 2 else MB + MR + 12)

/-- Budget sufficient for a `clayer` call. -/
def reqC (MB MR level : Nat) : Nat := if 2 ≤ level then 1 else MB + MR + 11

/-- Budget sufficient for a `ccols` call. -/
def reqD (MB fuel : Nat) : Nat := fuel + MB + 6

/-- The budget-indexed evaluator agrees with the four mutually recursive
procedures whenever the budget is large enough. -/
theorem runB_eq_spec (MB MR : Nat) (hMR : 1 ≤ MR) : ∀ bd : Nat,
    (∀ layout level parentId s, ItemsBounded MB MR layout → reqA MB MR level ≤ bd →
      runB bd (.conv layout level parentId) s = doConvert layout level parentId s) ∧
    (∀ layers level parentId left right s, (∀ l ∈ layers, ItemsBounded MB MR l) → right ≤ MR →
      reqB MB MR level layers.length ≤ bd →
      runB bd (.clayers layers level parentId left right) s
        = processLayers layers level parentId left right s) ∧
    (∀ layer level parentId left right s, ItemsBounded MB MR layer → right ≤ MR →
      reqC MB MR level ≤ bd →
      runB bd (.clayer layer level parentId left right) s
        = processLayer layer level parentId left right s) ∧
    (∀ fuel currentCol items level rowId s (hlv : level < 2), ItemsBounded MB MR items →
      reqD MB fuel ≤ bd →
      runB bd (.ccols fuel currentCol items level rowId) s
        = scanColsLoop fuel currentCol items level rowId s hlv) := by
  intro bd
  induction bd with
  | zero =>
    refine ⟨?_, ?_, ?_, ?_⟩
    · intro layout level pid s _ hreq
      exfalso; unfold reqA at hreq; split at hreq <;> omega
    · intro layers level pid left right s _ _ hreq
      exfalso; unfold reqB at hreq; split at hreq <;> omega
    · intro layer level pid left right s _ _ hreq
      exfalso; unfold reqC at hreq; split at hreq <;> omega
    · intro fuel cc items level rowId s hlv _ hreq
      exfalso; unfold reqD at hreq; omega
  | succ bd ih =>
    obtain ⟨iha, ihb, ihc, ihd⟩ := ih
    refine ⟨?_, ?_, ?_, ?_⟩
    · -- conv
      intro layout level pid s hbnd hreq
      rcases layout with _ | ⟨x, _ | ⟨y, rest⟩⟩
      · rw [doConvert.eq_def]; rfl
      · rw [doConvert.eq_def]; rfl
      · rw [doConvert.eq_def]
        have hbot : (getBoundary (x :: y :: rest)).bottom ≤ MB :=
          foldl_boundStep_bottom_le _ MB _ (Nat.zero_le MB) (fun i hi => (hbnd i hi).1)
        have hright : (getBoundary (x :: y :: rest)).right ≤ MR :=
          foldl_boundStep_right_le _ MR _ hMR (fun i hi => (hbnd i hi).2)
        have hlen : (findRowLayers (getBoundary (x :: y :: rest)).top
            (getBoundary (x :: y :: rest)).bottom (x :: y :: rest)).length ≤ MB := by
          refine le_trans (scanRowsAux_length _ _ _) ?_
          omega
        have hmem : ∀ l ∈ findRowLayers (getBoundary (x :: y :: rest)).top
            (getBoundary (x :: y :: rest)).bottom (x :: y :: rest), ItemsBounded MB MR l := by
          intro l hl i hi
          exact hbnd i (scanRowsAux_mem _ _ _ _ hl i hi)
        refine ihb _ level pid _ _ s hmem hright ?_
        unfold reqA at hreq; unfold reqB
        rcases Nat.lt_or_ge level 2 with h2 | h2
        · rw [if_neg (by omega)] at hreq; rw [if_neg (by omega)]; omega
        · rw [if_pos h2] at hreq; rw [if_pos h2]; omega
    · -- clayers
      intro layers level pid left right s hmem hright hreq
      rcases layers with _ | ⟨layer, rest⟩
      · rw [processLayers.eq_def]; rfl
      · rw [processLayers.eq_def]
        have hc1 : reqC MB MR level ≤ bd := by
          unfold reqB at hreq; unfold reqC
          rcases Nat.lt_or_ge level 2 with h2 | h2
          · rw [if_neg (by omega)] at hreq; rw [if_neg (by omega)]; simp at hreq; omega
          · rw [if_pos h2] at hreq; rw [if_pos h2]; simp at hreq; omega
        have hb1 : reqB MB MR level rest.length ≤ bd := by
          unfold reqB at hreq ⊢
          simp at hreq; omega
        show runB bd (.clayers rest level pid left right)
            (runB bd (.clayer layer level pid left right) s) = _
        rw [ihc layer level pid left right s (hmem layer (List.mem_cons_self _ _)) hright hc1]
        exact ihb rest level pid left right _ (fun l hl => hmem l (List.mem_cons_of_mem _ hl))
          hright hb1
    · -- clayer
      intro layer level pid left right s hbnd hright hreq
      by_cases hcnd : 2 ≤ level ∨ hasOverlap layer = false
      · simp only [runB, processLayer.eq_def]
        rw [if_pos hcnd, dif_pos hcnd]
      · simp only [runB, processLayer.eq_def]
        rw [if_neg hcnd, dif_neg hcnd]
        have hlv : level < 2 := by
          rcases Nat.lt_or_ge level 2 with h2 | h2
          · exact h2
          · exact absurd (Or.inl h2) hcnd
        have hd1 : reqD MB (right - left) ≤ bd := by
          unfold reqC at hreq; unfold reqD
          rw [if_neg (by omega)] at hreq
          omega
        rw [ihd (right - left) (left + 1) layer level _ _ hlv hbnd hd1]
    · -- ccols
      intro fuel cc items level rowId s hlv hbnd hreq
      rcases fuel with _ | fuel'
      · rw [scanColsLoop.eq_def]; rfl
      · rw [scanColsLoop.eq_def]
        by_cases he : items.isEmpty = true
        · simp only [runB, if_pos he]
        · simp only [runB, if_neg he]
          have hd1 : reqD MB fuel' ≤ bd := by unfold reqD at hreq ⊢; omega
          cases hcl : classifyCol cc items with
          | none =>
            simp only [hcl]
            exact ihd fuel' (cc + 1) items level rowId s hlv hbnd hd1
          | some p =>
            obtain ⟨lo, up⟩ := p
            have hlo : ItemsBounded MB MR lo := fun i hi => hbnd i (classifyCol_mem_lower hcl i hi)
            have hup : ItemsBounded MB MR up := fun i hi => hbnd i (classifyCol_mem_upper hcl i hi)
            simp only [hcl]
            by_cases hov : hasOverlap lo false = false
            · rw [if_pos hov, if_pos hov]
              exact ihd fuel' (cc + 1) up level rowId _ hlv hup hd1
            · rw [if_neg hov, if_neg hov]
              have ha1 : reqA MB MR (level + 2) ≤ bd := by
                unfold reqA; unfold reqD at hreq
                rw [if_pos (by omega)]
                omega
              rw [iha lo (level + 2) _ _ hlo ha1]
              exact ihd fuel' (cc + 1) up level rowId _ hlv hup hd1

/-- The initial root node of `convert()`. -/
def rootNode : Node :=
  { version := "v2", type := "DASHBOARD_GRID_ROOT_TYPE", id := rootId, children := [], meta := none }

/-- `convert()` on a given layout, with the value the process-global
`generateId` counter happens to hold when the call starts (a fresh process
starts at `1`). -/
def convert (layout : List Item) (startCounter : Nat) : Registry :=
  (doConvert layout 0 rootId { counter := startCounter, root := [(rootId, rootNode)] }).root

/-- Conversions of bounded layouts can be computed with the budget-indexed
evaluator. -/
theorem convert_eval (layout : List Item) (c bd MB MR : Nat) (hMR : 1 ≤ MR)
    (hbnd : ItemsBounded MB MR layout) (hbd : 2 * MB + MR + 14 ≤ bd) :
    convert layout c
      = (runB bd (.conv layout 0 rootId) { counter := c, root := [(rootId, rootNode)] }).root := by
  unfold convert
  rw [← (runB_eq_spec MB MR hMR bd).1 layout 0 rootId _ hbnd
    (by unfold reqA; rw [if_neg (by omega)]; omega)]

/-- Claim C3, counterexample: converting the spec's one-element input yields a
Root whose single child is the chart holder itself — the registry contains no
Row node at all, so the claimed "Root with exactly one Row child containing
the Leaf" is false on the code (`doConvert` short-circuits a one-item layout
straight into a leaf under the given parent). -/
theorem C3_single_item_counterexample :
    (lookupNode (convert [⟨1, 1, 16, 16, "240"⟩] 1) rootId).map Node.children
        = some ["DASHBOARD_CHART_TYPE-1"]
      ∧ (lookupNode (convert [⟨1, 1, 16, 16, "240"⟩] 1) "DASHBOARD_CHART_TYPE-1").map Node.type
        = some "DASHBOARD_CHART_TYPE"
      ∧ ∀ p ∈ convert [⟨1, 1, 16, 16, "240"⟩] 1, ¬ p.2.type = "DASHBOARD_ROW_TYPE" := by
  rw [convert_eval _ 1 200 60 60 (by decide) (by decide) (by decide)]
  decide

/-- Claim C3, amended: converting
`[{row:1, col:1, sizeX:16, sizeY:16, contentId:"240"}]` (fresh counter) yields
a registry of exactly the Root and one Leaf; the Leaf is the Root's only child
(no Row wrapper), with derived width `max(1, floor(16/4)) = 4` and height
`32`. -/
theorem C3_single_item_amended :
    convert [⟨1, 1, 16, 16, "240"⟩] 1
      = [(rootId, { version := "v2", type := "DASHBOARD_GRID_ROOT_TYPE", id := rootId
                    children := ["DASHBOARD_CHART_TYPE-1"], meta := none }),
         ("DASHBOARD_CHART_TYPE-1",
          { version := "v2", type := "DASHBOARD_CHART_TYPE", id := "DASHBOARD_CHART_TYPE-1"
            children := []
            meta := some { width := some (JVal.num 4), height := some 32
                           sliceId := some "slice_240", row := some 1, col := some 1 } })] := by
  rw [convert_eval _ 1 200 60 60 (by decide) (by decide) (by decide)]
  decide

/-- Claim C4, counterexample: an input whose item has `size_x = 0` is not
rejected — the conversion is total, returns normally, and produces a populated
registry (the Root plus a Leaf for the zero-width item), contradicting
"raises a ValidationError and produces no output".  The code performs no
input validation anywhere. -/
theorem C4_no_validation_counterexample :
    convert [⟨1, 1, 0, 16, "z"⟩] 1
      = [(rootId, { version := "v2", type := "DASHBOARD_GRID_ROOT_TYPE", id := rootId
                    children := ["DASHBOARD_CHART_TYPE-1"], meta := none }),
         ("DASHBOARD_CHART_TYPE-1",
          { version := "v2", type := "DASHBOARD_CHART_TYPE", id := "DASHBOARD_CHART_TYPE-1"
            children := []
            meta := some { width := some (JVal.num 1), height := some 32
                           sliceId := some "slice_z", row := some 1, col := some 1 } })] := by
  rw [convert_eval _ 1 200 60 60 (by decide) (by decide) (by decide)]
  decide

/-- Claim C4, amended: an item with `sizeX = 0` is accepted: conversion
completes normally, emitting a Leaf whose width is clamped to
`max(1, floor(0/4)) = 1` (no error is raised and the registry is populated). -/
theorem C4_no_validation_amended :
    (convert [⟨1, 1, 0, 16, "z"⟩] 1).length = 2
      ∧ (lookupNode (convert [⟨1, 1, 0, 16, "z"⟩] 1) "DASHBOARD_CHART_TYPE-1").map
          (fun n => n.meta.bind Meta.width) = some (some (JVal.num 1)) := by
  rw [convert_eval _ 1 200 60 60 (by decide) (by decide) (by decide)]
  decide

/-- Claim C5: three same-row items at columns 17, 1, 33 (each 16×16) convert
to a Root with a single Row child whose children are exactly the three Leaves
in ascending column order (columns 1, 17, 33), each of width 4 and height 32,
the Row's width being 12. -/
theorem C5_three_column :
    (lookupNode (convert [⟨0, 17, 16, 16, "117"⟩, ⟨0, 1, 16, 16, "118"⟩, ⟨0, 33, 16, 16, "119"⟩] 1)
        rootId).map Node.children = some ["DASHBOARD_ROW_TYPE-1"]
      ∧ lookupNode (convert [⟨0, 17, 16, 16, "117"⟩, ⟨0, 1, 16, 16, "118"⟩, ⟨0, 33, 16, 16, "119"⟩] 1)
          "DASHBOARD_ROW_TYPE-1"
        = some { version := "v2", type := "DASHBOARD_ROW_TYPE", id := "DASHBOARD_ROW_TYPE-1"
                 children := ["DASHBOARD_CHART_TYPE-2", "DASHBOARD_CHART_TYPE-3", "DASHBOARD_CHART_TYPE-4"]
                 meta := some { rowStyle := some "ROW_TRANSPARENT", width := some (JVal.num 12) } }
      ∧ lookupNode (convert [⟨0, 17, 16, 16, "117"⟩, ⟨0, 1, 16, 16, "118"⟩, ⟨0, 33, 16, 16, "119"⟩] 1)
          "DASHBOARD_CHART_TYPE-2"
        = some { version := "v2", type := "DASHBOARD_CHART_TYPE", id := "DASHBOARD_CHART_TYPE-2"
                 children := []
                 meta := some { width := some (JVal.num 4), height := some 32
                                sliceId := some "slice_118", row := some 0, col := some 1 } }
      ∧ lookupNode (convert [⟨0, 17, 16, 16, "117"⟩, ⟨0, 1, 16, 16, "118"⟩, ⟨0, 33, 16, 16, "119"⟩] 1)
          "DASHBOARD_CHART_TYPE-3"
        = some { version := "v2", type := "DASHBOARD_CHART_TYPE", id := "DASHBOARD_CHART_TYPE-3"
                 children := []
                 meta := some { width := some (JVal.num 4), height := some 32
                                sliceId := some "slice_117", row := some 0, col := some 17 } }
      ∧ lookupNode (convert [⟨0, 17, 16, 16, "117"⟩, ⟨0, 1, 16, 16, "118"⟩, ⟨0, 33, 16, 16, "119"⟩] 1)
          "DASHBOARD_CHART_TYPE-4"
        = some { version := "v2", type := "DASHBOARD_CHART_TYPE", id := "DASHBOARD_CHART_TYPE-4"
                 children := []
                 meta := some { width := some (JVal.num 4), height := some 32
                                sliceId := some "slice_119", row := some 0, col := some 33 } } := by
  rw [convert_eval _ 1 300 60 60 (by decide) (by decide) (by decide)]
  decide

/-- Claim C10: some valid inputs with more than one item produce container
nodes with empty child lists.  A vertical gap between row layers yields empty
Row nodes of width `0` (first conversion); a layer whose column scan starts at
the whole layout's left boundary, below the layer's leftmost item, yields
empty Column nodes whose width is `Math.max()` of no arguments, i.e.
`-Infinity` (second conversion). -/
theorem C10_empty_containers :
    ((∀ i ∈ [(⟨0, 1, 1, 1, "a"⟩ : Item), ⟨3, 1, 1, 1, "b"⟩], 0 < i.size_x ∧ 0 < i.size_y)
      ∧ lookupNode (convert [⟨0, 1, 1, 1, "a"⟩, ⟨3, 1, 1, 1, "b"⟩] 1) "DASHBOARD_ROW_TYPE-3"
        = some { version := "v2", type := "DASHBOARD_ROW_TYPE", id := "DASHBOARD_ROW_TYPE-3"
                 children := []
                 meta := some { rowStyle := some "ROW_TRANSPARENT", width := some (JVal.num 0) } })
    ∧ ((∀ i ∈ [(⟨0, 0, 1, 1, "a"⟩ : Item), ⟨1, 10, 5, 1, "b"⟩, ⟨1, 12, 3, 1, "c"⟩],
          0 < i.size_x ∧ 0 < i.size_y)
      ∧ lookupNode (convert [⟨0, 0, 1, 1, "a"⟩, ⟨1, 10, 5, 1, "b"⟩, ⟨1, 12, 3, 1, "c"⟩] 1)
          "DASHBOARD_COLUMN_TYPE-4"
        = some { version := "v2", type := "DASHBOARD_COLUMN_TYPE", id := "DASHBOARD_COLUMN_TYPE-4"
                 children := [], meta := some { width := some JVal.negInf } }) := by
  constructor
  · refine ⟨by decide, ?_⟩
    rw [convert_eval _ 1 200 60 60 (by decide) (by decide) (by decide)]
    decide
  · refine ⟨by decide, ?_⟩
    rw [convert_eval _ 1 200 60 60 (by decide) (by decide) (by decide)]
    decide

/-- Decimal digit characters of `n`, most significant first. -/
def sdigits (n : Nat) : List Char :=
  if n < 10 then [Nat.digitChar n]
  else sdigits (n / 10) ++ [Nat.digitChar (n % 10)]
termination_by n
decreasing_by exact Nat.div_lt_self (by omega) (by omega)

theorem digitChar_toNat {k : Nat} (h : k < 10) : (Nat.digitChar k).toNat = 48 + k := by
  interval_cases k <;> decide

theorem toDigitsCore_eq_sdigits :
    ∀ (fuel n : Nat) (ds : List Char), n < fuel →
      Nat.toDigitsCore 10 fuel n ds = sdigits n ++ ds := by
  intro fuel
  induction fuel with
  | zero => intro n ds h; omega
  | succ fuel ih =>
    intro n ds h
    rw [Nat.toDigitsCore]
    by_cases h10 : n < 10
    · have hz : n / 10 = 0 := Nat.div_eq_of_lt h10
      simp only [hz, if_pos rfl]
      rw [sdigits, if_pos h10, Nat.mod_eq_of_lt h10]
      rfl
    · have hne : ¬ n / 10 = 0 := by
        rw [Nat.div_eq_zero_iff (by omega)]
        omega
      simp only [if_neg hne]
      rw [ih (n / 10) _ (lt_of_lt_of_le (Nat.div_lt_self (by omega) (by omega)) (by omega))]
      have hs : sdigits n = sdigits (n / 10) ++ [Nat.digitChar (n % 10)] := by
        rw [sdigits, if_neg h10]
      rw [hs, List.append_assoc]
      rfl

theorem toDigits_eq_sdigits (n : Nat) : Nat.toDigits 10 n = sdigits n := by
  rw [Nat.toDigits]
  rw [toDigitsCore_eq_sdigits (n + 1) n [] (Nat.lt_succ_self n)]
  simp

theorem repr_eq_sdigits (n : Nat) : Nat.repr n = (sdigits n).asString := by
  rw [Nat.repr, toDigits_eq_sdigits]

/-- Decimal value of a digit string. -/
def val10 (ds : List Char) : Nat := ds.foldl (fun a c => 10 * a + (c.toNat - 48)) 0

theorem val10_append (ds : List Char) (c : Char) :
    val10 (ds ++ [c]) = 10 * val10 ds + (c.toNat - 48) := by
  simp [val10, List.foldl_append]

theorem val10_sdigits (n : Nat) : val10 (sdigits n) = n := by
  induction n using Nat.strong_induction_on with
  | _ n ih =>
    rw [sdigits]
    split
    · next h => simp [val10, digitChar_toNat h]
    · next h =>
      rw [val10_append]
      rw [ih (n / 10) (Nat.div_lt_self (by omega) (by omega))]
      have h2 : (Nat.digitChar (n % 10)).toNat = 48 + n % 10 :=
        digitChar_toNat (Nat.mod_lt _ (by omega))
      omega

theorem sdigits_are_digits (n : Nat) : ∀ c ∈ sdigits n, 48 ≤ c.toNat ∧ c.toNat ≤ 57 := by
  induction n using Nat.strong_induction_on with
  | _ n ih =>
    intro c hc
    rw [sdigits] at hc
    split at hc
    · next h =>
      simp at hc
      subst hc
      have := digitChar_toNat h
      omega
    · next h =>
      rcases List.mem_append.mp hc with h1 | h1
      · exact ih (n / 10) (Nat.div_lt_self (by omega) (by omega)) c h1
      · simp at h1
        subst h1
        have := digitChar_toNat (Nat.mod_lt n (by omega) : n % 10 < 10)
        omega

theorem toString_nat_inj {m n : Nat} (h : toString m = toString n) : m = n := by
  have h2 : Nat.repr m = Nat.repr n := h
  rw [repr_eq_sdigits, repr_eq_sdigits] at h2
  have h3 : sdigits m = sdigits n := congrArg String.data h2
  calc m = val10 (sdigits m) := (val10_sdigits m).symm
    _ = val10 (sdigits n) := by rw [h3]
    _ = n := val10_sdigits n

theorem rowIdStr_ne_colIdStr (m n : Nat) : rowIdStr m ≠ colIdStr n := by
  intro h
  have hd := congrArg String.data h
  rw [rowIdStr, colIdStr, String.data_append, String.data_append] at hd
  simp at hd

theorem rowIdStr_ne_chartIdStr (m n : Nat) : rowIdStr m ≠ chartIdStr n := by
  intro h
  have hd := congrArg String.data h
  rw [rowIdStr, chartIdStr, String.data_append, String.data_append] at hd
  simp at hd

theorem colIdStr_ne_chartIdStr (m n : Nat) : colIdStr m ≠ chartIdStr n := by
  intro h
  have hd := congrArg String.data h
  rw [colIdStr, chartIdStr, String.data_append, String.data_append] at hd
  simp at hd

theorem rootId_ne_rowIdStr (n : Nat) : rootId ≠ rowIdStr n := by
  intro h
  have hd := congrArg String.data h
  rw [rootId, rowIdStr, String.data_append] at hd
  simp at hd

theorem rootId_ne_colIdStr (n : Nat) : rootId ≠ colIdStr n := by
  intro h
  have hd := congrArg String.data h
  rw [rootId, colIdStr, String.data_append] at hd
  simp at hd

theorem rootId_ne_chartIdStr (n : Nat) : rootId ≠ chartIdStr n := by
  intro h
  have hd := congrArg String.data h
  rw [rootId, chartIdStr, String.data_append] at hd
  simp at hd

theorem rowIdStr_inj {m n : Nat} (h : rowIdStr m = rowIdStr n) : m = n := by
  have hd := congrArg String.data h
  rw [rowIdStr, rowIdStr, String.data_append, String.data_append] at hd
  simp at hd
  exact toString_nat_inj (String.ext hd)

theorem colIdStr_inj {m n : Nat} (h : colIdStr m = colIdStr n) : m = n := by
  have hd := congrArg String.data h
  rw [colIdStr, colIdStr, String.data_append, String.data_append] at hd
  simp at hd
  exact toString_nat_inj (String.ext hd)

theorem chartIdStr_inj {m n : Nat} (h : chartIdStr m = chartIdStr n) : m = n := by
  have hd := congrArg String.data h
  rw [chartIdStr, chartIdStr, String.data_append, String.data_append] at hd
  simp at hd
  exact toString_nat_inj (String.ext hd)

/-- Keys of a registry, in insertion order. -/
def keysOf (reg : Registry) : List String := reg.map Prod.fst

/-- All child references of all nodes, with multiplicity. -/
def childRefs (reg : Registry) : List String := reg.flatMap (fun p => p.2.children)

/-- The `sliceId`s of the chart-holder nodes, in registry order. -/
def chartSlices (reg : Registry) : List String :=
  reg.filterMap (fun p =>
    if p.2.type = "DASHBOARD_CHART_TYPE" then p.2.meta.bind Meta.sliceId else none)

/-- A key the conversion can have produced with counter below `c`. -/
def goodKey (c : Nat) (k : String) : Prop :=
  k = rootId ∨ ∃ n, n < c ∧ (k = rowIdStr n ∨ k = colIdStr n ∨ k = chartIdStr n)

/-- Reachable-state invariant: all keys are produced ones below the counter,
keys are distinct, every child reference resolves, and no id is referenced
twice as a child. -/
def StateInv (s : ConvState) : Prop :=
  (∀ k ∈ keysOf s.root, goodKey s.counter k)
  ∧ (keysOf s.root).Nodup
  ∧ (∀ k ∈ childRefs s.root, k ∈ keysOf s.root)
  ∧ (childRefs s.root).Nodup

theorem keysOf_cons (p : String × Node) (rest : Registry) :
    keysOf (p :: rest) = p.1 :: keysOf rest := rfl

theorem childRefs_cons (p : String × Node) (rest : Registry) :
    childRefs (p :: rest) = p.2.children ++ childRefs rest := rfl

theorem lookupNode_cons (p : String × Node) (rest : Registry) (k : String) :
    lookupNode (p :: rest) k = if p.1 = k then some p.2 else lookupNode rest k := rfl

theorem updateEntry_cons (p : String × Node) (rest : Registry) (k : String) (f : Node → Node) :
    updateEntry (p :: rest) k f
      = (if p.1 = k then (p.1, f p.2) else p) :: updateEntry rest k f := rfl

theorem chartSlices_cons (p : String × Node) (rest : Registry) :
    chartSlices (p :: rest)
      = (if p.2.type = "DASHBOARD_CHART_TYPE" then p.2.meta.bind Meta.sliceId else none).toList
          ++ chartSlices rest := by
  unfold chartSlices
  rw [List.filterMap_cons]
  rcases h : (if p.2.type = "DASHBOARD_CHART_TYPE" then p.2.meta.bind Meta.sliceId else none)
    with _ | sid <;> simp [h]

theorem goodKey_mono {c c' : Nat} (h : c ≤ c') {k : String} (hg : goodKey c k) : goodKey c' k := by
  rcases hg with h1 | ⟨n, hn, h1⟩
  · exact Or.inl h1
  · exact Or.inr ⟨n, by omega, h1⟩

theorem goodKey_ne_rowIdStr {c : Nat} {k : String} (hg : goodKey c k) : k ≠ rowIdStr c := by
  rcases hg with h1 | ⟨n, hn, h1 | h1 | h1⟩ <;> subst h1
  · exact rootId_ne_rowIdStr c
  · intro h; exact absurd (rowIdStr_inj h) (by omega)
  · intro h; exact absurd h.symm (rowIdStr_ne_colIdStr c n)
  · intro h; exact absurd h.symm (rowIdStr_ne_chartIdStr c n)

theorem goodKey_ne_colIdStr {c : Nat} {k : String} (hg : goodKey c k) : k ≠ colIdStr c := by
  rcases hg with h1 | ⟨n, hn, h1 | h1 | h1⟩ <;> subst h1
  · exact rootId_ne_colIdStr c
  · exact rowIdStr_ne_colIdStr n c
  · intro h; exact absurd (colIdStr_inj h) (by omega)
  · intro h; exact absurd h.symm (colIdStr_ne_chartIdStr c n)

theorem goodKey_ne_chartIdStr {c : Nat} {k : String} (hg : goodKey c k) : k ≠ chartIdStr c := by
  rcases hg with h1 | ⟨n, hn, h1 | h1 | h1⟩ <;> subst h1
  · exact rootId_ne_chartIdStr c
  · exact rowIdStr_ne_chartIdStr n c
  · exact colIdStr_ne_chartIdStr n c
  · intro h; exact absurd (chartIdStr_inj h) (by omega)

/-- Fresh insertion is a plain append. -/
theorem setEntry_fresh (reg : Registry) (k : String) (v : Node) (hk : k ∉ keysOf reg) :
    setEntry reg k v = reg ++ [(k, v)] := by
  unfold setEntry
  rw [if_neg]
  intro hc
  rw [List.any_eq_true] at hc
  obtain ⟨p, hp, hpk⟩ := hc
  simp at hpk
  exact hk (hpk ▸ List.mem_map.mpr ⟨p, hp, rfl⟩)

theorem keysOf_append (r1 r2 : Registry) : keysOf (r1 ++ r2) = keysOf r1 ++ keysOf r2 := by
  simp [keysOf]

theorem childRefs_append (r1 r2 : Registry) : childRefs (r1 ++ r2) = childRefs r1 ++ childRefs r2 := by
  simp [childRefs]

theorem chartSlices_append (r1 r2 : Registry) :
    chartSlices (r1 ++ r2) = chartSlices r1 ++ chartSlices r2 := by
  simp [chartSlices]

theorem lookupNode_append_left {reg : Registry} {k : String} (reg2 : Registry)
    (h : k ∈ keysOf reg) : lookupNode (reg ++ reg2) k = lookupNode reg k := by
  induction reg with
  | nil => simp [keysOf] at h
  | cons p rest ih =>
    rw [List.cons_append, lookupNode_cons, lookupNode_cons]
    split
    · rfl
    · next hpk =>
      refine ih ?_
      rw [keysOf_cons] at h
      rcases List.mem_cons.mp h with h1 | h1
      · exact absurd h1.symm hpk
      · exact h1

theorem lookupNode_not_mem {reg : Registry} {k : String} (h : k ∉ keysOf reg) :
    lookupNode reg k = none := by
  induction reg with
  | nil => rfl
  | cons p rest ih =>
    rw [lookupNode_cons, if_neg, ih]
    · intro hc; exact h (by rw [keysOf_cons]; exact List.mem_cons_of_mem _ hc)
    · intro hc; exact h (by rw [keysOf_cons, hc]; exact List.mem_cons_self _ _)

theorem lookupNode_append_new {reg : Registry} {k : String} {v : Node} (h : k ∉ keysOf reg) :
    lookupNode (reg ++ [(k, v)]) k = some v := by
  induction reg with
  | nil => simp [lookupNode]
  | cons p rest ih =>
    rw [List.cons_append, lookupNode_cons, if_neg]
    · exact ih (fun hc => h (by rw [keysOf_cons]; exact List.mem_cons_of_mem _ hc))
    · intro hc; exact h (by rw [keysOf_cons, hc]; exact List.mem_cons_self _ _)

theorem keysOf_updateEntry (reg : Registry) (k : String) (f : Node → Node) :
    keysOf (updateEntry reg k f) = keysOf reg := by
  induction reg with
  | nil => rfl
  | cons p rest ih =>
    rw [updateEntry_cons, keysOf_cons, keysOf_cons, ih]
    split
    · rfl
    · rfl

theorem updateEntry_not_mem {reg : Registry} {k : String} (f : Node → Node)
    (h : k ∉ keysOf reg) : updateEntry reg k f = reg := by
  induction reg with
  | nil => rfl
  | cons p rest ih =>
    rw [updateEntry_cons, if_neg, ih (fun hc => h (by rw [keysOf_cons]; exact List.mem_cons_of_mem _ hc))]
    intro hc; exact h (by rw [keysOf_cons, hc]; exact List.mem_cons_self _ _)

theorem lookupNode_updateEntry_self (reg : Registry) (k : String) (f : Node → Node) :
    lookupNode (updateEntry reg k f) k = (lookupNode reg k).map f := by
  induction reg with
  | nil => rfl
  | cons p rest ih =>
    rw [updateEntry_cons, lookupNode_cons, lookupNode_cons]
    by_cases hpk : p.1 = k
    · simp [hpk]
    · simp [hpk, ih]

theorem lookupNode_updateEntry_ne (reg : Registry) {k k' : String} (f : Node → Node)
    (h : k' ≠ k) : lookupNode (updateEntry reg k f) k' = lookupNode reg k' := by
  induction reg with
  | nil => rfl
  | cons p rest ih =>
    rw [updateEntry_cons, lookupNode_cons, lookupNode_cons]
    have h2 : ¬ k = k' := fun hc => h hc.symm
    by_cases hpk : p.1 = k
    · simp [hpk, h2, ih]
    · by_cases hk : p.1 = k' <;> simp [hpk, hk, h, h2, ih]

theorem childRefs_push_perm {reg : Registry} {k : String} (cid : String)
    (hmem : k ∈ keysOf reg) (hnd : (keysOf reg).Nodup) :
    (childRefs (updateEntry reg k (fun n => { n with children := n.children ++ [cid] }))).Perm
      (childRefs reg ++ [cid]) := by
  induction reg with
  | nil => simp [keysOf] at hmem
  | cons p rest ih =>
    rw [keysOf_cons, List.nodup_cons] at hnd
    by_cases hpk : p.1 = k
    · have hupd : updateEntry (p :: rest) k (fun n => { n with children := n.children ++ [cid] })
          = (p.1, { p.2 with children := p.2.children ++ [cid] }) :: rest := by
        rw [updateEntry_cons, if_pos hpk, updateEntry_not_mem _ (hpk ▸ hnd.1)]
      rw [hupd, childRefs_cons, childRefs_cons]
      show ((p.2.children ++ [cid]) ++ childRefs rest).Perm ((p.2.children ++ childRefs rest) ++ [cid])
      rw [List.append_assoc, List.append_assoc]
      exact List.Perm.append_left _ List.perm_append_comm
    · have hmem' : k ∈ keysOf rest := by
        rw [keysOf_cons] at hmem
        rcases List.mem_cons.mp hmem with h1 | h1
        · exact absurd h1.symm hpk
        · exact h1
      have hupd : updateEntry (p :: rest) k (fun n => { n with children := n.children ++ [cid] })
          = p :: updateEntry rest k (fun n => { n with children := n.children ++ [cid] }) := by
        rw [updateEntry_cons, if_neg hpk]
      rw [hupd, childRefs_cons, childRefs_cons, List.append_assoc]
      exact List.Perm.append_left _ (ih hmem' hnd.2)

/-- Updates that keep `type` and `meta` leave `chartSlices` unchanged. -/
theorem chartSlices_update_children (reg : Registry) (k : String) (g : Node → List String) :
    chartSlices (updateEntry reg k (fun n => { n with children := g n })) = chartSlices reg := by
  induction reg with
  | nil => rfl
  | cons p rest ih =>
    rw [updateEntry_cons, chartSlices_cons, chartSlices_cons, ih]
    split
    · rfl
    · rfl

/-- Updates that only touch `meta.width` leave `chartSlices` unchanged. -/
theorem chartSlices_update_width (reg : Registry) (k : String) (g : Node → Option JVal) :
    chartSlices (updateEntry reg k
      (fun n => { n with meta := n.meta.map (fun m => { m with width := g n }) })) = chartSlices reg := by
  induction reg with
  | nil => rfl
  | cons p rest ih =>
    rw [updateEntry_cons, chartSlices_cons, chartSlices_cons, ih]
    split
    · next hpk =>
      rcases hm : p.2.meta with _ | m
      · simp [hm]
      · simp [hm]
    · rfl

/-- Updates that keep `children` leave `childRefs` unchanged. -/
theorem childRefs_update_width (reg : Registry) (k : String) (g : Node → Option JVal) :
    childRefs (updateEntry reg k
      (fun n => { n with meta := n.meta.map (fun m => { m with width := g n }) })) = childRefs reg := by
  induction reg with
  | nil => rfl
  | cons p rest ih =>
    rw [updateEntry_cons, childRefs_cons, childRefs_cons, ih]
    split
    · rfl
    · rfl


/-- The content reference a chart holder stores for an item. -/
def sliceRef (i : Item) : String := "slice_" ++ i.slice_id

theorem lookupNode_mem {reg : Registry} {k : String} {n : Node}
    (h : lookupNode reg k = some n) : (k, n) ∈ reg := by
  induction reg with
  | nil => simp [lookupNode] at h
  | cons p rest ih =>
    rw [lookupNode_cons] at h
    split at h
    · next hpk =>
      obtain rfl : p.2 = n := by simpa using h
      exact hpk ▸ List.mem_cons_self _ _
    · exact List.mem_cons_of_mem _ (ih h)

theorem lookupNode_mem_keys {reg : Registry} {k : String} {n : Node}
    (h : lookupNode reg k = some n) : k ∈ keysOf reg :=
  List.mem_map.mpr ⟨(k, n), lookupNode_mem h, rfl⟩

theorem mem_childRefs_of_lookup {reg : Registry} {k : String} {n : Node} {c : String}
    (h : lookupNode reg k = some n) (hc : c ∈ n.children) : c ∈ childRefs reg := by
  unfold childRefs
  exact List.mem_flatMap.mpr ⟨(k, n), lookupNode_mem h, hc⟩

/-- With distinct keys and distinct child references, a child id determines
its parent. -/
theorem childRefs_unique {reg : Registry} (hnd : (keysOf reg).Nodup)
    (hcr : (childRefs reg).Nodup) {k1 k2 : String} {n1 n2 : Node} {c : String}
    (h1 : lookupNode reg k1 = some n1) (h2 : lookupNode reg k2 = some n2)
    (hc1 : c ∈ n1.children) (hc2 : c ∈ n2.children) : k1 = k2 := by
  induction reg with
  | nil => simp [lookupNode] at h1
  | cons p rest ih =>
    rw [keysOf_cons, List.nodup_cons] at hnd
    rw [childRefs_cons, List.nodup_append] at hcr
    rw [lookupNode_cons] at h1 h2
    by_cases hk1 : p.1 = k1 <;> by_cases hk2 : p.1 = k2
    · rw [← hk1, ← hk2]
    · rw [if_pos hk1] at h1
      rw [if_neg hk2] at h2
      obtain rfl : p.2 = n1 := by simpa using h1
      exact absurd (mem_childRefs_of_lookup h2 hc2) (fun hin => hcr.2.2 hc1 hin)
    · rw [if_neg hk1] at h1
      rw [if_pos hk2] at h2
      obtain rfl : p.2 = n2 := by simpa using h2
      exact absurd (mem_childRefs_of_lookup h1 hc1) (fun hin => hcr.2.2 hc2 hin)
    · rw [if_neg hk1] at h1
      rw [if_neg hk2] at h2
      exact ih hnd.2 hcr.2.1 h1 h2

theorem widthFold_congr {r r' : Registry} :
    ∀ (ch : List String) (acc : JVal), (∀ c ∈ ch, childWidth r' c = childWidth r c) →
      ch.foldl (fun pre c => pre.add (childWidth r' c)) acc
        = ch.foldl (fun pre c => pre.add (childWidth r c)) acc := by
  intro ch
  induction ch with
  | nil => intro acc _; rfl
  | cons c rest ih =>
    intro acc h
    simp only [List.foldl_cons]
    rw [h c (List.mem_cons_self _ _)]
    exact ih _ (fun c hc => h c (List.mem_cons_of_mem _ hc))

theorem rowWidthVal_congr {r r' : Registry} {ch : List String}
    (h : ∀ c ∈ ch, childWidth r' c = childWidth r c) : rowWidthVal r' ch = rowWidthVal r ch :=
  widthFold_congr ch (JVal.num 0) h

theorem colWidthVal_congr {r r' : Registry} {ch : List String}
    (h : ∀ c ∈ ch, childWidth r' c = childWidth r c) : colWidthVal r' ch = colWidthVal r ch := by
  unfold colWidthVal
  rw [List.map_congr_left h]

/-- A node's width only depends on its `meta`, so lookups that agree up to
`children` give the same `childWidth`. -/
theorem childWidth_eq_of_map_children {r r' : Registry} {c : String} {g : Node → List String}
    (h : lookupNode r' c = (lookupNode r c).map (fun n => { n with children := g n })) :
    childWidth r' c = childWidth r c := by
  unfold childWidth
  rw [h]
  cases lookupNode r c <;> rfl

/-- Width equation a finished container node satisfies, relative to a
registry. -/
def SettledEntry (reg : Registry) (n : Node) : Prop :=
  (n.type = "DASHBOARD_ROW_TYPE" → n.meta.bind Meta.width = some (rowWidthVal reg n.children))
  ∧ (n.type = "DASHBOARD_COLUMN_TYPE" → n.meta.bind Meta.width = some (colWidthVal reg n.children))

/-- All registered nodes outside `E` satisfy their width equation. -/
def SettledExcept (reg : Registry) (E : List String) : Prop :=
  ∀ k n, lookupNode reg k = some n → k ∉ E → SettledEntry reg n

theorem SettledEntry_congr {r r' : Registry} {n : Node}
    (h : ∀ c ∈ n.children, childWidth r' c = childWidth r c)
    (hs : SettledEntry r n) : SettledEntry r' n := by
  constructor
  · intro ht
    rw [rowWidthVal_congr h]
    exact hs.1 ht
  · intro ht
    rw [colWidthVal_congr h]
    exact hs.2 ht

theorem SettledExcept_mono {reg : Registry} {E E' : List String}
    (hsub : ∀ e ∈ E, e ∈ E') (hs : SettledExcept reg E) : SettledExcept reg E' :=
  fun k n hl hk => hs k n hl (fun hin => hk (hsub k hin))

/-- Transfer of settledness across a step that appends fresh keys and only
touches the parent's child list. -/
theorem SettledExcept_step {reg reg' : Registry} {E L cs : List String} {pid : String}
    (hkeys : keysOf reg' = keysOf reg ++ L)
    (hframe : ∀ k ∈ keysOf reg, k ≠ pid → lookupNode reg' k = lookupNode reg k)
    (hpid : lookupNode reg' pid
      = (lookupNode reg pid).map (fun n => { n with children := n.children ++ cs }))
    (hpidE : pid ∈ E)
    (hsub : ∀ k ∈ childRefs reg, k ∈ keysOf reg)
    (hnew : ∀ k n', k ∈ L → lookupNode reg' k = some n' → k ∉ E → SettledEntry reg' n')
    (hold : SettledExcept reg E) : SettledExcept reg' E := by
  intro k n hl hk
  have hmemk : k ∈ keysOf reg ++ L := hkeys ▸ lookupNode_mem_keys hl
  by_cases hkold : k ∈ keysOf reg
  · have hne : k ≠ pid := fun hc => hk (hc ▸ hpidE)
    have hl0 : lookupNode reg k = some n := by rw [← hframe k hkold hne]; exact hl
    refine SettledEntry_congr ?_ (hold k n hl0 hk)
    intro c hc
    have hcmem : c ∈ keysOf reg := hsub c (mem_childRefs_of_lookup hl0 hc)
    by_cases hcp : c = pid
    · subst hcp
      exact childWidth_eq_of_map_children hpid
    · unfold childWidth
      rw [hframe c hcmem hcp]
  · have hkL : k ∈ L := by
      rcases List.mem_append.mp hmemk with h1 | h1
      · exact absurd h1 hkold
      · exact h1
    exact hnew k n hkL hl hk

/-- Combined effect of `root[nd.id] = nd; parent.children.push(nd.id)` on
the registry, for a fresh childless node. -/
theorem regPush_facts (reg : Registry) (pid : String) (nd : Node)
    (hfresh : nd.id ∉ keysOf reg) (hpid : pid ∈ keysOf reg) (hnd : (keysOf reg).Nodup)
    (hch : nd.children = []) :
    keysOf (updateEntry (setEntry reg nd.id nd) pid
        (fun n => { n with children := n.children ++ [nd.id] })) = keysOf reg ++ [nd.id]
    ∧ (childRefs (updateEntry (setEntry reg nd.id nd) pid
        (fun n => { n with children := n.children ++ [nd.id] }))).Perm (childRefs reg ++ [nd.id])
    ∧ chartSlices (updateEntry (setEntry reg nd.id nd) pid
        (fun n => { n with children := n.children ++ [nd.id] }))
      = chartSlices reg ++ chartSlices [(nd.id, nd)]
    ∧ (∀ k ∈ keysOf reg, k ≠ pid →
        lookupNode (updateEntry (setEntry reg nd.id nd) pid
          (fun n => { n with children := n.children ++ [nd.id] })) k = lookupNode reg k)
    ∧ lookupNode (updateEntry (setEntry reg nd.id nd) pid
        (fun n => { n with children := n.children ++ [nd.id] })) pid
      = (lookupNode reg pid).map (fun n => { n with children := n.children ++ [nd.id] })
    ∧ lookupNode (updateEntry (setEntry reg nd.id nd) pid
        (fun n => { n with children := n.children ++ [nd.id] })) nd.id = some nd := by
  have hne : nd.id ≠ pid := fun hc => hfresh (hc ▸ hpid)
  rw [setEntry_fresh reg nd.id nd hfresh]
  have hpid2 : pid ∈ keysOf (reg ++ [(nd.id, nd)]) := by
    rw [keysOf_append]
    exact List.mem_append.mpr (Or.inl hpid)
  have hnd2 : (keysOf (reg ++ [(nd.id, nd)])).Nodup := by
    rw [keysOf_append]
    simp only [keysOf, List.map_cons, List.map_nil]
    rw [List.nodup_append]
    refine ⟨hnd, List.nodup_singleton _, ?_⟩
    intro a ha hb
    simp only [List.mem_singleton] at hb
    subst hb
    exact hfresh ha
  refine ⟨?_, ?_, ?_, ?_, ?_, ?_⟩
  · rw [keysOf_updateEntry, keysOf_append]
    rfl
  · refine (childRefs_push_perm nd.id hpid2 hnd2).trans ?_
    rw [childRefs_append]
    rw [show childRefs [(nd.id, nd)] = nd.children ++ childRefs [] from rfl, hch]
    simp [childRefs]
  · rw [chartSlices_update_children, chartSlices_append]
  · intro k hk hkp
    rw [lookupNode_updateEntry_ne _ _ hkp]
    exact lookupNode_append_left _ hk
  · rw [lookupNode_updateEntry_self]
    rw [lookupNode_append_left _ hpid]
  · rw [lookupNode_updateEntry_ne _ _ hne]
    exact lookupNode_append_new hfresh

/-- A node that is not a Row or Column satisfies its width equations
vacuously. -/
theorem SettledEntry_other (reg : Registry) (n : Node)
    (h1 : ¬ n.type = "DASHBOARD_ROW_TYPE") (h2 : ¬ n.type = "DASHBOARD_COLUMN_TYPE") :
    SettledEntry reg n :=
  ⟨fun h => absurd h h1, fun h => absurd h h2⟩

/-- Everything `doConvert` and its loops guarantee about the state they
return, relative to the entry state: the counter grows, the invariant holds,
the registry is extended by fresh non-root keys each referenced exactly once,
the chart holders added carry exactly the processed items' slice references,
nothing but the parent's child list and the new keys is touched, and
settledness outside the exception set is preserved. -/
def ConvOut (items : List Item) (pid : String) (E : List String) (s r : ConvState) : Prop :=
  s.counter ≤ r.counter
  ∧ StateInv r
  ∧ ∃ L X cs,
      keysOf r.root = keysOf s.root ++ L
      ∧ (∀ k ∈ L, k ≠ rootId)
      ∧ (childRefs r.root).Perm (childRefs s.root ++ L)
      ∧ chartSlices r.root = chartSlices s.root ++ X
      ∧ X.Perm (items.map sliceRef)
      ∧ (∀ k ∈ keysOf s.root, k ≠ pid → lookupNode r.root k = lookupNode s.root k)
      ∧ (∀ c ∈ cs, c ∈ L)
      ∧ lookupNode r.root pid
          = (lookupNode s.root pid).map (fun n => { n with children := n.children ++ cs })
      ∧ (SettledExcept s.root E → SettledExcept r.root E)

theorem ConvOut_refl (pid : String) (E : List String) (s : ConvState) (hinv : StateInv s) :
    ConvOut [] pid E s s := by
  refine ⟨le_refl _, hinv, [], [], [], ?_, by simp, by simp, by simp, by simp, fun _ _ _ => rfl,
    by simp, ?_, fun h => h⟩
  · simp
  · cases hl : lookupNode s.root pid with
    | none => rfl
    | some n => simp

theorem ConvOut_trans {it1 it2 : List Item} {pid : String} {E : List String} {s m r : ConvState}
    (h1 : ConvOut it1 pid E s m) (h2 : ConvOut it2 pid E m r) :
    ConvOut (it1 ++ it2) pid E s r := by
  obtain ⟨hc1, hi1, L1, X1, cs1, hk1, hr1, hcr1, hsl1, hx1, hf1, hcl1, hp1, hst1⟩ := h1
  obtain ⟨hc2, hi2, L2, X2, cs2, hk2, hr2, hcr2, hsl2, hx2, hf2, hcl2, hp2, hst2⟩ := h2
  refine ⟨le_trans hc1 hc2, hi2, L1 ++ L2, X1 ++ X2, cs1 ++ cs2, ?_, ?_, ?_, ?_, ?_, ?_, ?_, ?_, ?_⟩
  · rw [hk2, hk1, List.append_assoc]
  · intro k hk
    rcases List.mem_append.mp hk with h | h
    · exact hr1 k h
    · exact hr2 k h
  · refine hcr2.trans ?_
    rw [← List.append_assoc]
    exact hcr1.append_right L2
  · rw [hsl2, hsl1, List.append_assoc]
  · rw [List.map_append]
    exact hx1.append hx2
  · intro k hk hkp
    rw [hf2 k (hk1 ▸ List.mem_append.mpr (Or.inl hk)) hkp]
    exact hf1 k hk hkp
  · intro c hc
    rcases List.mem_append.mp hc with h | h
    · exact List.mem_append.mpr (Or.inl (hcl1 c h))
    · exact List.mem_append.mpr (Or.inr (hcl2 c h))
  · rw [hp2, hp1]
    cases lookupNode s.root pid with
    | none => rfl
    | some n => simp
  · exact fun h => hst2 (hst1 h)

/-- A `ConvOut` is indifferent to permuting the processed item list. -/
theorem ConvOut_perm_items {it1 it2 : List Item} {pid : String} {E : List String} {s r : ConvState}
    (hp : it1.Perm it2) (h : ConvOut it1 pid E s r) : ConvOut it2 pid E s r := by
  obtain ⟨hc, hi, L, X, cs, hk, hr, hcr, hsl, hx, hf, hcl, hpd, hst⟩ := h
  exact ⟨hc, hi, L, X, cs, hk, hr, hcr, hsl, hx.trans (hp.map sliceRef), hf, hcl, hpd, hst⟩

/-- Hypotheses under which one step of the conversion runs: a sane state, a
registered parent, and an exception set containing the parent made of
registered keys. -/
def StepHyp (pid : String) (E : List String) (s : ConvState) : Prop :=
  StateInv s ∧ pid ∈ keysOf s.root ∧ pid ∈ E ∧ (∀ e ∈ E, e ∈ keysOf s.root)

theorem addChartTo_out (s : ConvState) (pid : String) (item : Item) (E : List String)
    (hh : StepHyp pid E s) : ConvOut [item] pid E s (addChartTo s pid item) := by
  obtain ⟨⟨hgood, hndk, hsub, hcrnd⟩, hpid, hpidE, hE⟩ := hh
  set ch := getChartHolder s.counter item with hch
  rw [show addChartTo s pid item
      = ({ counter := s.counter + 1,
           root := updateEntry (setEntry s.root ch.id ch) pid
             (fun n => { n with children := n.children ++ [ch.id] }) } : ConvState) from rfl]
  have hid : ch.id = chartIdStr s.counter := rfl
  have hfresh : ch.id ∉ keysOf s.root := by
    rw [hid]
    intro hc
    exact goodKey_ne_chartIdStr (hgood _ hc) rfl
  obtain ⟨hk, hcr, hsl, hf, hpd, hlch⟩ :=
    regPush_facts s.root pid ch hfresh hpid hndk rfl
  have hchslice : chartSlices [(ch.id, ch)] = [sliceRef item] := rfl
  have hcrE : ch.id ∉ childRefs s.root := fun hc => hfresh (hsub _ hc)
  refine ⟨Nat.le_succ _, ?_, [ch.id], [sliceRef item], [ch.id], hk, ?_, ?_, ?_, by simp, hf, by simp,
    hpd, ?_⟩
  · refine ⟨?_, ?_, ?_, ?_⟩
    · intro k hkm
      rw [hk] at hkm
      rcases List.mem_append.mp hkm with h | h
      · exact goodKey_mono (Nat.le_succ _) (hgood k h)
      · simp only [List.mem_singleton] at h
        subst h
        exact Or.inr ⟨s.counter, Nat.lt_succ_self _, Or.inr (Or.inr hid)⟩
    · rw [hk]
      simp only [List.nodup_append, List.nodup_singleton]
      refine ⟨hndk, trivial, ?_⟩
      intro a ha hb
      simp only [List.mem_singleton] at hb
      subst hb
      exact hfresh ha
    · intro k hkm
      have := hcr.mem_iff.mp hkm
      rw [hk]
      rcases List.mem_append.mp this with h | h
      · exact List.mem_append.mpr (Or.inl (hsub k h))
      · exact List.mem_append.mpr (Or.inr h)
    · rw [hcr.nodup_iff]
      simp only [List.nodup_append, List.nodup_singleton]
      refine ⟨hcrnd, trivial, ?_⟩
      intro a ha hb
      simp only [List.mem_singleton] at hb
      subst hb
      exact hcrE ha
  · intro k hkm
    simp only [List.mem_singleton] at hkm
    subst hkm
    rw [hid]
    exact (rootId_ne_chartIdStr _).symm
  · exact hcr.trans (List.Perm.refl _)
  · rw [hsl, hchslice]
  · intro hset
    refine SettledExcept_step hk hf hpd hpidE hsub ?_ hset
    intro k n' hkL hl hkE
    simp only [List.mem_singleton] at hkL
    subst hkL
    rw [hlch] at hl
    obtain rfl : ch = n' := by simpa using hl
    exact SettledEntry_other _ _ (by rw [hch]; exact fun hc => by simp [getChartHolder] at hc)
      (by rw [hch]; exact fun hc => by simp [getChartHolder] at hc)

theorem lookup_isSome_of_mem_keys {reg : Registry} {k : String} (h : k ∈ keysOf reg) :
    ∃ n, lookupNode reg k = some n := by
  induction reg with
  | nil => simp [keysOf] at h
  | cons p rest ih =>
    rw [lookupNode_cons]
    by_cases hpk : p.1 = k
    · exact ⟨p.2, if_pos hpk⟩
    · rw [if_neg hpk]
      refine ih ?_
      rw [keysOf_cons] at h
      rcases List.mem_cons.mp h with h1 | h1
      · exact absurd h1.symm hpk
      · exact h1

theorem StepHyp_preserved {items : List Item} {pid : String} {E : List String} {s m : ConvState}
    (hout : ConvOut items pid E s m) (hh : StepHyp pid E s) : StepHyp pid E m := by
  obtain ⟨_, hinv, L, X, cs, hk, _, _, _, _, _, _, _, _⟩ := hout
  obtain ⟨_, hpid, hpidE, hE⟩ := hh
  exact ⟨hinv, hk ▸ List.mem_append.mpr (Or.inl hpid), hpidE,
    fun e he => hk ▸ List.mem_append.mpr (Or.inl (hE e he))⟩

theorem foldCharts_out (items : List Item) (pid : String) (E : List String) :
    ∀ s, StepHyp pid E s →
      ConvOut items pid E s (items.foldl (fun t item => addChartTo t pid item) s) := by
  induction items with
  | nil => intro s hh; exact ConvOut_refl pid E s hh.1
  | cons i rest ih =>
    intro s hh
    rw [List.foldl_cons]
    have h1 := addChartTo_out s pid i E hh
    have h2 := ih (addChartTo s pid i) (StepHyp_preserved h1 hh)
    exact ConvOut_trans h1 h2

theorem setRowWidth_facts (s : ConvState) (rowId : String) :
    keysOf (setRowWidth s rowId).root = keysOf s.root
    ∧ childRefs (setRowWidth s rowId).root = childRefs s.root
    ∧ chartSlices (setRowWidth s rowId).root = chartSlices s.root
    ∧ (∀ k, k ≠ rowId → lookupNode (setRowWidth s rowId).root k = lookupNode s.root k)
    ∧ (setRowWidth s rowId).counter = s.counter
    ∧ lookupNode (setRowWidth s rowId).root rowId
      = (lookupNode s.root rowId).map (fun n =>
          { n with meta := n.meta.map (fun m => { m with width := some (rowWidthVal s.root n.children) }) }) := by
  unfold setRowWidth
  dsimp only
  refine ⟨keysOf_updateEntry _ _ _,
    childRefs_update_width s.root rowId (fun n => some (rowWidthVal s.root n.children)),
    chartSlices_update_width s.root rowId (fun n => some (rowWidthVal s.root n.children)),
    ?_, rfl, ?_⟩
  · intro k hk
    exact lookupNode_updateEntry_ne _ _ hk
  · exact lookupNode_updateEntry_self _ _ _

theorem setColWidth_facts (s : ConvState) (colId : String) :
    keysOf (setColWidth s colId).root = keysOf s.root
    ∧ childRefs (setColWidth s colId).root = childRefs s.root
    ∧ chartSlices (setColWidth s colId).root = chartSlices s.root
    ∧ (∀ k, k ≠ colId → lookupNode (setColWidth s colId).root k = lookupNode s.root k)
    ∧ (setColWidth s colId).counter = s.counter
    ∧ lookupNode (setColWidth s colId).root colId
      = (lookupNode s.root colId).map (fun n =>
          { n with meta := n.meta.map (fun m => { m with width := some (colWidthVal s.root n.children) }) }) := by
  unfold setColWidth
  dsimp only
  refine ⟨keysOf_updateEntry _ _ _,
    childRefs_update_width s.root colId (fun n => some (colWidthVal s.root n.children)),
    chartSlices_update_width s.root colId (fun n => some (colWidthVal s.root n.children)),
    ?_, rfl, ?_⟩
  · intro k hk
    exact lookupNode_updateEntry_ne _ _ hk
  · exact lookupNode_updateEntry_self _ _ _

theorem setRowWidth_settled {s : ConvState} {rowId pid : String} {E : List String}
    {nrow npid : Node}
    (hl : lookupNode s.root rowId = some nrow)
    (htype : nrow.type = "DASHBOARD_ROW_TYPE")
    (hmeta : nrow.meta.isSome = true)
    (hndk : (keysOf s.root).Nodup) (hcrnd : (childRefs s.root).Nodup)
    (hsub : ∀ k ∈ childRefs s.root, k ∈ keysOf s.root)
    (hlp : lookupNode s.root pid = some npid)
    (hin : rowId ∈ npid.children) (hpe : pid ∈ E) (hne : pid ≠ rowId)
    (hset : SettledExcept s.root (rowId :: E)) :
    SettledExcept (setRowWidth s rowId).root E := by
  obtain ⟨hk, hcrr, hslr, hfr, hcnt, hself⟩ := setRowWidth_facts s rowId
  have hnotin : rowId ∉ nrow.children := by
    intro hcin
    exact hne (childRefs_unique hndk hcrnd hlp hl hin hcin)
  have hstep : ∀ c ∈ nrow.children, childWidth (setRowWidth s rowId).root c = childWidth s.root c := by
    intro c hc
    have hcr2 : ¬ c = rowId := fun hceq => hnotin (hceq ▸ hc)
    unfold childWidth
    rw [hfr c hcr2]
  intro k n hl' hk'
  by_cases hkr : k = rowId
  · rw [hkr] at hl'
    rw [hself, hl] at hl'
    simp at hl'
    obtain ⟨m0, hm0⟩ := Option.isSome_iff_exists.mp hmeta
    constructor
    · intro _
      rw [← hl']
      simp only [hm0, Option.map_some, Option.bind_some]
      have : rowWidthVal (setRowWidth s rowId).root nrow.children = rowWidthVal s.root nrow.children :=
        rowWidthVal_congr hstep
      simp [this]
    · intro habs
      rw [← hl'] at habs
      simp only at habs
      rw [htype] at habs
      exact absurd habs (by decide)
  · rw [hfr k hkr] at hl'
    have hsettled := hset k n hl' (by
      intro hmem
      rcases List.mem_cons.mp hmem with h1 | h1
      · exact hkr h1
      · exact hk' h1)
    refine SettledEntry_congr ?_ hsettled
    intro c hc
    by_cases hcr2 : c = rowId
    · subst hcr2
      exfalso
      have hkpid : k = pid := childRefs_unique hndk hcrnd hl' hlp hc hin
      exact hk' (hkpid ▸ hpe)
    · unfold childWidth
      rw [hfr c hcr2]

theorem setColWidth_settled {s : ConvState} {colId pid : String} {E : List String}
    {ncol npid : Node}
    (hl : lookupNode s.root colId = some ncol)
    (htype : ncol.type = "DASHBOARD_COLUMN_TYPE")
    (hmeta : ncol.meta.isSome = true)
    (hndk : (keysOf s.root).Nodup) (hcrnd : (childRefs s.root).Nodup)
    (hsub : ∀ k ∈ childRefs s.root, k ∈ keysOf s.root)
    (hlp : lookupNode s.root pid = some npid)
    (hin : colId ∈ npid.children) (hpe : pid ∈ E) (hne : pid ≠ colId)
    (hset : SettledExcept s.root (colId :: E)) :
    SettledExcept (setColWidth s colId).root E := by
  obtain ⟨hk, hcrr, hslr, hfr, hcnt, hself⟩ := setColWidth_facts s colId
  have hnotin : colId ∉ ncol.children := by
    intro hcin
    exact hne (childRefs_unique hndk hcrnd hlp hl hin hcin)
  have hstep : ∀ c ∈ ncol.children, childWidth (setColWidth s colId).root c = childWidth s.root c := by
    intro c hc
    have hcr2 : ¬ c = colId := fun hceq => hnotin (hceq ▸ hc)
    unfold childWidth
    rw [hfr c hcr2]
  intro k n hl' hk'
  by_cases hkr : k = colId
  · rw [hkr] at hl'
    rw [hself, hl] at hl'
    simp at hl'
    obtain ⟨m0, hm0⟩ := Option.isSome_iff_exists.mp hmeta
    constructor
    · intro habs
      rw [← hl'] at habs
      simp only at habs
      rw [htype] at habs
      exact absurd habs (by decide)
    · intro _
      rw [← hl']
      simp only [hm0, Option.map_some, Option.bind_some]
      have : colWidthVal (setColWidth s colId).root ncol.children = colWidthVal s.root ncol.children :=
        colWidthVal_congr hstep
      simp [this]
  · rw [hfr k hkr] at hl'
    have hsettled := hset k n hl' (by
      intro hmem
      rcases List.mem_cons.mp hmem with h1 | h1
      · exact hkr h1
      · exact hk' h1)
    refine SettledEntry_congr ?_ hsettled
    intro c hc
    by_cases hcr2 : c = colId
    · subst hcr2
      exfalso
      have hkpid : k = pid := childRefs_unique hndk hcrnd hl' hlp hc hin
      exact hk' (hkpid ▸ hpe)
    · unfold childWidth
      rw [hfr c hcr2]

theorem classifyRow_upper_bound {cr : Nat} :
    ∀ {l lo up : List Item}, classifyRow cr l = some (lo, up) → ∀ i ∈ up, cr ≤ i.row := by
  intro l
  induction l with
  | nil =>
    intro lo up h i hi
    simp [classifyRow] at h
    rw [h.2] at hi
    simp at hi
  | cons a rest ih =>
    intro lo up h i hi
    rw [classifyRow] at h
    split at h
    · rcases hr : classifyRow cr rest with _ | ⟨lo2, up2⟩ <;> rw [hr] at h
      · exact absurd h (by simp)
      · obtain ⟨h1, h2⟩ : a :: lo2 = lo ∧ up2 = up := by simpa using h
        exact ih hr i (h2 ▸ hi)
    · split at h
      · next hub =>
        rcases hr : classifyRow cr rest with _ | ⟨lo2, up2⟩ <;> rw [hr] at h
        · exact absurd h (by simp)
        · obtain ⟨h1, h2⟩ : lo2 = lo ∧ a :: up2 = up := by simpa using h
          rw [← h2] at hi
          rcases List.mem_cons.mp hi with h3 | h3
          · exact h3 ▸ hub
          · exact ih hr i h3
      · exact absurd h (by simp)

theorem classifyCol_upper_bound {cc : Nat} :
    ∀ {l lo up : List Item}, classifyCol cc l = some (lo, up) → ∀ i ∈ up, cc ≤ i.col := by
  intro l
  induction l with
  | nil =>
    intro lo up h i hi
    simp [classifyCol] at h
    rw [h.2] at hi
    simp at hi
  | cons a rest ih =>
    intro lo up h i hi
    rw [classifyCol] at h
    split at h
    · rcases hr : classifyCol cc rest with _ | ⟨lo2, up2⟩ <;> rw [hr] at h
      · exact absurd h (by simp)
      · obtain ⟨h1, h2⟩ : a :: lo2 = lo ∧ up2 = up := by simpa using h
        exact ih hr i (h2 ▸ hi)
    · split at h
      · next hub =>
        rcases hr : classifyCol cc rest with _ | ⟨lo2, up2⟩ <;> rw [hr] at h
        · exact absurd h (by simp)
        · obtain ⟨h1, h2⟩ : lo2 = lo ∧ a :: up2 = up := by simpa using h
          rw [← h2] at hi
          rcases List.mem_cons.mp hi with h3 | h3
          · exact h3 ▸ hub
          · exact ih hr i h3
      · exact absurd h (by simp)

theorem classifyRow_none_straddler {cr : Nat} :
    ∀ {l : List Item}, classifyRow cr l = none → ∃ i ∈ l, i.row < cr ∧ cr < i.row + i.size_y := by
  intro l
  induction l with
  | nil => intro h; simp [classifyRow] at h
  | cons a rest ih =>
    intro h
    rw [classifyRow] at h
    split at h
    · rcases hr : classifyRow cr rest with _ | ⟨lo2, up2⟩ <;> rw [hr] at h
      · obtain ⟨i, hi, hb⟩ := ih hr
        exact ⟨i, List.mem_cons_of_mem _ hi, hb⟩
      · exact absurd h (by simp)
    · split at h
      · rcases hr : classifyRow cr rest with _ | ⟨lo2, up2⟩ <;> rw [hr] at h
        · obtain ⟨i, hi, hb⟩ := ih hr
          exact ⟨i, List.mem_cons_of_mem _ hi, hb⟩
        · exact absurd h (by simp)
      · next h1 h2 =>
        exact ⟨a, List.mem_cons_self _ _, by omega⟩

theorem classifyCol_none_straddler {cc : Nat} :
    ∀ {l : List Item}, classifyCol cc l = none → ∃ i ∈ l, i.col < cc ∧ cc < i.col + i.size_x := by
  intro l
  induction l with
  | nil => intro h; simp [classifyCol] at h
  | cons a rest ih =>
    intro h
    rw [classifyCol] at h
    split at h
    · rcases hr : classifyCol cc rest with _ | ⟨lo2, up2⟩ <;> rw [hr] at h
      · obtain ⟨i, hi, hb⟩ := ih hr
        exact ⟨i, List.mem_cons_of_mem _ hi, hb⟩
      · exact absurd h (by simp)
    · split at h
      · rcases hr : classifyCol cc rest with _ | ⟨lo2, up2⟩ <;> rw [hr] at h
        · obtain ⟨i, hi, hb⟩ := ih hr
          exact ⟨i, List.mem_cons_of_mem _ hi, hb⟩
        · exact absurd h (by simp)
      · next h1 h2 =>
        exact ⟨a, List.mem_cons_self _ _, by omega⟩

theorem classifyRow_all_lower {cr : Nat} :
    ∀ {l : List Item}, (∀ i ∈ l, i.row + i.size_y ≤ cr) → classifyRow cr l = some (l, []) := by
  intro l
  induction l with
  | nil => intro _; rfl
  | cons a rest ih =>
    intro h
    rw [classifyRow, if_pos (h a (List.mem_cons_self _ _)),
      ih (fun i hi => h i (List.mem_cons_of_mem _ hi))]

theorem classifyCol_all_lower {cc : Nat} :
    ∀ {l : List Item}, (∀ i ∈ l, i.col + i.size_x ≤ cc) → classifyCol cc l = some (l, []) := by
  intro l
  induction l with
  | nil => intro _; rfl
  | cons a rest ih =>
    intro h
    rw [classifyCol, if_pos (h a (List.mem_cons_self _ _)),
      ih (fun i hi => h i (List.mem_cons_of_mem _ hi))]

/-- The row-divider scan loses no item: the produced layers flatten to a
permutation of the scanned items, given positive heights and enough fuel. -/
theorem scanRowsAux_flatten_perm {cr fuel : Nat} :
    ∀ {items : List Item}, (items = [] ∨ 0 < fuel) →
      (∀ i ∈ items, i.row + i.size_y < cr + fuel) →
      (∀ i ∈ items, 0 < i.size_y) →
      ((scanRowsAux cr fuel items).flatten).Perm items := by
  induction fuel generalizing cr with
  | zero =>
    intro items hne hcov hpos
    rcases hne with h | h
    · subst h; simp [scanRowsAux]
    · omega
  | succ fuel ih =>
    intro items hne hcov hpos
    rw [scanRowsAux]
    by_cases hempty : items.isEmpty
    · rw [if_pos hempty]
      rw [List.isEmpty_iff] at hempty
      subst hempty
      simp
    · rw [if_neg hempty]
      rw [List.isEmpty_iff] at hempty
      rcases hcl : classifyRow cr items with _ | ⟨lower, upper⟩
      · have hrec : (scanRowsAux (cr + 1) fuel items).flatten.Perm items := by
          refine ih ?_ (fun i hi => by have := hcov i hi; omega) hpos
          right
          rcases Nat.eq_zero_or_pos fuel with hf | hf
          · exfalso
            obtain ⟨i, hi, hb1, hb2⟩ := classifyRow_none_straddler hcl
            have := hcov i hi
            omega
          · exact hf
        exact hrec
      · have hup : ∀ i ∈ upper, i ∈ items := classifyRow_mem_upper hcl
        have hrec : (scanRowsAux (cr + 1) fuel upper).flatten.Perm upper := by
          refine ih ?_ (fun i hi => by have := hcov i (hup i hi); omega)
            (fun i hi => hpos i (hup i hi))
          rcases Nat.eq_zero_or_pos fuel with hf | hf
          · left
            rcases hu : upper with _ | ⟨u, urest⟩
            · rfl
            · exfalso
              have hub := classifyRow_upper_bound hcl u (hu ▸ List.mem_cons_self _ _)
              have h1 := hcov u (hup u (hu ▸ List.mem_cons_self _ _))
              have h2 := hpos u (hup u (hu ▸ List.mem_cons_self _ _))
              omega
          · right; exact hf
        rw [List.flatten_cons]
        exact (List.Perm.append_left lower hrec).trans (classifyRow_perm cr items lower upper hcl)

/-- Combined state-level effect of creating a fresh Row or Column container
and attaching it to the parent. -/
theorem pushContainer_out (s : ConvState) (pid : String) (nd : Node) (E : List String)
    (hh : StepHyp pid E s)
    (hid : nd.id = rowIdStr s.counter ∨ nd.id = colIdStr s.counter)
    (hch : nd.children = [])
    (hnc : ¬ nd.type = "DASHBOARD_CHART_TYPE") :
    StateInv ({ counter := s.counter + 1,
                root := updateEntry (setEntry s.root nd.id nd) pid
                  (fun n => { n with children := n.children ++ [nd.id] }) } : ConvState)
    ∧ keysOf (updateEntry (setEntry s.root nd.id nd) pid
        (fun n => { n with children := n.children ++ [nd.id] })) = keysOf s.root ++ [nd.id]
    ∧ (childRefs (updateEntry (setEntry s.root nd.id nd) pid
        (fun n => { n with children := n.children ++ [nd.id] }))).Perm (childRefs s.root ++ [nd.id])
    ∧ chartSlices (updateEntry (setEntry s.root nd.id nd) pid
        (fun n => { n with children := n.children ++ [nd.id] })) = chartSlices s.root
    ∧ (∀ k ∈ keysOf s.root, k ≠ pid → lookupNode (updateEntry (setEntry s.root nd.id nd) pid
        (fun n => { n with children := n.children ++ [nd.id] })) k = lookupNode s.root k)
    ∧ lookupNode (updateEntry (setEntry s.root nd.id nd) pid
        (fun n => { n with children := n.children ++ [nd.id] })) pid
      = (lookupNode s.root pid).map (fun n => { n with children := n.children ++ [nd.id] })
    ∧ lookupNode (updateEntry (setEntry s.root nd.id nd) pid
        (fun n => { n with children := n.children ++ [nd.id] })) nd.id = some nd
    ∧ (SettledExcept s.root E → SettledExcept (updateEntry (setEntry s.root nd.id nd) pid
        (fun n => { n with children := n.children ++ [nd.id] })) (nd.id :: E))
    ∧ nd.id ∉ keysOf s.root ∧ nd.id ≠ pid ∧ nd.id ≠ rootId := by
  obtain ⟨⟨hgood, hndk, hsub, hcrnd⟩, hpid, hpidE, hE⟩ := hh
  have hfresh : nd.id ∉ keysOf s.root := by
    intro hc
    rcases hid with h | h
    · exact goodKey_ne_rowIdStr (hgood _ hc) h
    · exact goodKey_ne_colIdStr (hgood _ hc) h
  obtain ⟨hk, hcr, hsl, hf, hpd, hlnd⟩ :=
    regPush_facts s.root pid nd hfresh hpid hndk hch
  have hnp : nd.id ≠ pid := fun hc => hfresh (hc ▸ hpid)
  have hnr : nd.id ≠ rootId := by
    rcases hid with h | h
    · exact h ▸ (rootId_ne_rowIdStr _).symm
    · exact h ▸ (rootId_ne_colIdStr _).symm
  have hslice : chartSlices [(nd.id, nd)] = [] := by
    rw [chartSlices_cons, if_neg hnc]
    rfl
  have hcrE : nd.id ∉ childRefs s.root := fun hc => hfresh (hsub _ hc)
  refine ⟨⟨?_, ?_, ?_, ?_⟩, hk, hcr, by rw [hsl, hslice]; simp, hf, hpd, hlnd, ?_, hfresh, hnp, hnr⟩
  · intro k hkm
    rw [hk] at hkm
    rcases List.mem_append.mp hkm with h | h
    · exact goodKey_mono (Nat.le_succ _) (hgood k h)
    · simp only [List.mem_singleton] at h
      subst h
      rcases hid with h | h
      · exact Or.inr ⟨s.counter, Nat.lt_succ_self _, Or.inl h⟩
      · exact Or.inr ⟨s.counter, Nat.lt_succ_self _, Or.inr (Or.inl h)⟩
  · rw [hk]
    simp only [List.nodup_append, List.nodup_singleton]
    refine ⟨hndk, trivial, ?_⟩
    intro a ha hb
    simp only [List.mem_singleton] at hb
    subst hb
    exact hfresh ha
  · intro k hkm
    have := hcr.mem_iff.mp hkm
    rw [hk]
    rcases List.mem_append.mp this with h | h
    · exact List.mem_append.mpr (Or.inl (hsub k h))
    · exact List.mem_append.mpr (Or.inr h)
  · rw [hcr.nodup_iff]
    simp only [List.nodup_append, List.nodup_singleton]
    refine ⟨hcrnd, trivial, ?_⟩
    intro a ha hb
    simp only [List.mem_singleton] at hb
    subst hb
    exact hcrE ha
  · intro hset
    refine SettledExcept_step hk hf hpd (List.mem_cons_of_mem _ hpidE) hsub ?_
      (SettledExcept_mono (fun e he => List.mem_cons_of_mem _ he) hset)
    intro k n' hkL hl hkE
    simp only [List.mem_singleton] at hkL
    subst hkL
    exact absurd (List.mem_cons_self _ _) hkE

/-- One layer stage: create a Row container, let an inner conversion fill it,
then settle its width. -/
theorem rowStage_out (s s2 s3 : ConvState) (pid : String) (E : List String) (items : List Item)
    (hh : StepHyp pid E s)
    (hs2c : s2.counter = s.counter + 1)
    (hs2r : s2.root = updateEntry (setEntry s.root (rowIdStr s.counter) (getRowContainer s.counter)) pid
        (fun n => { n with children := n.children ++ [rowIdStr s.counter] }))
    (hF : ConvOut items (rowIdStr s.counter) (rowIdStr s.counter :: E) s2 s3) :
    ConvOut items pid E s (setRowWidth s3 (rowIdStr s.counter)) := by
  obtain ⟨P1, P2, P3, P4, P5, P6, P7, P8, Pfresh, Pnp, Pnr⟩ :=
    pushContainer_out s pid (getRowContainer s.counter) E hh (Or.inl rfl) rfl
      (by intro hc; simp [getRowContainer] at hc)
  obtain ⟨hc3, hinv3, L3, X3, cs3, hk3, hr3, hcr3, hsl3, hx3, hf3, hcl3, hp3, hst3⟩ := hF
  rw [hs2r] at hk3 hcr3 hsl3 hf3 hp3 hst3
  rw [hs2c] at hc3
  obtain ⟨wk, wcr, wsl, wfr, wcnt, wself⟩ := setRowWidth_facts s3 (rowIdStr s.counter)
  have P2' : keysOf (updateEntry (setEntry s.root (rowIdStr s.counter) (getRowContainer s.counter)) pid
      (fun n => { n with children := n.children ++ [rowIdStr s.counter] }))
      = keysOf s.root ++ [rowIdStr s.counter] := P2
  have P3' : (childRefs (updateEntry (setEntry s.root (rowIdStr s.counter) (getRowContainer s.counter)) pid
      (fun n => { n with children := n.children ++ [rowIdStr s.counter] }))).Perm
      (childRefs s.root ++ [rowIdStr s.counter]) := P3
  have P4' : chartSlices (updateEntry (setEntry s.root (rowIdStr s.counter) (getRowContainer s.counter)) pid
      (fun n => { n with children := n.children ++ [rowIdStr s.counter] }))
      = chartSlices s.root := P4
  have P5' : ∀ k ∈ keysOf s.root, k ≠ pid →
      lookupNode (updateEntry (setEntry s.root (rowIdStr s.counter) (getRowContainer s.counter)) pid
        (fun n => { n with children := n.children ++ [rowIdStr s.counter] })) k = lookupNode s.root k := P5
  have P6' : lookupNode (updateEntry (setEntry s.root (rowIdStr s.counter) (getRowContainer s.counter)) pid
      (fun n => { n with children := n.children ++ [rowIdStr s.counter] })) pid
      = (lookupNode s.root pid).map (fun n => { n with children := n.children ++ [rowIdStr s.counter] }) := P6
  have P7' : lookupNode (updateEntry (setEntry s.root (rowIdStr s.counter) (getRowContainer s.counter)) pid
      (fun n => { n with children := n.children ++ [rowIdStr s.counter] })) (rowIdStr s.counter)
      = some (getRowContainer s.counter) := P7
  have Pfresh' : rowIdStr s.counter ∉ keysOf s.root := Pfresh
  have Pnr' : rowIdStr s.counter ≠ rootId := Pnr
  have hpne : pid ≠ rowIdStr s.counter := fun hc => Pnp hc.symm
  obtain ⟨⟨hgood, hndk, hsub, hcrnd⟩, hpid, hpidE, hE⟩ := hh
  obtain ⟨np0, hnp0⟩ := lookup_isSome_of_mem_keys hpid
  have hkmem2 : ∀ k ∈ keysOf s.root,
      k ∈ keysOf (updateEntry (setEntry s.root (rowIdStr s.counter) (getRowContainer s.counter)) pid
        (fun n => { n with children := n.children ++ [rowIdStr s.counter] })) := by
    intro k hk
    rw [P2']
    exact List.mem_append.mpr (Or.inl hk)
  have hlp3 : lookupNode s3.root pid
      = some { np0 with children := np0.children ++ [rowIdStr s.counter] } := by
    rw [hf3 pid (hkmem2 pid hpid) hpne, P6', hnp0]
    rfl
  refine ⟨?_, ?_, rowIdStr s.counter :: L3, X3, [rowIdStr s.counter], ?_, ?_, ?_, ?_, hx3, ?_,
    ?_, ?_, ?_⟩
  · rw [wcnt]; omega
  · obtain ⟨g1, g2, g3, g4⟩ := hinv3
    refine ⟨?_, ?_, ?_, ?_⟩
    · intro k hk
      rw [wk] at hk
      rw [wcnt]
      exact g1 k hk
    · rw [wk]; exact g2
    · intro k hk
      rw [wcr] at hk
      rw [wk]
      exact g3 k hk
    · rw [wcr]; exact g4
  · rw [wk, hk3, P2', List.append_assoc]
    rfl
  · intro k hk
    rcases List.mem_cons.mp hk with h | h
    · exact h ▸ Pnr'
    · exact hr3 k h
  · rw [wcr]
    refine hcr3.trans ?_
    refine (P3'.append_right L3).trans ?_
    have heq : (childRefs s.root ++ [rowIdStr s.counter]) ++ L3
        = childRefs s.root ++ (rowIdStr s.counter :: L3) := by simp
    exact heq ▸ List.Perm.refl _
  · rw [wsl, hsl3, P4']
  · intro k hks hkp
    have hkr : k ≠ rowIdStr s.counter := fun hc => Pfresh' (hc ▸ hks)
    rw [wfr k hkr, hf3 k (hkmem2 k hks) hkr, P5' k hks hkp]
  · intro c hc
    simp only [List.mem_singleton] at hc
    exact hc ▸ List.mem_cons_self _ _
  · rw [wfr pid hpne, hf3 pid (hkmem2 pid hpid) hpne, P6']
  · intro hset
    have hs3set := hst3 (P8 hset)
    have hlrid : lookupNode s3.root (rowIdStr s.counter)
        = some { getRowContainer s.counter with children := cs3 } := by
      rw [hp3, P7']
      simp [getRowContainer]
    exact setRowWidth_settled hlrid rfl rfl hinv3.2.1 hinv3.2.2.2 hinv3.2.2.1 hlp3
      (by simp) hpidE hpne hs3set

/-- One column stage inside a layer: create a Column container, let an inner
conversion fill it, then settle its width. -/
theorem colStage_out (s s2 s3 : ConvState) (pid : String) (E : List String) (items : List Item)
    (hh : StepHyp pid E s)
    (hs2c : s2.counter = s.counter + 1)
    (hs2r : s2.root = updateEntry (setEntry s.root (colIdStr s.counter) (getColContainer s.counter)) pid
        (fun n => { n with children := n.children ++ [colIdStr s.counter] }))
    (hF : ConvOut items (colIdStr s.counter) (colIdStr s.counter :: E) s2 s3) :
    ConvOut items pid E s (setColWidth s3 (colIdStr s.counter)) := by
  obtain ⟨P1, P2, P3, P4, P5, P6, P7, P8, Pfresh, Pnp, Pnr⟩ :=
    pushContainer_out s pid (getColContainer s.counter) E hh (Or.inr rfl) rfl
      (by intro hc; simp [getColContainer] at hc)
  obtain ⟨hc3, hinv3, L3, X3, cs3, hk3, hr3, hcr3, hsl3, hx3, hf3, hcl3, hp3, hst3⟩ := hF
  rw [hs2r] at hk3 hcr3 hsl3 hf3 hp3 hst3
  rw [hs2c] at hc3
  obtain ⟨wk, wcr, wsl, wfr, wcnt, wself⟩ := setColWidth_facts s3 (colIdStr s.counter)
  have P2' : keysOf (updateEntry (setEntry s.root (colIdStr s.counter) (getColContainer s.counter)) pid
      (fun n => { n with children := n.children ++ [colIdStr s.counter] }))
      = keysOf s.root ++ [colIdStr s.counter] := P2
  have P3' : (childRefs (updateEntry (setEntry s.root (colIdStr s.counter) (getColContainer s.counter)) pid
      (fun n => { n with children := n.children ++ [colIdStr s.counter] }))).Perm
      (childRefs s.root ++ [colIdStr s.counter]) := P3
  have P4' : chartSlices (updateEntry (setEntry s.root (colIdStr s.counter) (getColContainer s.counter)) pid
      (fun n => { n with children := n.children ++ [colIdStr s.counter] }))
      = chartSlices s.root := P4
  have P5' : ∀ k ∈ keysOf s.root, k ≠ pid →
      lookupNode (updateEntry (setEntry s.root (colIdStr s.counter) (getColContainer s.counter)) pid
        (fun n => { n with children := n.children ++ [colIdStr s.counter] })) k = lookupNode s.root k := P5
  have P6' : lookupNode (updateEntry (setEntry s.root (colIdStr s.counter) (getColContainer s.counter)) pid
      (fun n => { n with children := n.children ++ [colIdStr s.counter] })) pid
      = (lookupNode s.root pid).map (fun n => { n with children := n.children ++ [colIdStr s.counter] }) := P6
  have P7' : lookupNode (updateEntry (setEntry s.root (colIdStr s.counter) (getColContainer s.counter)) pid
      (fun n => { n with children := n.children ++ [colIdStr s.counter] })) (colIdStr s.counter)
      = some (getColContainer s.counter) := P7
  have Pfresh' : colIdStr s.counter ∉ keysOf s.root := Pfresh
  have Pnr' : colIdStr s.counter ≠ rootId := Pnr
  have hpne : pid ≠ colIdStr s.counter := fun hc => Pnp hc.symm
  obtain ⟨⟨hgood, hndk, hsub, hcrnd⟩, hpid, hpidE, hE⟩ := hh
  obtain ⟨np0, hnp0⟩ := lookup_isSome_of_mem_keys hpid
  have hkmem2 : ∀ k ∈ keysOf s.root,
      k ∈ keysOf (updateEntry (setEntry s.root (colIdStr s.counter) (getColContainer s.counter)) pid
        (fun n => { n with children := n.children ++ [colIdStr s.counter] })) := by
    intro k hk
    rw [P2']
    exact List.mem_append.mpr (Or.inl hk)
  have hlp3 : lookupNode s3.root pid
      = some { np0 with children := np0.children ++ [colIdStr s.counter] } := by
    rw [hf3 pid (hkmem2 pid hpid) hpne, P6', hnp0]
    rfl
  refine ⟨?_, ?_, colIdStr s.counter :: L3, X3, [colIdStr s.counter], ?_, ?_, ?_, ?_, hx3, ?_,
    ?_, ?_, ?_⟩
  · rw [wcnt]; omega
  · obtain ⟨g1, g2, g3, g4⟩ := hinv3
    refine ⟨?_, ?_, ?_, ?_⟩
    · intro k hk
      rw [wk] at hk
      rw [wcnt]
      exact g1 k hk
    · rw [wk]; exact g2
    · intro k hk
      rw [wcr] at hk
      rw [wk]
      exact g3 k hk
    · rw [wcr]; exact g4
  · rw [wk, hk3, P2', List.append_assoc]
    rfl
  · intro k hk
    rcases List.mem_cons.mp hk with h | h
    · exact h ▸ Pnr'
    · exact hr3 k h
  · rw [wcr]
    refine hcr3.trans ?_
    refine (P3'.append_right L3).trans ?_
    have heq : (childRefs s.root ++ [colIdStr s.counter]) ++ L3
        = childRefs s.root ++ (colIdStr s.counter :: L3) := by simp
    exact heq ▸ List.Perm.refl _
  · rw [wsl, hsl3, P4']
  · intro k hks hkp
    have hkr : k ≠ colIdStr s.counter := fun hc => Pfresh' (hc ▸ hks)
    rw [wfr k hkr, hf3 k (hkmem2 k hks) hkr, P5' k hks hkp]
  · intro c hc
    simp only [List.mem_singleton] at hc
    exact hc ▸ List.mem_cons_self _ _
  · rw [wfr pid hpne, hf3 pid (hkmem2 pid hpid) hpne, P6']
  · intro hset
    have hs3set := hst3 (P8 hset)
    have hlcid : lookupNode s3.root (colIdStr s.counter)
        = some { getColContainer s.counter with children := cs3 } := by
      rw [hp3, P7']
      simp [getColContainer]
    exact setColWidth_settled hlcid rfl rfl hinv3.2.1 hinv3.2.2.2 hinv3.2.2.1 hlp3
      (by simp) hpidE hpne hs3set

theorem pushContainer_stepHyp_row (s : ConvState) (pid : String) (E : List String)
    (hh : StepHyp pid E s) :
    StepHyp (rowIdStr s.counter) (rowIdStr s.counter :: E)
      (pushChild { counter := s.counter + 1,
                   root := setEntry s.root (rowIdStr s.counter) (getRowContainer s.counter) } pid
        (rowIdStr s.counter)) := by
  obtain ⟨P1, P2, P3, P4, P5, P6, P7, P8, Pfresh, Pnp, Pnr⟩ :=
    pushContainer_out s pid (getRowContainer s.counter) E hh (Or.inl rfl) rfl
      (by intro hc; simp [getRowContainer] at hc)
  have P1' : StateInv (pushChild { counter := s.counter + 1,
                                   root := setEntry s.root (rowIdStr s.counter) (getRowContainer s.counter) } pid
      (rowIdStr s.counter)) := P1
  have P2' : keysOf (pushChild { counter := s.counter + 1,
                                 root := setEntry s.root (rowIdStr s.counter) (getRowContainer s.counter) } pid
      (rowIdStr s.counter)).root = keysOf s.root ++ [rowIdStr s.counter] := P2
  refine ⟨P1', ?_, List.mem_cons_self _ _, ?_⟩
  · rw [P2']
    exact List.mem_append.mpr (Or.inr (List.mem_singleton.mpr rfl))
  · intro e he
    rw [P2']
    rcases List.mem_cons.mp he with h | h
    · exact List.mem_append.mpr (Or.inr (List.mem_singleton.mpr h))
    · exact List.mem_append.mpr (Or.inl (hh.2.2.2 e h))

theorem pushContainer_stepHyp_col (s : ConvState) (pid : String) (E : List String)
    (hh : StepHyp pid E s) :
    StepHyp (colIdStr s.counter) (colIdStr s.counter :: E)
      (pushChild { counter := s.counter + 1,
                   root := setEntry s.root (colIdStr s.counter) (getColContainer s.counter) } pid
        (colIdStr s.counter)) := by
  obtain ⟨P1, P2, P3, P4, P5, P6, P7, P8, Pfresh, Pnp, Pnr⟩ :=
    pushContainer_out s pid (getColContainer s.counter) E hh (Or.inr rfl) rfl
      (by intro hc; simp [getColContainer] at hc)
  have P1' : StateInv (pushChild { counter := s.counter + 1,
                                   root := setEntry s.root (colIdStr s.counter) (getColContainer s.counter) } pid
      (colIdStr s.counter)) := P1
  have P2' : keysOf (pushChild { counter := s.counter + 1,
                                 root := setEntry s.root (colIdStr s.counter) (getColContainer s.counter) } pid
      (colIdStr s.counter)).root = keysOf s.root ++ [colIdStr s.counter] := P2
  refine ⟨P1', ?_, List.mem_cons_self _ _, ?_⟩
  · rw [P2']
    exact List.mem_append.mpr (Or.inr (List.mem_singleton.mpr rfl))
  · intro e he
    rw [P2']
    rcases List.mem_cons.mp he with h | h
    · exact List.mem_append.mpr (Or.inr (List.mem_singleton.mpr h))
    · exact List.mem_append.mpr (Or.inl (hh.2.2.2 e h))

/-- `processLayer` satisfies the conversion contract, given the contract for
the column scan it may fall into. -/
theorem processLayer_out_gen (layer : List Item) (level : Nat) (pid : String)
    (left right : Nat) (s : ConvState) (E : List String)
    (hh : StepHyp pid E s)
    (hsc : ∀ (hlv : level < 2),
      ConvOut layer (rowIdStr s.counter) (rowIdStr s.counter :: E)
        (pushChild { counter := s.counter + 1,
                     root := setEntry s.root (rowIdStr s.counter) (getRowContainer s.counter) } pid
          (rowIdStr s.counter))
        (scanColsLoop (right - left) (left + 1) layer level (rowIdStr s.counter)
          (pushChild { counter := s.counter + 1,
                       root := setEntry s.root (rowIdStr s.counter) (getRowContainer s.counter) } pid
            (rowIdStr s.counter)) hlv)) :
    ConvOut layer pid E s (processLayer layer level pid left right s) := by
  rw [processLayer.eq_def]
  dsimp only
  split
  · next h =>
    refine rowStage_out s
      (pushChild { counter := s.counter + 1,
                   root := setEntry s.root (rowIdStr s.counter) (getRowContainer s.counter) } pid
        (rowIdStr s.counter)) _ pid E layer hh rfl rfl ?_
    refine ConvOut_perm_items (sortJS_perm sortByColId layer) ?_
    exact foldCharts_out (sortJS sortByColId layer) (rowIdStr s.counter) (rowIdStr s.counter :: E)
      _ (pushContainer_stepHyp_row s pid E hh)
  · next h =>
    have hlv : level < 2 := by
      rcases Nat.lt_or_ge level 2 with h2 | h2
      · exact h2
      · exact absurd (Or.inl h2) h
    exact rowStage_out s
      (pushChild { counter := s.counter + 1,
                   root := setEntry s.root (rowIdStr s.counter) (getRowContainer s.counter) } pid
        (rowIdStr s.counter)) _ pid E layer hh rfl rfl (hsc hlv)

/-- The `layers.forEach` loop satisfies the contract if each layer does. -/
theorem processLayers_out_gen (layers : List (List Item)) (level : Nat) (pid : String)
    (left right : Nat) (E : List String)
    (hpl : ∀ layer ∈ layers, ∀ s, StepHyp pid E s →
      ConvOut layer pid E s (processLayer layer level pid left right s)) :
    ∀ s, StepHyp pid E s →
      ConvOut layers.flatten pid E s (processLayers layers level pid left right s) := by
  induction layers with
  | nil =>
    intro s hh
    rw [processLayers.eq_def]
    dsimp only
    exact ConvOut_refl _ _ _ hh.1
  | cons layer rest ih =>
    intro s hh
    rw [processLayers.eq_def]
    dsimp only
    have h1 := hpl layer (List.mem_cons_self _ _) s hh
    have h2 := ih (fun l hl s' hh' => hpl l (List.mem_cons_of_mem _ hl) s' hh')
      (processLayer layer level pid left right s) (StepHyp_preserved h1 hh)
    exact ConvOut_trans h1 h2

/-- Above the nesting cap every layer is flattened, so `processLayer` meets
the contract unconditionally. -/
theorem processLayer_out_high (layer : List Item) (level : Nat) (pid : String)
    (left right : Nat) (s : ConvState) (E : List String)
    (hh : StepHyp pid E s) (hlev : 2 ≤ level) :
    ConvOut layer pid E s (processLayer layer level pid left right s) :=
  processLayer_out_gen layer level pid left right s E hh
    (fun hlv => absurd hlev (Nat.not_le.mpr hlv))

/-- `doConvert` at level 2 or higher meets the contract. -/
theorem doConvert_out_high (layout : List Item) (level : Nat) (pid : String) (s : ConvState)
    (E : List String) (hh : StepHyp pid E s) (hlev : 2 ≤ level)
    (hpos : ∀ i ∈ layout, 0 < i.size_y) :
    ConvOut layout pid E s (doConvert layout level pid s) := by
  rw [doConvert.eq_def]
  match layout with
  | [] =>
    dsimp only
    exact ConvOut_refl _ _ _ hh.1
  | [item] =>
    dsimp only
    exact addChartTo_out s pid item E hh
  | a :: b :: rest =>
    dsimp only
    refine ConvOut_perm_items ?_ (processLayers_out_gen _ level pid _ _ E ?_ s hh)
    · show (findRowLayers (getBoundary (a :: b :: rest)).top (getBoundary (a :: b :: rest)).bottom
        (a :: b :: rest)).flatten.Perm (a :: b :: rest)
      unfold findRowLayers
      refine scanRowsAux_flatten_perm ?_ ?_ (fun i hi => hpos i hi)
      · right
        have h1 : (getBoundary (a :: b :: rest)).top ≤ a.row :=
          foldl_boundStep_top_le _ _ a (List.mem_cons_self _ _)
        have h2 : a.row + a.size_y ≤ (getBoundary (a :: b :: rest)).bottom :=
          foldl_boundStep_bottom_ge _ _ a (List.mem_cons_self _ _)
        have h3 := hpos a (List.mem_cons_self _ _)
        omega
      · intro i hi
        have h1 : (getBoundary (a :: b :: rest)).top ≤ i.row :=
          foldl_boundStep_top_le _ _ i hi
        have h2 : i.row + i.size_y ≤ (getBoundary (a :: b :: rest)).bottom :=
          foldl_boundStep_bottom_ge _ _ i hi
        have h3 := hpos i hi
        omega
    · intro layer hlayer s' hh'
      exact processLayer_out_high layer level pid _ _ s' E hh' hlev

/-- The column-divider loop meets the contract below the nesting cap. -/
theorem scanColsLoop_out (level : Nat) (hlv : level < 2) (rid : String) (E : List String) :
    ∀ (fuel cc : Nat) (items : List Item) (s : ConvState),
      StepHyp rid E s →
      (∀ i ∈ items, i.col + i.size_x < cc + fuel) →
      (∀ i ∈ items, 0 < i.size_x) →
      (∀ i ∈ items, 0 < i.size_y) →
      (items = [] ∨ 0 < fuel) →
      ConvOut items rid E s (scanColsLoop fuel cc items level rid s hlv) := by
  intro fuel
  induction fuel with
  | zero =>
    intro cc items s hh hcov hpx hpy hne
    rcases hne with h | h
    · subst h
      rw [scanColsLoop.eq_def]
      dsimp only
      exact ConvOut_refl _ _ _ hh.1
    · omega
  | succ fuel ih =>
    intro cc items s hh hcov hpx hpy hne
    rw [scanColsLoop.eq_def]
    dsimp only
    by_cases hempty : items.isEmpty
    · rw [if_pos hempty]
      rw [List.isEmpty_iff] at hempty
      subst hempty
      exact ConvOut_refl _ _ _ hh.1
    · rw [if_neg hempty]
      rw [List.isEmpty_iff] at hempty
      rcases hcl : classifyCol cc items with _ | ⟨lower, upper⟩
      · dsimp only
        refine ih (cc + 1) items s hh (fun i hi => by have := hcov i hi; omega) hpx hpy ?_
        right
        rcases Nat.eq_zero_or_pos fuel with hf | hf
        · exfalso
          obtain ⟨i, hi, hb1, hb2⟩ := classifyCol_none_straddler hcl
          have := hcov i hi
          omega
        · exact hf
      · dsimp only
        have hlow : ∀ i ∈ lower, i ∈ items := classifyCol_mem_lower hcl
        have hup : ∀ i ∈ upper, i ∈ items := classifyCol_mem_upper hcl
        have hstep2 := pushContainer_stepHyp_col s rid E hh
        have hupargs : (∀ i ∈ upper, i.col + i.size_x < cc + 1 + fuel)
            ∧ (upper = [] ∨ 0 < fuel) := by
          refine ⟨fun i hi => by have := hcov i (hup i hi); omega, ?_⟩
          rcases Nat.eq_zero_or_pos fuel with hf | hf
          · left
            rcases hu : upper with _ | ⟨u, urest⟩
            · rfl
            · exfalso
              have hub := classifyCol_upper_bound hcl u (hu ▸ List.mem_cons_self _ _)
              have h1 := hcov u (hup u (hu ▸ List.mem_cons_self _ _))
              have h2 := hpx u (hup u (hu ▸ List.mem_cons_self _ _))
              omega
          · right; exact hf
        by_cases hov : hasOverlap lower false = false
        · rw [if_pos hov]
          have hF : ConvOut lower (colIdStr s.counter) (colIdStr s.counter :: E)
              (pushChild { counter := s.counter + 1,
                           root := setEntry s.root (colIdStr s.counter) (getColContainer s.counter) } rid
                (colIdStr s.counter))
              ((sortJS sortByRowId lower).foldl
                (fun t item => addChartTo t (colIdStr s.counter) item)
                (pushChild { counter := s.counter + 1,
                             root := setEntry s.root (colIdStr s.counter) (getColContainer s.counter) } rid
                  (colIdStr s.counter))) :=
            ConvOut_perm_items (sortJS_perm sortByRowId lower)
              (foldCharts_out (sortJS sortByRowId lower) (colIdStr s.counter)
                (colIdStr s.counter :: E) _ hstep2)
          have hout_lower := colStage_out s _ _ rid E lower hh rfl rfl hF
          have hrec := ih (cc + 1) upper _ (StepHyp_preserved hout_lower hh)
            hupargs.1 (fun i hi => hpx i (hup i hi)) (fun i hi => hpy i (hup i hi)) hupargs.2
          exact ConvOut_perm_items (classifyCol_perm cc items lower upper hcl)
            (ConvOut_trans hout_lower hrec)
        · rw [if_neg hov]
          have hF : ConvOut lower (colIdStr s.counter) (colIdStr s.counter :: E)
              (pushChild { counter := s.counter + 1,
                           root := setEntry s.root (colIdStr s.counter) (getColContainer s.counter) } rid
                (colIdStr s.counter))
              (doConvert lower (level + 2) (colIdStr s.counter)
                (pushChild { counter := s.counter + 1,
                             root := setEntry s.root (colIdStr s.counter) (getColContainer s.counter) } rid
                  (colIdStr s.counter))) :=
            doConvert_out_high lower (level + 2) (colIdStr s.counter) _ _ hstep2
              (by omega) (fun i hi => hpy i (hlow i hi))
          have hout_lower := colStage_out s _ _ rid E lower hh rfl rfl hF
          have hrec := ih (cc + 1) upper _ (StepHyp_preserved hout_lower hh)
            hupargs.1 (fun i hi => hpx i (hup i hi)) (fun i hi => hpy i (hup i hi)) hupargs.2
          exact ConvOut_perm_items (classifyCol_perm cc items lower upper hcl)
            (ConvOut_trans hout_lower hrec)

/-- `processLayer` meets the contract at any level, under the layer bounds
the enclosing conversion establishes. -/
theorem processLayer_out (layer : List Item) (level : Nat) (pid : String)
    (left right : Nat) (s : ConvState) (E : List String)
    (hh : StepHyp pid E s)
    (hcx : ∀ i ∈ layer, i.col + i.size_x ≤ right)
    (hlx : ∀ i ∈ layer, left ≤ i.col)
    (hpx : ∀ i ∈ layer, 0 < i.size_x)
    (hpy : ∀ i ∈ layer, 0 < i.size_y) :
    ConvOut layer pid E s (processLayer layer level pid left right s) := by
  refine processLayer_out_gen layer level pid left right s E hh ?_
  intro hlv
  refine scanColsLoop_out level hlv (rowIdStr s.counter) (rowIdStr s.counter :: E)
    (right - left) (left + 1) layer _ (pushContainer_stepHyp_row s pid E hh) ?_ hpx hpy ?_
  · intro i hi
    have h1 := hcx i hi
    have h2 := hlx i hi
    have h3 := hpx i hi
    omega
  · rcases layer with _ | ⟨a, rest⟩
    · exact Or.inl rfl
    · right
      have h1 := hcx a (List.mem_cons_self _ _)
      have h2 := hlx a (List.mem_cons_self _ _)
      have h3 := hpx a (List.mem_cons_self _ _)
      omega

/-- `doConvert` meets the contract at any level on positively sized items. -/
theorem doConvert_out (layout : List Item) (level : Nat) (pid : String) (s : ConvState)
    (E : List String) (hh : StepHyp pid E s)
    (hpx : ∀ i ∈ layout, 0 < i.size_x) (hpy : ∀ i ∈ layout, 0 < i.size_y) :
    ConvOut layout pid E s (doConvert layout level pid s) := by
  rw [doConvert.eq_def]
  match layout with
  | [] =>
    dsimp only
    exact ConvOut_refl _ _ _ hh.1
  | [item] =>
    dsimp only
    exact addChartTo_out s pid item E hh
  | a :: b :: rest =>
    dsimp only
    refine ConvOut_perm_items ?_ (processLayers_out_gen _ level pid _ _ E ?_ s hh)
    · show (findRowLayers (getBoundary (a :: b :: rest)).top (getBoundary (a :: b :: rest)).bottom
        (a :: b :: rest)).flatten.Perm (a :: b :: rest)
      unfold findRowLayers
      refine scanRowsAux_flatten_perm ?_ ?_ (fun i hi => hpy i hi)
      · right
        have h1 : (getBoundary (a :: b :: rest)).top ≤ a.row :=
          foldl_boundStep_top_le _ _ a (List.mem_cons_self _ _)
        have h2 : a.row + a.size_y ≤ (getBoundary (a :: b :: rest)).bottom :=
          foldl_boundStep_bottom_ge _ _ a (List.mem_cons_self _ _)
        have h3 := hpy a (List.mem_cons_self _ _)
        omega
      · intro i hi
        have h1 : (getBoundary (a :: b :: rest)).top ≤ i.row :=
          foldl_boundStep_top_le _ _ i hi
        have h2 : i.row + i.size_y ≤ (getBoundary (a :: b :: rest)).bottom :=
          foldl_boundStep_bottom_ge _ _ i hi
        have h3 := hpy i hi
        omega
    · intro layer hlayer s' hh'
      have hmem : ∀ i ∈ layer, i ∈ a :: b :: rest :=
        scanRowsAux_mem _ _ _ layer hlayer
      refine processLayer_out layer level pid _ _ s' E hh' ?_ ?_
        (fun i hi => hpx i (hmem i hi)) (fun i hi => hpy i (hmem i hi))
      · intro i hi
        exact foldl_boundStep_right_ge _ _ i (hmem i hi)
      · intro i hi
        exact foldl_boundStep_left_le _ _ i (hmem i hi)

/-- The initial registry of `convert` is settled outside the Root. -/
theorem initial_settled : SettledExcept [(rootId, rootNode)] [rootId] := by
  intro k n hl hk
  rw [lookupNode_cons] at hl
  split at hl
  · next h =>
    exact absurd (List.mem_singleton.mpr h.symm) hk
  · exact absurd hl (by rw [show (lookupNode [] k) = none from rfl]; simp)

/-- The starting state of `convert` satisfies the step hypotheses. -/
theorem initial_stepHyp (c : Nat) :
    StepHyp rootId [rootId] { counter := c, root := [(rootId, rootNode)] } := by
  refine ⟨⟨?_, ?_, ?_, ?_⟩, ?_, ?_, ?_⟩
  · intro k hk
    simp only [keysOf, List.map_cons, List.map_nil, List.mem_singleton] at hk
    exact Or.inl hk
  · simp [keysOf]
  · intro k hk
    simp [childRefs, rootNode] at hk
  · simp [childRefs, rootNode]
  · simp [keysOf]
  · simp
  · intro e he
    simp only [List.mem_singleton] at he
    simp [keysOf, he]

/-- Everything `convert` guarantees, over the whole conversion. -/
theorem convert_out (layout : List Item) (c : Nat)
    (hpx : ∀ i ∈ layout, 0 < i.size_x) (hpy : ∀ i ∈ layout, 0 < i.size_y) :
    ConvOut layout rootId [rootId] { counter := c, root := [(rootId, rootNode)] }
      (doConvert layout 0 rootId { counter := c, root := [(rootId, rootNode)] }) :=
  doConvert_out layout 0 rootId _ [rootId] (initial_stepHyp c) hpx hpy

/-- Contract form without coverage hypotheses: the state step is a valid
conversion of some item list. -/
theorem doConvert_any_high (layout : List Item) (level : Nat) (pid : String) (s : ConvState)
    (E : List String) (hh : StepHyp pid E s) (hlev : 2 ≤ level) :
    ∃ its, ConvOut its pid E s (doConvert layout level pid s) := by
  rw [doConvert.eq_def]
  match layout with
  | [] =>
    dsimp only
    exact ⟨[], ConvOut_refl _ _ _ hh.1⟩
  | [item] =>
    dsimp only
    exact ⟨[item], addChartTo_out s pid item E hh⟩
  | a :: b :: rest =>
    dsimp only
    exact ⟨_, processLayers_out_gen _ level pid _ _ E
      (fun layer hl s' hh' => processLayer_out_high layer level pid _ _ s' E hh' hlev) s hh⟩

theorem scanColsLoop_any (level : Nat) (hlv : level < 2) (rid : String) (E : List String) :
    ∀ (fuel cc : Nat) (items : List Item) (s : ConvState), StepHyp rid E s →
      ∃ its, ConvOut its rid E s (scanColsLoop fuel cc items level rid s hlv) := by
  intro fuel
  induction fuel with
  | zero =>
    intro cc items s hh
    rw [scanColsLoop.eq_def]
    dsimp only
    exact ⟨[], ConvOut_refl _ _ _ hh.1⟩
  | succ fuel ih =>
    intro cc items s hh
    rw [scanColsLoop.eq_def]
    dsimp only
    by_cases hempty : items.isEmpty
    · rw [if_pos hempty]
      exact ⟨[], ConvOut_refl _ _ _ hh.1⟩
    · rw [if_neg hempty]
      rcases hcl : classifyCol cc items with _ | ⟨lower, upper⟩
      · dsimp only
        exact ih (cc + 1) items s hh
      · dsimp only
        have hstep2 := pushContainer_stepHyp_col s rid E hh
        by_cases hov : hasOverlap lower false = false
        · rw [if_pos hov]
          have hF : ConvOut (sortJS sortByRowId lower) (colIdStr s.counter) (colIdStr s.counter :: E)
              (pushChild { counter := s.counter + 1,
                           root := setEntry s.root (colIdStr s.counter) (getColContainer s.counter) } rid
                (colIdStr s.counter))
              ((sortJS sortByRowId lower).foldl
                (fun t item => addChartTo t (colIdStr s.counter) item)
                (pushChild { counter := s.counter + 1,
                             root := setEntry s.root (colIdStr s.counter) (getColContainer s.counter) } rid
                  (colIdStr s.counter))) :=
            foldCharts_out (sortJS sortByRowId lower) (colIdStr s.counter)
              (colIdStr s.counter :: E) _ hstep2
          have hout_lower := colStage_out s _ _ rid E _ hh rfl rfl hF
          obtain ⟨its2, hrec⟩ := ih (cc + 1) upper _ (StepHyp_preserved hout_lower hh)
          exact ⟨_, ConvOut_trans hout_lower hrec⟩
        · rw [if_neg hov]
          obtain ⟨its1, hF⟩ := doConvert_any_high lower (level + 2) (colIdStr s.counter) _
            (colIdStr s.counter :: E) hstep2 (by omega)
          have hout_lower := colStage_out s _ _ rid E its1 hh rfl rfl hF
          obtain ⟨its2, hrec⟩ := ih (cc + 1) upper _ (StepHyp_preserved hout_lower hh)
          exact ⟨its1 ++ its2, ConvOut_trans hout_lower hrec⟩

theorem processLayer_any (layer : List Item) (level : Nat) (pid : String)
    (left right : Nat) (s : ConvState) (E : List String) (hh : StepHyp pid E s) :
    ∃ its, ConvOut its pid E s (processLayer layer level pid left right s) := by
  rw [processLayer.eq_def]
  dsimp only
  split
  · next h =>
    refine ⟨sortJS sortByColId layer, ?_⟩
    refine rowStage_out s
      (pushChild { counter := s.counter + 1,
                   root := setEntry s.root (rowIdStr s.counter) (getRowContainer s.counter) } pid
        (rowIdStr s.counter)) _ pid E _ hh rfl rfl ?_
    exact foldCharts_out (sortJS sortByColId layer) (rowIdStr s.counter) (rowIdStr s.counter :: E)
      _ (pushContainer_stepHyp_row s pid E hh)
  · next h =>
    have hlv : level < 2 := by
      rcases Nat.lt_or_ge level 2 with h2 | h2
      · exact h2
      · exact absurd (Or.inl h2) h
    obtain ⟨its, hsc⟩ := scanColsLoop_any level hlv (rowIdStr s.counter) (rowIdStr s.counter :: E)
      (right - left) (left + 1) layer _ (pushContainer_stepHyp_row s pid E hh)
    refine ⟨its, ?_⟩
    exact rowStage_out s
      (pushChild { counter := s.counter + 1,
                   root := setEntry s.root (rowIdStr s.counter) (getRowContainer s.counter) } pid
        (rowIdStr s.counter)) _ pid E its hh rfl rfl hsc

theorem processLayers_any_gen (layers : List (List Item)) (level : Nat) (pid : String)
    (left right : Nat) (E : List String)
    (hpl : ∀ layer ∈ layers, ∀ s, StepHyp pid E s →
      ∃ its, ConvOut its pid E s (processLayer layer level pid left right s)) :
    ∀ s, StepHyp pid E s →
      ∃ its, ConvOut its pid E s (processLayers layers level pid left right s) := by
  induction layers with
  | nil =>
    intro s hh
    rw [processLayers.eq_def]
    dsimp only
    exact ⟨[], ConvOut_refl _ _ _ hh.1⟩
  | cons layer rest ih =>
    intro s hh
    rw [processLayers.eq_def]
    dsimp only
    obtain ⟨its1, h1⟩ := hpl layer (List.mem_cons_self _ _) s hh
    obtain ⟨its2, h2⟩ := ih (fun l hl s' hh' => hpl l (List.mem_cons_of_mem _ hl) s' hh')
      (processLayer layer level pid left right s) (StepHyp_preserved h1 hh)
    exact ⟨its1 ++ its2, ConvOut_trans h1 h2⟩

theorem doConvert_any (layout : List Item) (level : Nat) (pid : String) (s : ConvState)
    (E : List String) (hh : StepHyp pid E s) :
    ∃ its, ConvOut its pid E s (doConvert layout level pid s) := by
  rw [doConvert.eq_def]
  match layout with
  | [] =>
    dsimp only
    exact ⟨[], ConvOut_refl _ _ _ hh.1⟩
  | [item] =>
    dsimp only
    exact ⟨[item], addChartTo_out s pid item E hh⟩
  | a :: b :: rest =>
    dsimp only
    exact processLayers_any_gen _ level pid _ _ E
      (fun layer hl s' hh' => processLayer_any layer level pid _ _ s' E hh') s hh

/-- Claim C1: coverage — for valid items (positive sizes), the multiset of
chart-holder slice references in the converted registry is exactly the input
items' content ids (under the fixed `slice_` prefix), each exactly once. -/
theorem C1_coverage (layout : List Item) (c : Nat)
    (hv : ∀ i ∈ layout, 0 < i.size_x ∧ 0 < i.size_y) :
    (chartSlices (convert layout c)).Perm (layout.map sliceRef) := by
  obtain ⟨_, _, L, X, cs, hk, hr, hcr, hsl, hx, _, _, _, _⟩ :=
    convert_out layout c (fun i hi => (hv i hi).1) (fun i hi => (hv i hi).2)
  unfold convert
  rw [hsl]
  have h0 : chartSlices ({ counter := c, root := [(rootId, rootNode)] } : ConvState).root = [] := rfl
  rw [h0, List.nil_append]
  exact hx

theorem C1_coverage_witness :
    (∀ i ∈ ([⟨0, 0, 4, 4, "a"⟩, ⟨0, 8, 4, 4, "b"⟩] : List Item), 0 < i.size_x ∧ 0 < i.size_y)
    ∧ (chartSlices (convert [⟨0, 0, 4, 4, "a"⟩, ⟨0, 8, 4, 4, "b"⟩] 1)).Perm
        (([⟨0, 0, 4, 4, "a"⟩, ⟨0, 8, 4, 4, "b"⟩] : List Item).map sliceRef) :=
  ⟨by decide, C1_coverage _ 1 (by decide)⟩

/-- Claim C2: tree well-formedness — in any converted registry every child
reference resolves to a key, every non-root key is referenced exactly once
over all child lists, and the Root is never referenced. -/
theorem C2_tree (layout : List Item) (c : Nat) :
    (∀ k ∈ childRefs (convert layout c), k ∈ keysOf (convert layout c))
    ∧ (∀ k ∈ keysOf (convert layout c), k ≠ rootId → (childRefs (convert layout c)).count k = 1)
    ∧ (childRefs (convert layout c)).count rootId = 0 := by
  obtain ⟨its, h⟩ := doConvert_any layout 0 rootId _ [rootId] (initial_stepHyp c)
  obtain ⟨_, hinv, L, X, cs, hk, hr, hcr, hsl, hx, _, _, _, _⟩ := h
  have hk' : keysOf (convert layout c) = rootId :: L := by
    unfold convert
    rw [hk]
    rfl
  have hcr' : (childRefs (convert layout c)).Perm L := by
    unfold convert
    refine hcr.trans ?_
    have h0 : childRefs ({ counter := c, root := [(rootId, rootNode)] } : ConvState).root = [] := rfl
    rw [h0, List.nil_append]
  have hLnd : L.Nodup := by
    have := hinv.2.1
    rw [show keysOf (doConvert layout 0 rootId
      { counter := c, root := [(rootId, rootNode)] }).root
        = keysOf (convert layout c) from rfl, hk', List.nodup_cons] at this
    exact this.2
  refine ⟨?_, ?_, ?_⟩
  · intro k hkc
    exact hinv.2.2.1 k hkc
  · intro k hkm hkr
    have hkL : k ∈ L := by
      rw [hk'] at hkm
      rcases List.mem_cons.mp hkm with h1 | h1
      · exact absurd h1 hkr
      · exact h1
    rw [hcr'.count_eq]
    exact List.count_eq_one_of_mem hLnd hkL
  · rw [hcr'.count_eq]
    rw [List.count_eq_zero]
    intro hc
    exact hr rootId hc rfl

theorem C2_tree_witness :
    rowIdStr 1 ∈ keysOf (convert [⟨0, 0, 4, 4, "c"⟩, ⟨0, 8, 4, 4, "d"⟩] 1)
    ∧ (childRefs (convert [⟨0, 0, 4, 4, "c"⟩, ⟨0, 8, 4, 4, "d"⟩] 1)).count (rowIdStr 1) = 1 := by
  have hmem : rowIdStr 1 ∈ keysOf (convert [⟨0, 0, 4, 4, "c"⟩, ⟨0, 8, 4, 4, "d"⟩] 1) := by
    rw [convert_eval _ 1 60 4 12 (by decide) (by decide) (by decide)]
    decide
  exact ⟨hmem, (C2_tree _ 1).2.1 _ hmem (by decide)⟩

/-- Claim C6: width aggregation — in any converted registry every Row node
carries width equal to the sum of its children's widths and every Column node
width equal to the maximum of its children's widths. -/
theorem C6_width (layout : List Item) (c : Nat) :
    ∀ k n, lookupNode (convert layout c) k = some n →
      (n.type = "DASHBOARD_ROW_TYPE" →
        n.meta.bind Meta.width = some (rowWidthVal (convert layout c) n.children))
      ∧ (n.type = "DASHBOARD_COLUMN_TYPE" →
        n.meta.bind Meta.width = some (colWidthVal (convert layout c) n.children)) := by
  obtain ⟨its, h⟩ := doConvert_any layout 0 rootId _ [rootId] (initial_stepHyp c)
  obtain ⟨_, hinv, L, X, cs, hk, hr, hcr, hsl, hx, hf, hcl, hpd, hst⟩ := h
  have hset : SettledExcept (convert layout c) [rootId] := by
    refine hst ?_
    exact initial_settled
  intro k n hl
  by_cases hkr : k = rootId
  · subst hkr
    have hpd' : lookupNode (convert layout c) rootId
        = some { rootNode with children := rootNode.children ++ cs } := by
      unfold convert
      rw [hpd]
      rfl
    rw [hpd'] at hl
    obtain rfl : ({ rootNode with children := rootNode.children ++ cs } : Node) = n := by
      simpa using hl
    constructor
    · intro habs
      exact absurd habs (by simp [rootNode])
    · intro habs
      exact absurd habs (by simp [rootNode])
  · exact hset k n hl (fun hc => hkr (List.mem_singleton.mp hc))

theorem C6_width_witness :
    lookupNode (convert [] 1) rootId = some rootNode
    ∧ ((rootNode.type = "DASHBOARD_ROW_TYPE" →
        rootNode.meta.bind Meta.width = some (rowWidthVal (convert [] 1) rootNode.children))
      ∧ (rootNode.type = "DASHBOARD_COLUMN_TYPE" →
        rootNode.meta.bind Meta.width = some (colWidthVal (convert [] 1) rootNode.children))) := by
  have hl : lookupNode (convert [] 1) rootId = some rootNode := by
    rw [convert_eval [] 1 20 1 1 (by decide) (by decide) (by decide)]
    decide
  exact ⟨hl, C6_width [] 1 rootId rootNode hl⟩


/-- Strip a fixed prefix from a character list. -/
def dropPreL : List Char → List Char → Option (List Char)
  | [], s => some s
  | _ :: _, [] => none
  | p :: ps, c :: cs => if p = c then dropPreL ps cs else none

/-- Rename a generated id by shifting its counter number up by `d`; other
strings (in particular the fixed root id) are left alone. -/
def shiftId (d : Nat) (k : String) : String :=
  match dropPreL "DASHBOARD_ROW_TYPE-".data k.data with
  | some ds => String.mk ("DASHBOARD_ROW_TYPE-".data ++ sdigits (val10 ds + d))
  | none =>
    match dropPreL "DASHBOARD_COLUMN_TYPE-".data k.data with
    | some ds => String.mk ("DASHBOARD_COLUMN_TYPE-".data ++ sdigits (val10 ds + d))
    | none =>
      match dropPreL "DASHBOARD_CHART_TYPE-".data k.data with
      | some ds => String.mk ("DASHBOARD_CHART_TYPE-".data ++ sdigits (val10 ds + d))
      | none => k

theorem dropPreL_pre : ∀ (p x : List Char), dropPreL p (p ++ x) = some x := by
  intro p
  induction p with
  | nil => intro x; rfl
  | cons a ps ih => intro x; simp [dropPreL, ih]

theorem toString_nat_data (n : Nat) : (toString n).data = sdigits n := by
  show (Nat.repr n).data = sdigits n
  rw [repr_eq_sdigits]
  rfl

theorem rowIdStr_data (n : Nat) :
    (rowIdStr n).data = "DASHBOARD_ROW_TYPE-".data ++ sdigits n := by
  unfold rowIdStr
  rw [String.data_append, toString_nat_data]

theorem colIdStr_data (n : Nat) :
    (colIdStr n).data = "DASHBOARD_COLUMN_TYPE-".data ++ sdigits n := by
  unfold colIdStr
  rw [String.data_append, toString_nat_data]

theorem chartIdStr_data (n : Nat) :
    (chartIdStr n).data = "DASHBOARD_CHART_TYPE-".data ++ sdigits n := by
  unfold chartIdStr
  rw [String.data_append, toString_nat_data]

theorem shiftId_row (d n : Nat) : shiftId d (rowIdStr n) = rowIdStr (n + d) := by
  unfold shiftId
  rw [rowIdStr_data, dropPreL_pre]
  dsimp only
  rw [val10_sdigits]
  show String.mk ("DASHBOARD_ROW_TYPE-".data ++ sdigits (n + d)) = rowIdStr (n + d)
  rw [← rowIdStr_data]

theorem shiftId_col (d n : Nat) : shiftId d (colIdStr n) = colIdStr (n + d) := by
  unfold shiftId
  rw [colIdStr_data]
  rw [show dropPreL "DASHBOARD_ROW_TYPE-".data ("DASHBOARD_COLUMN_TYPE-".data ++ sdigits n)
    = none from rfl]
  rw [dropPreL_pre]
  dsimp only
  rw [val10_sdigits]
  show String.mk ("DASHBOARD_COLUMN_TYPE-".data ++ sdigits (n + d)) = colIdStr (n + d)
  rw [← colIdStr_data]

theorem shiftId_chart (d n : Nat) : shiftId d (chartIdStr n) = chartIdStr (n + d) := by
  unfold shiftId
  rw [chartIdStr_data]
  rw [show dropPreL "DASHBOARD_ROW_TYPE-".data ("DASHBOARD_CHART_TYPE-".data ++ sdigits n)
    = none from rfl]
  rw [show dropPreL "DASHBOARD_COLUMN_TYPE-".data ("DASHBOARD_CHART_TYPE-".data ++ sdigits n)
    = none from rfl]
  rw [dropPreL_pre]
  dsimp only
  rw [val10_sdigits]
  show String.mk ("DASHBOARD_CHART_TYPE-".data ++ sdigits (n + d)) = chartIdStr (n + d)
  rw [← chartIdStr_data]

theorem shiftId_root (d : Nat) : shiftId d rootId = rootId := rfl

/-- Shifting preserves well-formed keys, at the shifted counter. -/
theorem goodKey_shift {c : Nat} (d : Nat) {k : String} (h : goodKey c k) :
    goodKey (c + d) (shiftId d k) := by
  rcases h with rfl | ⟨n, hn, rfl | rfl | rfl⟩
  · exact Or.inl (shiftId_root d)
  · rw [shiftId_row]
    exact Or.inr ⟨n + d, by omega, Or.inl rfl⟩
  · rw [shiftId_col]
    exact Or.inr ⟨n + d, by omega, Or.inr (Or.inl rfl)⟩
  · rw [shiftId_chart]
    exact Or.inr ⟨n + d, by omega, Or.inr (Or.inr rfl)⟩

/-- `shiftId` is injective on well-formed keys. -/
theorem shiftId_inj_good {c c' d : Nat} {k k' : String}
    (h : goodKey c k) (h' : goodKey c' k') (he : shiftId d k = shiftId d k') : k = k' := by
  rcases h with rfl | ⟨n, hn, rfl | rfl | rfl⟩ <;>
    rcases h' with rfl | ⟨n', hn', rfl | rfl | rfl⟩ <;>
    simp only [shiftId_root, shiftId_row, shiftId_col, shiftId_chart] at he <;>
    first
    | rfl
    | exact absurd he (rootId_ne_rowIdStr _)
    | exact absurd he (rootId_ne_colIdStr _)
    | exact absurd he (rootId_ne_chartIdStr _)
    | exact absurd he.symm (rootId_ne_rowIdStr _)
    | exact absurd he.symm (rootId_ne_colIdStr _)
    | exact absurd he.symm (rootId_ne_chartIdStr _)
    | exact absurd he (rowIdStr_ne_colIdStr _ _)
    | exact absurd he (rowIdStr_ne_chartIdStr _ _)
    | exact absurd he (colIdStr_ne_chartIdStr _ _)
    | exact absurd he.symm (rowIdStr_ne_colIdStr _ _)
    | exact absurd he.symm (rowIdStr_ne_chartIdStr _ _)
    | exact absurd he.symm (colIdStr_ne_chartIdStr _ _)
    | exact congrArg rowIdStr (by have h2 := rowIdStr_inj he; omega)
    | exact congrArg colIdStr (by have h2 := colIdStr_inj he; omega)
    | exact congrArg chartIdStr (by have h2 := chartIdStr_inj he; omega)

/-- Shift of a node: rename its id and its child references. -/
def shiftNode (d : Nat) (n : Node) : Node :=
  { n with id := shiftId d n.id, children := n.children.map (shiftId d) }

/-- Shift of a registry. -/
def shiftReg (d : Nat) (reg : Registry) : Registry :=
  reg.map (fun p => (shiftId d p.1, shiftNode d p.2))

/-- Shift of a conversion state. -/
def shiftState (d : Nat) (s : ConvState) : ConvState :=
  { counter := s.counter + d, root := shiftReg d s.root }

/-- All keys of a registry are well formed below `c`. -/
def GoodReg (c : Nat) (reg : Registry) : Prop := ∀ k ∈ keysOf reg, goodKey c k

theorem keysOf_shiftReg (d : Nat) (reg : Registry) :
    keysOf (shiftReg d reg) = (keysOf reg).map (shiftId d) := by
  simp [keysOf, shiftReg]

theorem shiftReg_append (d : Nat) (r1 r2 : Registry) :
    shiftReg d (r1 ++ r2) = shiftReg d r1 ++ shiftReg d r2 := by
  simp [shiftReg]

theorem lookupNode_shiftReg {c c' d : Nat} {k : String} :
    ∀ {reg : Registry}, GoodReg c reg → goodKey c' k →
      lookupNode (shiftReg d reg) (shiftId d k) = (lookupNode reg k).map (shiftNode d) := by
  intro reg
  induction reg with
  | nil => intro _ _; rfl
  | cons p rest ih =>
    intro hg hk
    have hgp : goodKey c p.1 := hg p.1 (by rw [keysOf_cons]; exact List.mem_cons_self _ _)
    have hgrest : GoodReg c rest := fun a ha => hg a (by rw [keysOf_cons]; exact List.mem_cons_of_mem _ ha)
    show (if shiftId d p.1 = shiftId d k then some (shiftNode d p.2)
        else lookupNode (shiftReg d rest) (shiftId d k)) = _
    rw [lookupNode_cons]
    by_cases hpk : p.1 = k
    · rw [if_pos (by rw [hpk]), if_pos hpk]
      rfl
    · rw [if_neg (fun hc => hpk (shiftId_inj_good hgp hk hc)), if_neg hpk]
      exact ih hgrest hk

theorem updateEntry_shiftReg {c c' d : Nat} {k : String} (f f' : Node → Node) :
    ∀ {reg : Registry}, GoodReg c reg → goodKey c' k →
      (∀ p ∈ reg, p.1 = k → shiftNode d (f p.2) = f' (shiftNode d p.2)) →
      shiftReg d (updateEntry reg k f) = updateEntry (shiftReg d reg) (shiftId d k) f' := by
  intro reg
  induction reg with
  | nil => intro _ _ _; rfl
  | cons p rest ih =>
    intro hg hk hcomm
    have hgp : goodKey c p.1 := hg p.1 (by rw [keysOf_cons]; exact List.mem_cons_self _ _)
    have hgrest : GoodReg c rest := fun a ha => hg a (by rw [keysOf_cons]; exact List.mem_cons_of_mem _ ha)
    rw [updateEntry_cons]
    show shiftReg d _ = (if shiftId d p.1 = shiftId d k
        then (shiftId d p.1, f' (shiftNode d p.2)) else (shiftId d p.1, shiftNode d p.2))
      :: updateEntry (shiftReg d rest) (shiftId d k) f'
    by_cases hpk : p.1 = k
    · rw [if_pos hpk, if_pos (by rw [hpk])]
      show (shiftId d p.1, shiftNode d (f p.2)) :: shiftReg d (updateEntry rest k f) = _
      rw [hcomm p (List.mem_cons_self _ _) hpk,
        ih hgrest hk (fun q hq hqk => hcomm q (List.mem_cons_of_mem _ hq) hqk)]
    · rw [if_neg hpk, if_neg (fun hc => hpk (shiftId_inj_good hgp hk hc))]
      show (shiftId d p.1, shiftNode d p.2) :: shiftReg d (updateEntry rest k f) = _
      rw [ih hgrest hk (fun q hq hqk => hcomm q (List.mem_cons_of_mem _ hq) hqk)]

theorem childWidth_shiftReg {c c' d : Nat} {k : String} {reg : Registry}
    (hg : GoodReg c reg) (hk : goodKey c' k) :
    childWidth (shiftReg d reg) (shiftId d k) = childWidth reg k := by
  unfold childWidth
  rw [lookupNode_shiftReg hg hk]
  cases lookupNode reg k with
  | none => rfl
  | some n => rfl

theorem rowWidthVal_shiftReg {c d : Nat} {reg : Registry} (hg : GoodReg c reg) :
    ∀ {ch : List String}, (∀ a ∈ ch, ∃ c0, goodKey c0 a) →
      rowWidthVal (shiftReg d reg) (ch.map (shiftId d)) = rowWidthVal reg ch := by
  have haux : ∀ (ch : List String), (∀ a ∈ ch, ∃ c0, goodKey c0 a) → ∀ (acc : JVal),
      (ch.map (shiftId d)).foldl (fun pre c0 => pre.add (childWidth (shiftReg d reg) c0)) acc
        = ch.foldl (fun pre c0 => pre.add (childWidth reg c0)) acc := by
    intro ch
    induction ch with
    | nil => intro _ acc; rfl
    | cons a rest ih =>
      intro hch acc
      obtain ⟨c0, hc0⟩ := hch a (List.mem_cons_self _ _)
      rw [List.map_cons, List.foldl_cons, List.foldl_cons, childWidth_shiftReg hg hc0]
      exact ih (fun b hb => hch b (List.mem_cons_of_mem _ hb)) _
  intro ch hch
  exact haux ch hch _

theorem colWidthVal_shiftReg {c d : Nat} {reg : Registry} (hg : GoodReg c reg) :
    ∀ {ch : List String}, (∀ a ∈ ch, ∃ c0, goodKey c0 a) →
      colWidthVal (shiftReg d reg) (ch.map (shiftId d)) = colWidthVal reg ch := by
  intro ch hch
  unfold colWidthVal
  have hmap : (ch.map (shiftId d)).map (childWidth (shiftReg d reg)) = ch.map (childWidth reg) := by
    rw [List.map_map]
    refine List.map_congr_left ?_
    intro a ha
    obtain ⟨c0, hc0⟩ := hch a ha
    exact childWidth_shiftReg hg hc0
  rw [hmap]

theorem shiftNode_chart (d n : Nat) (item : Item) :
    shiftNode d (getChartHolder n item) = getChartHolder (n + d) item := by
  simp [shiftNode, getChartHolder, shiftId_chart]

theorem shiftNode_rowC (d n : Nat) :
    shiftNode d (getRowContainer n) = getRowContainer (n + d) := by
  simp [shiftNode, getRowContainer, shiftId_row]

theorem shiftNode_colC (d n : Nat) :
    shiftNode d (getColContainer n) = getColContainer (n + d) := by
  simp [shiftNode, getColContainer, shiftId_col]

/-- The child-append update used by `pushChild`. -/
def pushF (cid : String) : Node → Node := fun n => { n with children := n.children ++ [cid] }

/-- The width-writing update used by `setRowWidth`. -/
def rowWidF (reg : Registry) : Node → Node := fun n =>
  { n with meta := n.meta.map (fun m => { m with width := some (rowWidthVal reg n.children) }) }

/-- The width-writing update used by `setColWidth`. -/
def colWidF (reg : Registry) : Node → Node := fun n =>
  { n with meta := n.meta.map (fun m => { m with width := some (colWidthVal reg n.children) }) }

/-- Step hypotheses from a sane state with a registered parent. -/
theorem GoodSt_stepHyp {pid : String} {s : ConvState}
    (hinv : StateInv s) (hpid : pid ∈ keysOf s.root) : StepHyp pid [pid] s :=
  ⟨hinv, hpid, List.mem_singleton.mpr rfl,
    fun e he => (List.mem_singleton.mp he) ▸ hpid⟩

theorem addChartTo_shift (d : Nat) (s : ConvState) (pid : String) (item : Item)
    (hinv : StateInv s) (hpid : pid ∈ keysOf s.root) :
    addChartTo (shiftState d s) (shiftId d pid) item = shiftState d (addChartTo s pid item) := by
  obtain ⟨hgood, hndk, hsub, hcrnd⟩ := hinv
  have hgpid : goodKey s.counter pid := hgood pid hpid
  have hgch : goodKey (s.counter + 1) (chartIdStr s.counter) :=
    Or.inr ⟨s.counter, Nat.lt_succ_self _, Or.inr (Or.inr rfl)⟩
  have hfresh : chartIdStr s.counter ∉ keysOf s.root :=
    fun hc => goodKey_ne_chartIdStr (hgood _ hc) rfl
  have hfresh2 : chartIdStr (s.counter + d) ∉ keysOf (shiftReg d s.root) := by
    rw [keysOf_shiftReg]
    intro hc
    obtain ⟨a, ha, hae⟩ := List.mem_map.mp hc
    have ha2 : a = chartIdStr s.counter :=
      shiftId_inj_good (hgood a ha) hgch (by rw [hae, shiftId_chart])
    exact hfresh (ha2 ▸ ha)
  have hg2 : GoodReg (s.counter + 1) (s.root ++ [(chartIdStr s.counter, getChartHolder s.counter item)]) := by
    intro a ha
    rw [keysOf_append] at ha
    rcases List.mem_append.mp ha with h1 | h1
    · exact goodKey_mono (Nat.le_succ _) (hgood a h1)
    · rw [show keysOf [(chartIdStr s.counter, getChartHolder s.counter item)]
        = [chartIdStr s.counter] from rfl] at h1
      exact (List.mem_singleton.mp h1) ▸ hgch
  have hcomm : ∀ p ∈ s.root ++ [(chartIdStr s.counter, getChartHolder s.counter item)],
      p.1 = pid →
      shiftNode d (pushF (chartIdStr s.counter) p.2)
        = pushF (chartIdStr (s.counter + d)) (shiftNode d p.2) := by
    intro p hp hpk
    simp [shiftNode, pushF, shiftId_chart]
  have hone : shiftReg d [(chartIdStr s.counter, getChartHolder s.counter item)]
      = [(chartIdStr (s.counter + d), getChartHolder (s.counter + d) item)] := by
    simp [shiftReg, shiftId_chart, shiftNode_chart]
  show ({ counter := s.counter + d + 1, root := updateEntry (setEntry (shiftReg d s.root) (chartIdStr (s.counter + d)) (getChartHolder (s.counter + d) item)) (shiftId d pid) (pushF (chartIdStr (s.counter + d))) } : ConvState)
    = shiftState d ({ counter := s.counter + 1, root := updateEntry (setEntry s.root (chartIdStr s.counter) (getChartHolder s.counter item)) pid (pushF (chartIdStr s.counter)) } : ConvState)
  unfold shiftState
  congr 1
  · dsimp only
    omega
  · rw [setEntry_fresh _ _ _ hfresh, setEntry_fresh _ _ _ hfresh2]
    rw [updateEntry_shiftReg (pushF (chartIdStr s.counter)) (pushF (chartIdStr (s.counter + d)))
      hg2 hgpid hcomm]
    rw [shiftReg_append, hone]

theorem pushRow_shift (d : Nat) (s : ConvState) (pid : String)
    (hinv : StateInv s) (hpid : pid ∈ keysOf s.root) :
    pushChild { counter := s.counter + d + 1, root := setEntry (shiftReg d s.root) (rowIdStr (s.counter + d)) (getRowContainer (s.counter + d)) } (shiftId d pid) (rowIdStr (s.counter + d))
      = shiftState d (pushChild { counter := s.counter + 1, root := setEntry s.root (rowIdStr s.counter) (getRowContainer s.counter) } pid (rowIdStr s.counter)) := by
  obtain ⟨hgood, hndk, hsub, hcrnd⟩ := hinv
  have hgpid : goodKey s.counter pid := hgood pid hpid
  have hgch : goodKey (s.counter + 1) (rowIdStr s.counter) :=
    Or.inr ⟨s.counter, Nat.lt_succ_self _, Or.inl rfl⟩
  have hfresh : rowIdStr s.counter ∉ keysOf s.root :=
    fun hc => goodKey_ne_rowIdStr (hgood _ hc) rfl
  have hfresh2 : rowIdStr (s.counter + d) ∉ keysOf (shiftReg d s.root) := by
    rw [keysOf_shiftReg]
    intro hc
    obtain ⟨a, ha, hae⟩ := List.mem_map.mp hc
    have ha2 : a = rowIdStr s.counter :=
      shiftId_inj_good (hgood a ha) hgch (by rw [hae, shiftId_row])
    exact hfresh (ha2 ▸ ha)
  have hg2 : GoodReg (s.counter + 1) (s.root ++ [(rowIdStr s.counter, getRowContainer s.counter)]) := by
    intro a ha
    rw [keysOf_append] at ha
    rcases List.mem_append.mp ha with h1 | h1
    · exact goodKey_mono (Nat.le_succ _) (hgood a h1)
    · rw [show keysOf [(rowIdStr s.counter, getRowContainer s.counter)]
        = [rowIdStr s.counter] from rfl] at h1
      exact (List.mem_singleton.mp h1) ▸ hgch
  have hcomm : ∀ p ∈ s.root ++ [(rowIdStr s.counter, getRowContainer s.counter)],
      p.1 = pid →
      shiftNode d (pushF (rowIdStr s.counter) p.2)
        = pushF (rowIdStr (s.counter + d)) (shiftNode d p.2) := by
    intro p hp hpk
    simp [shiftNode, pushF, shiftId_row]
  have hone : shiftReg d [(rowIdStr s.counter, getRowContainer s.counter)]
      = [(rowIdStr (s.counter + d), getRowContainer (s.counter + d))] := by
    simp [shiftReg, shiftId_row, shiftNode_rowC]
  show ({ counter := s.counter + d + 1, root := updateEntry (setEntry (shiftReg d s.root) (rowIdStr (s.counter + d)) (getRowContainer (s.counter + d))) (shiftId d pid) (pushF (rowIdStr (s.counter + d))) } : ConvState)
    = shiftState d ({ counter := s.counter + 1, root := updateEntry (setEntry s.root (rowIdStr s.counter) (getRowContainer s.counter)) pid (pushF (rowIdStr s.counter)) } : ConvState)
  unfold shiftState
  congr 1
  · dsimp only
    omega
  · rw [setEntry_fresh _ _ _ hfresh, setEntry_fresh _ _ _ hfresh2]
    rw [updateEntry_shiftReg (pushF (rowIdStr s.counter)) (pushF (rowIdStr (s.counter + d)))
      hg2 hgpid hcomm]
    rw [shiftReg_append, hone]

theorem pushCol_shift (d : Nat) (s : ConvState) (pid : String)
    (hinv : StateInv s) (hpid : pid ∈ keysOf s.root) :
    pushChild { counter := s.counter + d + 1, root := setEntry (shiftReg d s.root) (colIdStr (s.counter + d)) (getColContainer (s.counter + d)) } (shiftId d pid) (colIdStr (s.counter + d))
      = shiftState d (pushChild { counter := s.counter + 1, root := setEntry s.root (colIdStr s.counter) (getColContainer s.counter) } pid (colIdStr s.counter)) := by
  obtain ⟨hgood, hndk, hsub, hcrnd⟩ := hinv
  have hgpid : goodKey s.counter pid := hgood pid hpid
  have hgch : goodKey (s.counter + 1) (colIdStr s.counter) :=
    Or.inr ⟨s.counter, Nat.lt_succ_self _, Or.inr (Or.inl rfl)⟩
  have hfresh : colIdStr s.counter ∉ keysOf s.root :=
    fun hc => goodKey_ne_colIdStr (hgood _ hc) rfl
  have hfresh2 : colIdStr (s.counter + d) ∉ keysOf (shiftReg d s.root) := by
    rw [keysOf_shiftReg]
    intro hc
    obtain ⟨a, ha, hae⟩ := List.mem_map.mp hc
    have ha2 : a = colIdStr s.counter :=
      shiftId_inj_good (hgood a ha) hgch (by rw [hae, shiftId_col])
    exact hfresh (ha2 ▸ ha)
  have hg2 : GoodReg (s.counter + 1) (s.root ++ [(colIdStr s.counter, getColContainer s.counter)]) := by
    intro a ha
    rw [keysOf_append] at ha
    rcases List.mem_append.mp ha with h1 | h1
    · exact goodKey_mono (Nat.le_succ _) (hgood a h1)
    · rw [show keysOf [(colIdStr s.counter, getColContainer s.counter)]
        = [colIdStr s.counter] from rfl] at h1
      exact (List.mem_singleton.mp h1) ▸ hgch
  have hcomm : ∀ p ∈ s.root ++ [(colIdStr s.counter, getColContainer s.counter)],
      p.1 = pid →
      shiftNode d (pushF (colIdStr s.counter) p.2)
        = pushF (colIdStr (s.counter + d)) (shiftNode d p.2) := by
    intro p hp hpk
    simp [shiftNode, pushF, shiftId_col]
  have hone : shiftReg d [(colIdStr s.counter, getColContainer s.counter)]
      = [(colIdStr (s.counter + d), getColContainer (s.counter + d))] := by
    simp [shiftReg, shiftId_col, shiftNode_colC]
  show ({ counter := s.counter + d + 1, root := updateEntry (setEntry (shiftReg d s.root) (colIdStr (s.counter + d)) (getColContainer (s.counter + d))) (shiftId d pid) (pushF (colIdStr (s.counter + d))) } : ConvState)
    = shiftState d ({ counter := s.counter + 1, root := updateEntry (setEntry s.root (colIdStr s.counter) (getColContainer s.counter)) pid (pushF (colIdStr s.counter)) } : ConvState)
  unfold shiftState
  congr 1
  · dsimp only
    omega
  · rw [setEntry_fresh _ _ _ hfresh, setEntry_fresh _ _ _ hfresh2]
    rw [updateEntry_shiftReg (pushF (colIdStr s.counter)) (pushF (colIdStr (s.counter + d)))
      hg2 hgpid hcomm]
    rw [shiftReg_append, hone]

theorem setRowWidth_shift (d : Nat) {s : ConvState} {k : String} {c2 : Nat}
    (hinv : StateInv s) (hk : goodKey c2 k) :
    setRowWidth (shiftState d s) (shiftId d k) = shiftState d (setRowWidth s k) := by
  obtain ⟨hgood, hndk, hsub, hcrnd⟩ := hinv
  have hcomm : ∀ p ∈ s.root, p.1 = k →
      shiftNode d (rowWidF s.root p.2) = rowWidF (shiftReg d s.root) (shiftNode d p.2) := by
    intro p hp hpk
    have hch : ∀ a ∈ p.2.children, ∃ c0, goodKey c0 a := by
      intro a ha
      refine ⟨s.counter, hgood a (hsub a ?_)⟩
      exact List.mem_flatMap.mpr ⟨p, hp, ha⟩
    have hwv : rowWidthVal (shiftReg d s.root) (p.2.children.map (shiftId d))
        = rowWidthVal s.root p.2.children := rowWidthVal_shiftReg hgood hch
    simp [shiftNode, rowWidF, hwv]
  show ({ counter := s.counter + d, root := updateEntry (shiftReg d s.root) (shiftId d k) (rowWidF (shiftReg d s.root)) } : ConvState)
    = shiftState d ({ counter := s.counter, root := updateEntry s.root k (rowWidF s.root) } : ConvState)
  unfold shiftState
  congr 1
  rw [updateEntry_shiftReg (rowWidF s.root) (rowWidF (shiftReg d s.root)) hgood hk hcomm]

theorem setColWidth_shift (d : Nat) {s : ConvState} {k : String} {c2 : Nat}
    (hinv : StateInv s) (hk : goodKey c2 k) :
    setColWidth (shiftState d s) (shiftId d k) = shiftState d (setColWidth s k) := by
  obtain ⟨hgood, hndk, hsub, hcrnd⟩ := hinv
  have hcomm : ∀ p ∈ s.root, p.1 = k →
      shiftNode d (colWidF s.root p.2) = colWidF (shiftReg d s.root) (shiftNode d p.2) := by
    intro p hp hpk
    have hch : ∀ a ∈ p.2.children, ∃ c0, goodKey c0 a := by
      intro a ha
      refine ⟨s.counter, hgood a (hsub a ?_)⟩
      exact List.mem_flatMap.mpr ⟨p, hp, ha⟩
    have hwv : colWidthVal (shiftReg d s.root) (p.2.children.map (shiftId d))
        = colWidthVal s.root p.2.children := colWidthVal_shiftReg hgood hch
    simp [shiftNode, colWidF, hwv]
  show ({ counter := s.counter + d, root := updateEntry (shiftReg d s.root) (shiftId d k) (colWidF (shiftReg d s.root)) } : ConvState)
    = shiftState d ({ counter := s.counter, root := updateEntry s.root k (colWidF s.root) } : ConvState)
  unfold shiftState
  congr 1
  rw [updateEntry_shiftReg (colWidF s.root) (colWidF (shiftReg d s.root)) hgood hk hcomm]

theorem foldCharts_shift (d : Nat) (pid : String) :
    ∀ (items : List Item) (s : ConvState), StateInv s → pid ∈ keysOf s.root →
      items.foldl (fun t item => addChartTo t (shiftId d pid) item) (shiftState d s)
        = shiftState d (items.foldl (fun t item => addChartTo t pid item) s) := by
  intro items
  induction items with
  | nil => intro s _ _; rfl
  | cons i rest ih =>
    intro s hinv hpid
    rw [List.foldl_cons, List.foldl_cons, addChartTo_shift d s pid i hinv hpid]
    have hout := addChartTo_out s pid i [pid] (GoodSt_stepHyp hinv hpid)
    have hh2 := StepHyp_preserved hout (GoodSt_stepHyp hinv hpid)
    exact ih (addChartTo s pid i) hh2.1 hh2.2.1

/-- Shift commutation for one layer, given commutation for the column scan it
may enter. -/
theorem processLayer_shift_gen (d : Nat) (layer : List Item) (level : Nat) (pid : String)
    (left right : Nat) (s : ConvState) (hinv : StateInv s) (hpid : pid ∈ keysOf s.root)
    (hsc : ∀ (hlv : level < 2),
      scanColsLoop (right - left) (left + 1) layer level (shiftId d (rowIdStr s.counter))
          (shiftState d (pushChild { counter := s.counter + 1, root := setEntry s.root (rowIdStr s.counter) (getRowContainer s.counter) } pid
            (rowIdStr s.counter))) hlv
        = shiftState d (scanColsLoop (right - left) (left + 1) layer level (rowIdStr s.counter)
            (pushChild { counter := s.counter + 1, root := setEntry s.root (rowIdStr s.counter) (getRowContainer s.counter) } pid
              (rowIdStr s.counter)) hlv)) :
    processLayer layer level (shiftId d pid) left right (shiftState d s)
      = shiftState d (processLayer layer level pid left right s) := by
  have hstep := pushContainer_stepHyp_row s pid [pid] (GoodSt_stepHyp hinv hpid)
  have hinv2 := hstep.1
  have hrid2 := hstep.2.1
  have hkrid : goodKey (s.counter + 1) (rowIdStr s.counter) :=
    Or.inr ⟨s.counter, Nat.lt_succ_self _, Or.inl rfl⟩
  rw [processLayer.eq_def, processLayer.eq_def]
  dsimp only
  by_cases hb : 2 ≤ level ∨ hasOverlap layer = false
  · rw [dif_pos hb, dif_pos hb]
    show setRowWidth ((sortJS sortByColId layer).foldl
        (fun t item => addChartTo t (rowIdStr (s.counter + d)) item)
        (pushChild { counter := s.counter + d + 1, root := setEntry (shiftReg d s.root) (rowIdStr (s.counter + d)) (getRowContainer (s.counter + d)) }
          (shiftId d pid) (rowIdStr (s.counter + d)))) (rowIdStr (s.counter + d))
      = shiftState d (setRowWidth ((sortJS sortByColId layer).foldl
          (fun t item => addChartTo t (rowIdStr s.counter) item)
          (pushChild { counter := s.counter + 1, root := setEntry s.root (rowIdStr s.counter) (getRowContainer s.counter) } pid
            (rowIdStr s.counter))) (rowIdStr s.counter))
    rw [pushRow_shift d s pid hinv hpid]
    rw [show rowIdStr (s.counter + d) = shiftId d (rowIdStr s.counter) from (shiftId_row d s.counter).symm]
    rw [foldCharts_shift d (rowIdStr s.counter) (sortJS sortByColId layer) _ hinv2 hrid2]
    have hout := foldCharts_out (sortJS sortByColId layer) (rowIdStr s.counter)
      (rowIdStr s.counter :: [pid]) _ hstep
    have hh3 := StepHyp_preserved hout hstep
    rw [setRowWidth_shift d hh3.1 hkrid]
  · rw [dif_neg hb, dif_neg hb]
    have hlv : level < 2 := by
      rcases Nat.lt_or_ge level 2 with h2 | h2
      · exact h2
      · exact absurd (Or.inl h2) hb
    show setRowWidth (scanColsLoop (right - left) (left + 1) layer level (rowIdStr (s.counter + d))
        (pushChild { counter := s.counter + d + 1, root := setEntry (shiftReg d s.root) (rowIdStr (s.counter + d)) (getRowContainer (s.counter + d)) }
          (shiftId d pid) (rowIdStr (s.counter + d))) hlv) (rowIdStr (s.counter + d))
      = shiftState d (setRowWidth (scanColsLoop (right - left) (left + 1) layer level
          (rowIdStr s.counter)
          (pushChild { counter := s.counter + 1, root := setEntry s.root (rowIdStr s.counter) (getRowContainer s.counter) } pid
            (rowIdStr s.counter)) hlv) (rowIdStr s.counter))
    rw [pushRow_shift d s pid hinv hpid]
    rw [show rowIdStr (s.counter + d) = shiftId d (rowIdStr s.counter) from (shiftId_row d s.counter).symm]
    rw [hsc hlv]
    obtain ⟨its, hout⟩ := scanColsLoop_any level hlv (rowIdStr s.counter) (rowIdStr s.counter :: [pid])
      (right - left) (left + 1) layer _ hstep
    have hh3 := StepHyp_preserved hout hstep
    rw [setRowWidth_shift d hh3.1 hkrid]

theorem processLayers_shift_gen (d : Nat) (layers : List (List Item)) (level : Nat) (pid : String)
    (left right : Nat)
    (hpl : ∀ layer ∈ layers, ∀ s, StateInv s → pid ∈ keysOf s.root →
      processLayer layer level (shiftId d pid) left right (shiftState d s)
        = shiftState d (processLayer layer level pid left right s)) :
    ∀ s, StateInv s → pid ∈ keysOf s.root →
      processLayers layers level (shiftId d pid) left right (shiftState d s)
        = shiftState d (processLayers layers level pid left right s) := by
  induction layers with
  | nil =>
    intro s hinv hpid
    rw [processLayers.eq_def, processLayers.eq_def]
  | cons layer rest ih =>
    intro s hinv hpid
    rw [processLayers.eq_def, processLayers.eq_def]
    dsimp only
    rw [hpl layer (List.mem_cons_self _ _) s hinv hpid]
    obtain ⟨its, hout⟩ := processLayer_any layer level pid left right s [pid]
      (GoodSt_stepHyp hinv hpid)
    have hh2 := StepHyp_preserved hout (GoodSt_stepHyp hinv hpid)
    exact ih (fun l hl => hpl l (List.mem_cons_of_mem _ hl)) _ hh2.1 hh2.2.1

theorem doConvert_shift_high (d : Nat) (layout : List Item) (level : Nat) (pid : String)
    (s : ConvState) (hinv : StateInv s) (hpid : pid ∈ keysOf s.root) (hlev : 2 ≤ level) :
    doConvert layout level (shiftId d pid) (shiftState d s)
      = shiftState d (doConvert layout level pid s) := by
  rw [doConvert.eq_def, doConvert.eq_def]
  match layout with
  | [] => rfl
  | [item] =>
    dsimp only
    exact addChartTo_shift d s pid item hinv hpid
  | a :: b :: rest =>
    dsimp only
    exact processLayers_shift_gen d _ level pid _ _
      (fun layer hl s' hinv' hpid' => processLayer_shift_gen d layer level pid _ _ s' hinv' hpid'
        (fun hlv => absurd hlev (Nat.not_le.mpr hlv))) s hinv hpid

theorem scanColsLoop_shift (d : Nat) (level : Nat) (hlv : level < 2) (rid : String) :
    ∀ (fuel cc : Nat) (items : List Item) (s : ConvState), StateInv s → rid ∈ keysOf s.root →
      scanColsLoop fuel cc items level (shiftId d rid) (shiftState d s) hlv
        = shiftState d (scanColsLoop fuel cc items level rid s hlv) := by
  intro fuel
  induction fuel with
  | zero =>
    intro cc items s hinv hrid
    rw [scanColsLoop.eq_def, scanColsLoop.eq_def]
  | succ fuel ih =>
    intro cc items s hinv hrid
    have hstep := pushContainer_stepHyp_col s rid [rid] (GoodSt_stepHyp hinv hrid)
    have hinv2 := hstep.1
    have hcid2 := hstep.2.1
    have hkcid : goodKey (s.counter + 1) (colIdStr s.counter) :=
      Or.inr ⟨s.counter, Nat.lt_succ_self _, Or.inr (Or.inl rfl)⟩
    rw [scanColsLoop.eq_def, scanColsLoop.eq_def]
    dsimp only
    by_cases hempty : items.isEmpty
    · rw [if_pos hempty, if_pos hempty]
    · rw [if_neg hempty, if_neg hempty]
      rcases hcl : classifyCol cc items with _ | ⟨lower, upper⟩
      · dsimp only
        exact ih (cc + 1) items s hinv hrid
      · dsimp only
        by_cases hov : hasOverlap lower false = false
        · rw [if_pos hov, if_pos hov]
          show scanColsLoop fuel (cc + 1) upper level (shiftId d rid)
              (setColWidth ((sortJS sortByRowId lower).foldl
                (fun t item => addChartTo t (colIdStr (s.counter + d)) item)
                (pushChild { counter := s.counter + d + 1, root := setEntry (shiftReg d s.root) (colIdStr (s.counter + d)) (getColContainer (s.counter + d)) }
                  (shiftId d rid) (colIdStr (s.counter + d)))) (colIdStr (s.counter + d))) hlv
            = shiftState d (scanColsLoop fuel (cc + 1) upper level rid
                (setColWidth ((sortJS sortByRowId lower).foldl
                  (fun t item => addChartTo t (colIdStr s.counter) item)
                  (pushChild { counter := s.counter + 1, root := setEntry s.root (colIdStr s.counter) (getColContainer s.counter) } rid
                    (colIdStr s.counter))) (colIdStr s.counter)) hlv)
          rw [pushCol_shift d s rid hinv hrid]
          rw [show colIdStr (s.counter + d) = shiftId d (colIdStr s.counter)
            from (shiftId_col d s.counter).symm]
          rw [foldCharts_shift d (colIdStr s.counter) (sortJS sortByRowId lower) _ hinv2 hcid2]
          have hout := foldCharts_out (sortJS sortByRowId lower) (colIdStr s.counter)
            (colIdStr s.counter :: [rid]) _ hstep
          have hh3 := StepHyp_preserved hout hstep
          rw [setColWidth_shift d hh3.1 hkcid]
          have hF := ConvOut_perm_items (sortJS_perm sortByRowId lower) hout
          have hout4 := colStage_out s _ _ rid [rid] lower (GoodSt_stepHyp hinv hrid) rfl rfl hF
          have hh4 := StepHyp_preserved hout4 (GoodSt_stepHyp hinv hrid)
          exact ih (cc + 1) upper _ hh4.1 hh4.2.1
        · rw [if_neg hov, if_neg hov]
          show scanColsLoop fuel (cc + 1) upper level (shiftId d rid)
              (setColWidth (doConvert lower (level + 2) (colIdStr (s.counter + d))
                (pushChild { counter := s.counter + d + 1, root := setEntry (shiftReg d s.root) (colIdStr (s.counter + d)) (getColContainer (s.counter + d)) }
                  (shiftId d rid) (colIdStr (s.counter + d)))) (colIdStr (s.counter + d))) hlv
            = shiftState d (scanColsLoop fuel (cc + 1) upper level rid
                (setColWidth (doConvert lower (level + 2) (colIdStr s.counter)
                  (pushChild { counter := s.counter + 1, root := setEntry s.root (colIdStr s.counter) (getColContainer s.counter) } rid
                    (colIdStr s.counter))) (colIdStr s.counter)) hlv)
          rw [pushCol_shift d s rid hinv hrid]
          rw [show colIdStr (s.counter + d) = shiftId d (colIdStr s.counter)
            from (shiftId_col d s.counter).symm]
          rw [doConvert_shift_high d lower (level + 2) (colIdStr s.counter) _ hinv2 hcid2 (by omega)]
          obtain ⟨its1, hout⟩ := doConvert_any_high lower (level + 2) (colIdStr s.counter) _
            (colIdStr s.counter :: [rid]) hstep (by omega)
          have hh3 := StepHyp_preserved hout hstep
          rw [setColWidth_shift d hh3.1 hkcid]
          have hout4 := colStage_out s _ _ rid [rid] its1 (GoodSt_stepHyp hinv hrid) rfl rfl hout
          have hh4 := StepHyp_preserved hout4 (GoodSt_stepHyp hinv hrid)
          exact ih (cc + 1) upper _ hh4.1 hh4.2.1

theorem processLayer_shift (d : Nat) (layer : List Item) (level : Nat) (pid : String)
    (left right : Nat) (s : ConvState) (hinv : StateInv s) (hpid : pid ∈ keysOf s.root) :
    processLayer layer level (shiftId d pid) left right (shiftState d s)
      = shiftState d (processLayer layer level pid left right s) := by
  refine processLayer_shift_gen d layer level pid left right s hinv hpid ?_
  intro hlv
  have hstep := pushContainer_stepHyp_row s pid [pid] (GoodSt_stepHyp hinv hpid)
  exact scanColsLoop_shift d level hlv (rowIdStr s.counter) (right - left) (left + 1) layer _
    hstep.1 hstep.2.1

theorem doConvert_shift (d : Nat) (layout : List Item) (level : Nat) (pid : String)
    (s : ConvState) (hinv : StateInv s) (hpid : pid ∈ keysOf s.root) :
    doConvert layout level (shiftId d pid) (shiftState d s)
      = shiftState d (doConvert layout level pid s) := by
  rw [doConvert.eq_def, doConvert.eq_def]
  match layout with
  | [] => rfl
  | [item] =>
    dsimp only
    exact addChartTo_shift d s pid item hinv hpid
  | a :: b :: rest =>
    dsimp only
    exact processLayers_shift_gen d _ level pid _ _
      (fun layer hl s' hinv' hpid' => processLayer_shift d layer level pid _ _ s' hinv' hpid')
      s hinv hpid

/-- Shifting the starting counter shifts every generated id in the result. -/
theorem convert_shift (layout : List Item) (c d : Nat) :
    convert layout (c + d) = shiftReg d (convert layout c) := by
  unfold convert
  have h0 : ({ counter := c + d, root := [(rootId, rootNode)] } : ConvState)
      = shiftState d { counter := c, root := [(rootId, rootNode)] } := rfl
  have hcomm := doConvert_shift d layout 0 rootId
    { counter := c, root := [(rootId, rootNode)] } (initial_stepHyp c).1 (by simp [keysOf])
  rw [shiftId_root] at hcomm
  rw [← h0] at hcomm
  rw [hcomm]
  rfl

/-- Position of a key in a key list (first match, one step per entry). -/
def keyIdx : List String → String → Nat
  | [], _ => 0
  | a :: rest, k => if a = k then 0 else keyIdx rest k + 1

/-- The id-free shape of a node: version, type, children as key positions,
and the full meta record. -/
def nodeShape (ks : List String) (n : Node) : String × String × List Nat × Option Meta :=
  (n.version, n.type, n.children.map (keyIdx ks), n.meta)

/-- The id-free shape of a registry, in insertion order. -/
def regShape (reg : Registry) : List (String × String × List Nat × Option Meta) :=
  reg.map (fun p => nodeShape (keysOf reg) p.2)

theorem keyIdx_shift {d : Nat} {k : String} (hk : ∃ c1, goodKey c1 k) :
    ∀ {ks : List String}, (∀ a ∈ ks, ∃ c0, goodKey c0 a) →
      keyIdx (ks.map (shiftId d)) (shiftId d k) = keyIdx ks k := by
  intro ks
  induction ks with
  | nil => intro _; rfl
  | cons a rest ih =>
    intro hks
    obtain ⟨c0, hc0⟩ := hks a (List.mem_cons_self _ _)
    obtain ⟨c1, hc1⟩ := hk
    show (if shiftId d a = shiftId d k then 0 else keyIdx (rest.map (shiftId d)) (shiftId d k) + 1)
      = if a = k then 0 else keyIdx rest k + 1
    by_cases hak : a = k
    · rw [if_pos (by rw [hak]), if_pos hak]
    · rw [if_neg (fun hc => hak (shiftId_inj_good hc0 hc1 hc)), if_neg hak,
        ih (fun b hb => hks b (List.mem_cons_of_mem _ hb))]

theorem regShape_shift {d c : Nat} {reg : Registry} (hg : GoodReg c reg)
    (hsub : ∀ k ∈ childRefs reg, k ∈ keysOf reg) :
    regShape (shiftReg d reg) = regShape reg := by
  unfold regShape
  rw [show shiftReg d reg = reg.map (fun p => (shiftId d p.1, shiftNode d p.2)) from rfl,
    List.map_map]
  refine List.map_congr_left ?_
  intro p hp
  show nodeShape (keysOf (shiftReg d reg)) (shiftNode d p.2) = nodeShape (keysOf reg) p.2
  unfold nodeShape shiftNode
  simp only [keysOf_shiftReg, List.map_map]
  refine congrArg (fun x => (p.2.version, p.2.type, x, p.2.meta)) ?_
  refine List.map_congr_left ?_
  intro a ha
  have hamem : a ∈ keysOf reg := hsub a (List.mem_flatMap.mpr ⟨p, hp, ha⟩)
  show keyIdx ((keysOf reg).map (shiftId d)) (shiftId d a) = keyIdx (keysOf reg) a
  exact keyIdx_shift ⟨c, hg a hamem⟩ (fun b hb => ⟨c, hg b hb⟩)

/-- Claim C9: determinism — conversions of the same layout from different
counter starts produce identical registries up to id naming: same entry
order, same version/type/meta on each node, and the same child lists as key
positions. -/
theorem C9_determinism (layout : List Item) (c1 c2 : Nat) :
    regShape (convert layout c1) = regShape (convert layout c2) := by
  have key : ∀ (c d : Nat), regShape (convert layout (c + d)) = regShape (convert layout c) := by
    intro c d
    rw [convert_shift layout c d]
    obtain ⟨its, hout⟩ := doConvert_any layout 0 rootId _ [rootId] (initial_stepHyp c)
    have hinv := hout.2.1
    have hg : GoodReg (doConvert layout 0 rootId
        { counter := c, root := [(rootId, rootNode)] }).counter (convert layout c) := hinv.1
    exact regShape_shift hg hinv.2.2.1
  rcases Nat.le_total c1 c2 with h | h
  · obtain ⟨d, rfl⟩ := Nat.le.dest h
    exact (key c1 d).symm
  · obtain ⟨d, rfl⟩ := Nat.le.dest h
    exact key c2 d

end LayoutConverter
